import Mathlib

/-!
A verification development for the WGS word-game engine.

The definitions below are shallow embeddings of the C++ sources:
`scramble.cpp`/`scramble.h` (Trie, Board, Solution, Solver),
`analyze.cpp` (SolutionAnalysis), `validate.cpp` (Validator) and
`maker.cpp` (board generator acceptance test).

Modelling conventions:
* `std::string` is modelled as `List Char`; `std::toupper`, `isupper`,
  `islower`, `isalpha` (in the "C" locale, as the program assumes) are
  modelled by `Char.toUpper`, `Char.isUpper`, `Char.isLower`, `Char.isAlpha`.
* `unsigned`/`size_t` quantities that the program only ever moves upward
  (scores, counts, multipliers) are modelled as `Nat`; `int` quantities that
  are compared possibly against negative configuration values stay `Int`.
  The one place where unsigned wrap-around is semantically relevant — the
  generator's acceptance test `(int)(best_score - board_score)` — is
  modelled bit-faithfully (`sub64`, `toInt32`).
* `double` is modelled as `Rat`; `ceil` is `Rat.ceil` and the
  double-to-unsigned conversion truncates toward zero (`ratTrunc`).
* The recursive depth-first search of `Solver::_solve` is modelled with an
  explicit fuel parameter; `Solver.solve` supplies fuel `2 * boardSize + 2`,
  which is an upper bound on the recursion depth actually reachable
  (each tile on the walk costs at most two frames: one wildcard expansion
  frame and one consumption frame).
-/

namespace WGS

/-- The null character, the initial content of the solver's wildcard array
(`wildcard[i] = '\0'` in `Solver::solve`). -/
def nulChar : Char := Char.ofNat 0

/-- `ALPHABET_SIZE = 26` letters `'A' + i`, in the fixed order in which
`Solver::_solve` expands a wildcard tile. -/
def alphabet : List Char := (List.range 26).map (fun i => Char.ofNat (65 + i))

/-- Upper-case letters behave like `c = 'Q' ∨ c = 'q'` under `toUpper`:
the check `std::toupper(*i) == 'Q'` in `Solver::_solve` and the check
`letter == 'Q' || letter == 'q'` in `Solver::score_solution` agree. -/
theorem toNat_ofNat_small {n : Nat} (h : n < 55296) : (Char.ofNat n).toNat = n := by
  have hv : n.isValidChar := Or.inl h
  rw [Char.ofNat, dif_pos hv]
  simp [Char.ofNatAux, Char.toNat, UInt32.toNat]

theorem toUpper_eq_Q_iff (c : Char) : c.toUpper = 'Q' ↔ c = 'Q' ∨ c = 'q' := by
  constructor
  · intro h
    unfold Char.toUpper at h
    simp only [] at h
    split at h
    · next hrange =>
      right
      have hlt : c.toNat - 32 < 55296 := by omega
      have h2 : (Char.ofNat (c.toNat - 32)).toNat = ('Q' : Char).toNat := by rw [h]
      rw [toNat_ofNat_small hlt] at h2
      have hQ : ('Q' : Char).toNat = 81 := rfl
      rw [hQ] at h2
      have h3 : c.toNat = ('q' : Char).toNat := by
        show c.toNat = 113
        omega
      have h4 := congrArg Char.ofNat h3
      rwa [Char.ofNat_toNat, Char.ofNat_toNat] at h4
    · exact Or.inl h
  · intro h
    cases h with
    | inl h => subst h; rfl
    | inr h => subst h; rfl

/-! ### Trie (`class Trie` in scramble.h / scramble.cpp)

The C++ trie stores children either in a single inline slot or in a dense
26-pointer array; both are observationally an association of uppercase
letters to subtries, which is how we model the children (cf. the design
note in the spec blessing a uniform children representation). -/

inductive Trie where
  | node (isWord : Bool) (children : List (Char × Trie))
deriving Repr

/-- The `is_word` flag (`Trie::is_a_word()` with no argument). -/
def Trie.isWordF : Trie → Bool
  | .node w _ => w

def Trie.kids : Trie → List (Char × Trie)
  | .node _ cs => cs

/-- `Trie::child(c)`: the subtrie for uppercase `c`, `none` otherwise
(the C++ returns null for non-uppercase input). -/
def Trie.child (t : Trie) (c : Char) : Option Trie :=
  if c.isUpper then t.kids.lookup c else none

def Trie.empty : Trie := .node false []

/-- Replace the subtrie stored under key `c`. -/
def replaceKid (cs : List (Char × Trie)) (c : Char) (t : Trie) : List (Char × Trie) :=
  cs.map (fun p => if p.1 = c then (c, t) else p)

/-- `Trie::add_word`: case-insensitive insert; a non-letter aborts the
insert silently; the end of the word sets `is_word`. -/
def Trie.addWord : Trie → List Char → Trie
  | t, [] => .node true t.kids
  | t, ch :: rest =>
    let letter := ch.toUpper
    if letter.isUpper then
      match t.kids.lookup letter with
      | some sub => .node t.isWordF (replaceKid t.kids letter (sub.addWord rest))
      | none => .node t.isWordF (t.kids ++ [(letter, Trie.empty.addWord rest)])
    else t

def Trie.ofWords (ws : List (List Char)) : Trie :=
  ws.foldl Trie.addWord Trie.empty

/-- Membership of a word in the trie, through `Trie::child` descents
ending on the `is_word` flag (the lookup semantics of `Trie::is_a_word`). -/
def Trie.containsWord : Trie → List Char → Bool
  | t, [] => t.isWordF
  | t, c :: rest =>
    match t.child c with
    | none => false
    | some t2 => t2.containsWord rest

/-- Iterated `Trie::child` descent. -/
def Trie.descend : Trie → List Char → Option Trie
  | t, [] => some t
  | t, c :: rest =>
    match t.child c with
    | none => none
    | some t2 => t2.descend rest

theorem Trie.containsWord_eq_descend (t : Trie) (w : List Char) :
    t.containsWord w = ((t.descend w).map Trie.isWordF).getD false := by
  induction w generalizing t with
  | nil => rfl
  | cons c rest ih =>
    simp only [containsWord, descend]
    cases t.child c with
    | none => rfl
    | some t2 => exact ih t2

theorem Trie.descend_append (t : Trie) (w1 w2 : List Char) :
    t.descend (w1 ++ w2) = (t.descend w1).bind (fun t2 => t2.descend w2) := by
  induction w1 generalizing t with
  | nil => rfl
  | cons c rest ih =>
    simp only [List.cons_append, descend]
    cases t.child c with
    | none => rfl
    | some t2 => exact ih t2

/-! ### Scoring rules (`class GameScoringRules` in wgs.h)

`letter_values` is a `std::map<char, int>` and `length_bonuses` a
`std::map<int, double>`; we model them as association lists.  Letter values
are accumulated by the scorer into `unsigned` variables, which for the
nonnegative configuration values the program works with coincides with
`Nat` arithmetic. -/

structure GameScoringRules where
  qIsQu : Bool := true
  quLength : Int := 1
  minWordLength : Int := 0
  shortWordLength : Int := 0
  shortWordPoints : Nat := 0
  shortWordMultiplier : Bool := false
  wildCardPoints : Bool := false
  roundBonusUp : Bool := false
  multiplyLengthBonus : Bool := false
  randomBoardSize : Nat := 0
  letterValues : List (Char × Nat) := []
  lengthBonuses : List (Int × Rat) := []

/-- `GameScoringRules::letterValue`: looks up `toupper(letter)`, 0 when
absent. -/
def GameScoringRules.letterValue (sr : GameScoringRules) (c : Char) : Nat :=
  (sr.letterValues.lookup c.toUpper).getD 0

/-- `GameScoringRules::lengthBonus`: 0 when absent. -/
def GameScoringRules.lengthBonus (sr : GameScoringRules) (n : Int) : Rat :=
  (sr.lengthBonuses.lookup n).getD 0

/-! ### Board (`class Board` in scramble.h / scramble.cpp) -/

/-- A parsed board: the tile letter strings, the per-tile multipliers and
the adjacency matrix (`none` models a null `adj_matrix`, i.e. a "Full"
grid where `is_adjacent` is constantly true). -/
structure Board where
  tiles : List (List Char)
  letterMult : List Nat
  wordMult : List Nat
  adjMatrix : Option (List (List Bool))

def Board.size (b : Board) : Nat := b.tiles.length

def Board.tileAt (b : Board) (i : Nat) : List Char := b.tiles.getD i []

def Board.letterMultAt (b : Board) (i : Nat) : Nat := b.letterMult.getD i 1

def Board.wordMultAt (b : Board) (i : Nat) : Nat := b.wordMult.getD i 1

/-- `Board::is_adjacent`: true for all pairs when the matrix is null. -/
def Board.isAdjacent (b : Board) (i j : Nat) : Bool :=
  match b.adjMatrix with
  | none => true
  | some m => (m.getD i []).getD j false

/-- The invariant `Board::parse_board` establishes for every tile string:
a tile is empty, or consists of an uppercase-or-`'?'` head followed by
lowercase letters only.  In particular `'?'` can occur only as the head. -/
def tileWF (tl : List Char) : Prop :=
  tl = [] ∨ ∃ c rest, tl = c :: rest ∧ (c.isUpper ∨ c = '?') ∧ ∀ d ∈ rest, d.isLower

def Board.WF (b : Board) : Prop := ∀ tl ∈ b.tiles, tileWF tl

/-! ### Board parsing (`Board::parse_board`) -/

/-- One step of the `Board::parse_board` character loop.  The state is
`(tiles, letterMults, wordMults, pendingLetterMult, pendingWordMult)`. -/
def parseStep (st : List (List Char) × List Nat × List Nat × Nat × Nat) (letter : Char) :
    List (List Char) × List Nat × List Nat × Nat × Nat :=
  let (tiles, lms, wms, lm, wm) := st
  if letter = ':' then (tiles, lms, wms, lm + 1, wm)
  else if letter = ';' then (tiles, lms, wms, lm, wm + 1)
  else if letter.isAlpha ∨ letter = '?' ∨ letter = '.' then
    if letter.isLower ∧ tiles ≠ [] then
      (tiles.dropLast ++ [tiles.getLast! ++ [letter]], lms, wms, lm, wm)
    else if letter.isUpper ∨ letter = '?' then
      (tiles ++ [[letter]], lms ++ [lm], wms ++ [wm], 1, 1)
    else if letter = '.' then
      (tiles ++ [[]], lms ++ [lm], wms ++ [wm], 1, 1)
    else (tiles, lms, wms, lm, wm)
  else (tiles, lms, wms, lm, wm)

/-- `Board::parse_board` over a description string, producing the tile
strings and multiplier grids (`pos > 0` in the C++ corresponds to a
non-empty tile list here). -/
def parseBoard (letters : List Char) : List (List Char) × List Nat × List Nat :=
  let (tiles, lms, wms, _, _) := letters.foldl parseStep ([], [], [], 1, 1)
  (tiles, lms, wms)

/-! ### Solution (`class Solution` in scramble.h) -/

structure Solution where
  word : List Char
  positions : List Nat
  wordLength : Nat
  score : Nat
  letterPoints : Nat
  wordMultiplier : Nat
  lengthBonus : Rat
deriving DecidableEq, Repr

/-! ### The scorer (`Solver::score_solution`) -/

/-- Truncation toward zero, the behaviour of the C++ `double`-to-integer
conversion used when `roundBonusUp` is not set. -/
def ratTrunc (q : Rat) : Int := if 0 ≤ q then q.floor else q.ceil

/-- The inner loop of `Solver::score_solution` over one tile's letters.
`wcl` is `wildcard[*iter]`, the wildcard letter recorded for the tile.
The accumulator is `(word_len, word, tile_value)`. -/
def scoreChars (sr : GameScoringRules) (wcl : Char) :
    List Char → Nat → List Char → Nat → Nat × List Char × Nat
  | [], wordLen, word, tileValue => (wordLen, word, tileValue)
  | ch :: rest, wordLen, word, tileValue =>
    let isWild := ch = '?'
    let letter := if isWild then wcl else ch
    let wordLen := wordLen + 1
    let word := word ++ [letter.toUpper]
    let wordLen := if (letter = 'Q' ∨ letter = 'q') ∧ sr.qIsQu ∧ sr.quLength = 2
      then wordLen + 1 else wordLen
    let word := if (letter = 'Q' ∨ letter = 'q') ∧ sr.qIsQu then word ++ ['U'] else word
    let tileValue := if ¬ isWild ∨ sr.wildCardPoints
      then tileValue + sr.letterValue letter else tileValue
    scoreChars sr wcl rest wordLen word tileValue

/-- The outer loop of `Solver::score_solution` over the path positions.
The accumulator is `(word_len, word, letter_points, word_multiplier)`. -/
def scorePositions (b : Board) (sr : GameScoringRules) (wc : List Char) :
    List Nat → Nat → List Char → Nat → Nat → Nat × List Char × Nat × Nat
  | [], wordLen, word, lp, wm => (wordLen, word, lp, wm)
  | p :: rest, wordLen, word, lp, wm =>
    let r := scoreChars sr (wc.getD p nulChar) (b.tileAt p) wordLen word 0
    scorePositions b sr wc rest r.1 r.2.1 (lp + r.2.2 * b.letterMultAt p) (wm * b.wordMultAt p)

/-- `Solver::score_solution`. -/
def scoreSolution (b : Board) (sr : GameScoringRules) (wc : List Char)
    (ps : List Nat) : Solution :=
  let r := scorePositions b sr wc ps 0 [] 0 1
  let wordLen := r.1
  let word := r.2.1
  let lp := r.2.2.1
  let wm := r.2.2.2
  if (wordLen : Int) < sr.minWordLength then
    ⟨word, ps, wordLen, 0, 0, 1, 0⟩
  else if (wordLen : Int) ≤ sr.shortWordLength then
    if sr.shortWordMultiplier then
      ⟨word, ps, wordLen, wm * sr.shortWordPoints, sr.shortWordPoints, wm, 0⟩
    else
      ⟨word, ps, wordLen, sr.shortWordPoints, sr.shortWordPoints, 1, 0⟩
  else
    let lb := sr.lengthBonus (wordLen : Int)
    let base : Rat := if sr.multiplyLengthBonus
      then ((lp * wm : Nat) : Rat) * lb
      else ((lp * wm : Nat) : Rat) + lb
    let sc : Nat := if sr.roundBonusUp then base.ceil.toNat else (ratTrunc base).toNat
    ⟨word, ps, wordLen, sc, lp, wm, lb⟩

/-! ### The solver (`class Solver`, `Solver::solve` and `Solver::_solve`)

The mutable members `used`, `path`, `wildcard` and `solutions` are passed
as an explicit search state.  Recursion is driven by a fuel parameter;
`Solver.solve` supplies `2 * boardSize + 2`, enough for any reachable
recursion (a wildcard tile costs one extra frame on top of the one frame
per tile entered). -/

structure SState where
  used : List Bool
  path : List Nat
  wildcard : List Char
  solutions : List Solution

def usedAt (st : SState) (i : Nat) : Bool := st.used.getD i false

def wcAt (wc : List Char) (i : Nat) : Char := wc.getD i nulChar

/-- Result of the character-consumption loop at the head of
`Solver::_solve`: a failed trie descent, a wildcard (`'?'`) encountered
with the trie node current at that moment, or the whole tile consumed. -/
inductive TileStep where
  | fail
  | wild (t : Trie)
  | ok (t : Trie)

/-- The `for` loop over the tile's characters in `Solver::_solve`:
descend the trie on `toupper(*i)` (and on `'U'` after a `Q` when
`qIsQu`), stopping at the first `'?'`. -/
def tileLoop (sr : GameScoringRules) : Trie → List Char → TileStep
  | t, [] => .ok t
  | t, ch :: rest =>
    if ch = '?' then .wild t
    else
      match t.child ch.toUpper with
      | none => .fail
      | some t1 =>
        if sr.qIsQu ∧ ch.toUpper = 'Q' then
          match t1.child 'U' with
          | none => .fail
          | some t2 => tileLoop sr t2 rest
        else tileLoop sr t1 rest

/-- `Solver::_solve(pos, t, tile, sr)`. -/
def solveAux (b : Board) (sr : GameScoringRules) :
    Nat → Nat → Trie → List Char → SState → SState
  | 0, _, _, _, st => st
  | fuel + 1, pos, t, tile, st =>
    if tile = [] then st
    else
      match tileLoop sr t tile with
      | .fail => st
      | .wild t1 =>
        alphabet.foldl (fun st c =>
          solveAux b sr fuel pos t1 (c :: tile.drop 1)
            { st with wildcard := st.wildcard.set pos c }) st
      | .ok t1 =>
        let st1 : SState :=
          { st with used := st.used.set pos true, path := st.path ++ [pos] }
        let st2 : SState :=
          if t1.isWordF then
            let sol := scoreSolution b sr st1.wildcard st1.path
            if (sol.wordLength : Int) ≥ sr.minWordLength then
              { st1 with solutions := st1.solutions ++ [sol] }
            else st1
          else st1
        let st3 := (List.range b.size).foldl (fun st i =>
          if usedAt st i = false ∧ b.isAdjacent pos i = true then
            solveAux b sr fuel i t1 (b.tileAt i) st
          else st) st2
        { st3 with used := st3.used.set pos false, path := st3.path.dropLast }

/-- The solver object: the dictionary trie plus the mutable members. -/
structure Solver where
  dict : Trie
  solutions : List Solution := []
  used : List Bool := []
  path : List Nat := []
  wildcard : List Char := []

/-- `Solver::add_word`. -/
def Solver.addWord (s : Solver) (w : List Char) : Solver :=
  { s with dict := s.dict.addWord w }

/-- `Solver::solve(b, sr)`: a null board returns at once; otherwise the
per-call state is re-initialised and a depth-first walk is started from
every tile. -/
def Solver.solve (s : Solver) (b : Option Board) (sr : GameScoringRules) : Solver :=
  match b with
  | none => s
  | some b =>
    let n := b.size
    let st0 : SState := ⟨List.replicate n false, [], List.replicate n nulChar, []⟩
    let stF := (List.range n).foldl
      (fun st i => solveAux b sr (2 * n + 2) i s.dict (b.tileAt i) st) st0
    { s with solutions := stF.solutions, used := stF.used,
             path := stF.path, wildcard := stF.wildcard }

/-- `Solver::get_solutions`. -/
def Solver.getSolutions (s : Solver) : List Solution := s.solutions

/-! ### The analyzer (`SolutionAnalysis::SolutionAnalysis` in analyze.cpp)

The `std::map<size_t, ...>` members with their zero-defaulting `operator[]`
are modelled as total functions `Nat → Nat` updated pointwise; the
`std::set<int>` of already-credited positions is a duplicate-free list. -/

structure SolutionAnalysis where
  bestWords : Nat → List Char
  bestWordPoints : Nat → Nat
  wordLengthCounts : Nat → Nat
  pointLengthCounts : Nat → Nat
  wordLengthpCounts : Nat → Nat
  pointLengthpCounts : Nat → Nat
  positionWords : Nat → Nat
  positionPoints : Nat → Nat

def bump (f : Nat → Nat) (k : Nat) (d : Nat) : Nat → Nat :=
  fun n => if n = k then f n + d else f n

def setAt (f : Nat → List Char) (k : Nat) (v : List Char) : Nat → List Char :=
  fun n => if n = k then v else f n

def emptyAnalysis : SolutionAnalysis :=
  ⟨fun _ => [], fun _ => 0, fun _ => 0, fun _ => 0, fun _ => 0, fun _ => 0,
   fun _ => 0, fun _ => 0⟩

/-- The per-position crediting step inside the constructor's loop: a
position not yet credited for the current word gets one word and `score`
points, and is recorded in the credited set. -/
def posCredit (score : Nat) (acc2 : SolutionAnalysis × List Nat) (pos : Nat) :
    SolutionAnalysis × List Nat :=
  let p := pos + 1
  if p ∈ acc2.2 then acc2
  else ({ acc2.1 with positionWords := bump acc2.1.positionWords p 1,
                      positionPoints := bump acc2.1.positionPoints p score },
        acc2.2 ++ [p])

/-- The best-word updates (run for every solution). -/
def bestUpdate (word : List Char) (wordLength score : Nat) (a : SolutionAnalysis) :
    SolutionAnalysis :=
  let a := if a.bestWordPoints wordLength < score then
      { a with bestWords := setAt a.bestWords wordLength word,
               bestWordPoints := bump a.bestWordPoints wordLength
                 (score - a.bestWordPoints wordLength) }
    else a
  if a.bestWordPoints 0 < score then
    { a with bestWords := setAt a.bestWords 0 word,
             bestWordPoints := bump a.bestWordPoints 0 (score - a.bestWordPoints 0) }
  else a

/-- The length-aggregate updates run on the first encounter of a word. -/
def firstUpdate (wordLength score : Nat) (a : SolutionAnalysis) : SolutionAnalysis :=
  { a with
    wordLengthCounts := bump (bump a.wordLengthCounts wordLength 1) 0 1,
    pointLengthCounts := bump (bump a.pointLengthCounts wordLength score) 0 score,
    wordLengthpCounts := (List.range (wordLength + 1)).foldl
      (fun f j => bump f j 1) a.wordLengthpCounts,
    pointLengthpCounts := (List.range (wordLength + 1)).foldl
      (fun f j => bump f j score) a.pointLengthpCounts,
    positionWords := bump a.positionWords 0 1,
    positionPoints := bump a.positionPoints 0 score }

/-- The body of the constructor's `for` loop, for one solution.  The
state is `(analysis, last_word, last_word_positions)`. -/
def analyzeStep (acc : SolutionAnalysis × List Char × List Nat) (s : Solution) :
    SolutionAnalysis × List Char × List Nat :=
  let a := acc.1
  let lastWord := acc.2.1
  let score := s.score
  let word := s.word
  let wordLength := word.length
  let lastPos := if word ≠ lastWord then [] else acc.2.2
  let a := bestUpdate word wordLength score a
  let a := if word ≠ lastWord then firstUpdate wordLength score a else a
  let r := s.positions.foldl (posCredit score) (a, lastPos)
  (r.1, word, r.2)

/-- `SolutionAnalysis::SolutionAnalysis(board, solutions)`: the fold over
the (sorted) solution list.  `last_word` starts as the empty string and
`last_word_positions` empty. -/
def analyze (sols : List Solution) : SolutionAnalysis :=
  (sols.foldl analyzeStep (emptyAnalysis, [], [])).1

/-! ### The validator (`Validator::validatePropensityBoard` in validate.cpp) -/

/-- Removal of the first occurrence of an element, the effect of
`letters.erase(std::find(letters.begin(), letters.end(), tile))`. -/
def eraseFirst : List (List Char) → List Char → List (List Char)
  | [], _ => []
  | x :: xs, t => if x = t then xs else x :: eraseFirst xs t

/-- The tile loop of `Validator::validatePropensityBoard` on the mutable
copy of the pool: `std::find` + `erase` removes the first matching entry. -/
def vpbLoop (sampleWithoutReplace : Bool) :
    List (List Char) → List (List Char) → Bool
  | _, [] => true
  | letters, tile :: rest =>
    if tile ∈ letters then
      vpbLoop sampleWithoutReplace
        (if sampleWithoutReplace then eraseFirst letters tile else letters) rest
    else false

/-- `Validator::validatePropensityBoard(prop_letters, board_tiles,
sample_without_replace)`. -/
def validatePropensityBoard (propLetters : List (List Char))
    (boardTiles : List (List Char)) (sampleWithoutReplace : Bool) : Bool :=
  vpbLoop sampleWithoutReplace propLetters boardTiles

/-! ### The generator's acceptance test (maker.cpp, `generate_dice_board`
and `generate_prop_board`)

`best_score`, `board_score`, … are `size_t` (64-bit); the difference
`best_score - board_score` wraps modulo `2^64` and is then converted to
`int` (32-bit two's complement), which is modelled bit-faithfully. -/

def U32 : Nat := 4294967296

def U64 : Nat := 18446744073709551616

/-- `size_t` subtraction (wrap modulo `2^64`). -/
def sub64 (a b : Nat) : Nat := (a % U64 + (U64 - b % U64)) % U64

/-- Conversion of an unsigned 64-bit value to `int` (take the low 32 bits,
two's complement). -/
def toInt32 (n : Nat) : Int :=
  if n % U32 < 2147483648 then ((n % U32 : Nat) : Int)
  else ((n % U32 : Nat) : Int) - (U32 : Int)

/-- The acceptance condition of the generator's hill-climbing loop
(`maker.cpp`, identical in `generate_dice_board` and
`generate_prop_board`). -/
def acceptMove (reverseTarget : Bool) (bestScore bestPoints boardScore boardPoints
    changes : Nat) : Bool :=
  (reverseTarget && ((boardScore < bestScore || boardPoints < bestPoints) ||
    decide (toInt32 (sub64 boardScore bestScore) < ((250 / changes : Nat) : Int)))) ||
  (!reverseTarget && ((boardScore > bestScore || boardPoints > bestPoints) ||
    decide (toInt32 (sub64 bestScore boardScore) < ((250 / changes : Nat) : Int))))

/-! ### Frame behaviour of `Solver::solve` (claims about null boards,
state reset and determinism) -/

/-- Claim C10: calling `Solver::solve` with a null board returns
immediately, leaving the previously computed solution list (and all other
solver state) unchanged, so `get_solutions` still returns the results of
the last successful solve; and the solution list is cleared and recomputed
only when a non-null board is supplied — the result of a non-null solve
does not depend on the solutions stored beforehand. -/
theorem claim10_null_board_frame (s : Solver) (sr : GameScoringRules) :
    (s.solve none sr) = s ∧
    (s.solve none sr).getSolutions = s.getSolutions ∧
    ∀ (b : Board) (l : List Solution),
      (({ s with solutions := l } : Solver).solve (some b) sr).solutions =
        (s.solve (some b) sr).solutions := by
  refine ⟨rfl, rfl, fun b l => rfl⟩

/-- Claim C5: `Solver::solve` is deterministic — two calls with identical
board, rules and dictionary trie produce identical solution lists,
whatever mutable state (paths, used marks, wildcard assignments, stale
solution lists) the two solver objects carried beforehand. -/
theorem claim5_deterministic (s1 s2 : Solver) (b : Board) (sr : GameScoringRules)
    (h : s1.dict = s2.dict) :
    (s1.solve (some b) sr).solutions = (s2.solve (some b) sr).solutions := by
  simp only [Solver.solve, h]

/-! ### Claim C9: propensity board validation -/

theorem cons_le_iff_mem_erase {α : Type} [DecidableEq α] (a : α) (s t : Multiset α) :
    a ::ₘ s ≤ t ↔ a ∈ t ∧ s ≤ t.erase a := by
  constructor
  · intro h
    refine ⟨Multiset.mem_of_le h (Multiset.mem_cons_self a s), ?_⟩
    have h2 := Multiset.erase_le_erase a h
    rwa [Multiset.erase_cons_head] at h2
  · rintro ⟨hm, hs⟩
    calc a ::ₘ s ≤ a ::ₘ t.erase a := Multiset.cons_le_cons a hs
    _ = t := Multiset.cons_erase hm

theorem eraseFirst_eq_erase (pool : List (List Char)) (t : List Char) :
    eraseFirst pool t = @List.erase (List Char) instBEqOfDecidableEq pool t := by
  induction pool with
  | nil => rfl
  | cons x xs ih =>
    rw [@List.erase_cons (List Char) instBEqOfDecidableEq t x xs]
    show (if x = t then xs else x :: eraseFirst xs t) = _
    by_cases hx : x = t
    · rw [if_pos hx]
      simp [hx]
    · rw [if_neg hx]
      simp [hx, ih]

theorem vpbLoop_swr_iff (tiles pool : List (List Char)) :
    vpbLoop true pool tiles = true ↔
      (tiles : Multiset (List Char)) ≤ (pool : Multiset (List Char)) := by
  induction tiles generalizing pool with
  | nil =>
    simpa [vpbLoop] using Multiset.zero_le _
  | cons t rest ih =>
    have hco : ((t :: rest : List (List Char)) : Multiset (List Char)) = t ::ₘ (rest : Multiset (List Char)) :=
      (Multiset.cons_coe t rest).symm
    rw [hco, cons_le_iff_mem_erase, Multiset.coe_erase, Multiset.mem_coe]
    by_cases hmem : t ∈ pool
    · rw [vpbLoop, if_pos hmem]
      have hred : (if true = true then eraseFirst pool t else pool) = eraseFirst pool t := rfl
      rw [hred, eraseFirst_eq_erase, ih]
      constructor
      · intro h
        exact ⟨hmem, h⟩
      · intro h
        exact h.2
    · rw [vpbLoop, if_neg hmem]
      simp [hmem]

theorem vpbLoop_no_swr_iff (tiles pool : List (List Char)) :
    vpbLoop false pool tiles = true ↔ ∀ t ∈ tiles, t ∈ pool := by
  induction tiles with
  | nil => simp [vpbLoop]
  | cons t rest ih =>
    by_cases hmem : t ∈ pool
    · rw [vpbLoop, if_pos hmem]
      have hred : (if false = true then eraseFirst pool t else pool) = pool := rfl
      rw [hred, ih]
      simp [hmem]
    · rw [vpbLoop, if_neg hmem]
      simp [hmem]

/-- Claim C9: `Validator::validatePropensityBoard` returns true exactly
when, under `sampleWithoutReplacement`, the multiset of board tiles is a
sub-multiset of the pool, and otherwise when every board tile occurs
somewhere in the pool.  (The C++ works on a local copy of the pool, so
the caller's pool is untouched; in this pure model the pool argument is
trivially unmodified.) -/
theorem claim9_validate_propensity_board (propLetters boardTiles : List (List Char))
    (sampleWithoutReplace : Bool) :
    validatePropensityBoard propLetters boardTiles sampleWithoutReplace = true ↔
      (if sampleWithoutReplace
        then (boardTiles : Multiset (List Char)) ≤ (propLetters : Multiset (List Char))
        else ∀ t ∈ boardTiles, t ∈ propLetters) := by
  cases sampleWithoutReplace with
  | true =>
    rw [if_pos rfl]
    exact vpbLoop_swr_iff boardTiles propLetters
  | false =>
    rw [if_neg (by simp)]
    exact vpbLoop_no_swr_iff boardTiles propLetters

/-! ### Claim C8: the generator's acceptance test -/

theorem toInt32_sub64_eq (a b : Nat) (ha : a < 2147483648) (hb : b < 2147483648) :
    toInt32 (sub64 a b) = (a : Int) - (b : Int) := by
  unfold toInt32 sub64 U64 U32
  omega

/-- Claim C8: in the generator's maximizing mode (`reverseTarget = false`)
a candidate is accepted iff its distinct-word count or its point total
strictly exceeds the current best, or the loss is within the shrinking
tolerance `bestScore − boardScore < 250 / changes` (signed comparison,
integer division); minimizing mode is the exact mirror image.  The
hypothesis that the two word counts stay below `2^31` makes the C++
`(int)(best_score - board_score)` cast coincide with the mathematical
difference; `changes` is at least 1 throughout the loop (it starts at 1
and is only incremented). -/
theorem claim8_acceptance (bestScore bestPoints boardScore boardPoints changes : Nat)
    (hbest : bestScore < 2147483648) (hboard : boardScore < 2147483648)
    (_hch : 1 ≤ changes) :
    (acceptMove false bestScore bestPoints boardScore boardPoints changes = true ↔
      (bestScore < boardScore ∨ bestPoints < boardPoints ∨
        (bestScore : Int) - (boardScore : Int) < ((250 / changes : Nat) : Int))) ∧
    (acceptMove true bestScore bestPoints boardScore boardPoints changes = true ↔
      (boardScore < bestScore ∨ boardPoints < bestPoints ∨
        (boardScore : Int) - (bestScore : Int) < ((250 / changes : Nat) : Int))) := by
  constructor
  · unfold acceptMove
    rw [toInt32_sub64_eq bestScore boardScore hbest hboard]
    simp [or_assoc]
  · unfold acceptMove
    rw [toInt32_sub64_eq boardScore bestScore hboard hbest]
    simp [or_assoc]

/-! ### Closed forms for the scorer's word and word-length accumulators -/

/-- The letter a tile character contributes: a `'?'` is replaced by the
recorded wildcard letter. -/
def substLetter (wcl ch : Char) : Char := if ch = '?' then wcl else ch

/-- The characters `Solver::score_solution` appends to the word for one
(substituted) letter: the uppercased letter, plus `'U'` after a `Q` when
`qIsQu`. -/
def charOut (sr : GameScoringRules) (letter : Char) : List Char :=
  letter.toUpper :: (if (letter = 'Q' ∨ letter = 'q') ∧ sr.qIsQu then ['U'] else [])

/-- The amount `word_len` grows for one (substituted) letter: 1, plus 1
for the appended `'U'` exactly when `quLength == 2`. -/
def charLen (sr : GameScoringRules) (letter : Char) : Nat :=
  1 + (if (letter = 'Q' ∨ letter = 'q') ∧ sr.qIsQu ∧ sr.quLength = 2 then 1 else 0)

/-- The sequence of substituted letters of one tile. -/
def tileLetters (b : Board) (wc : List Char) (i : Nat) : List Char :=
  (b.tileAt i).map (substLetter (wcAt wc i))

/-- The substituted letters of a whole path. -/
def pathLetters (b : Board) (wc : List Char) (ps : List Nat) : List Char :=
  ps.flatMap (tileLetters b wc)

/-- The word `Solver::score_solution` builds for a path. -/
def wordOf (b : Board) (sr : GameScoringRules) (wc : List Char) (ps : List Nat) :
    List Char :=
  (pathLetters b wc ps).flatMap (charOut sr)

/-- The `word_len` `Solver::score_solution` computes for a path. -/
def lenOf (b : Board) (sr : GameScoringRules) (wc : List Char) (ps : List Nat) : Nat :=
  ((pathLetters b wc ps).map (charLen sr)).sum

theorem ite_add_push (P : Prop) [Decidable P] (a b : Nat) :
    (if P then a + b else a) = a + (if P then b else 0) := by
  split <;> simp

theorem scoreChars_cons (sr : GameScoringRules) (wcl ch : Char) (rest : List Char)
    (wl : Nat) (word : List Char) (tv : Nat) :
    scoreChars sr wcl (ch :: rest) wl word tv =
      scoreChars sr wcl rest (wl + charLen sr (substLetter wcl ch))
        (word ++ charOut sr (substLetter wcl ch))
        (tv + if ¬ ch = '?' ∨ sr.wildCardPoints
          then sr.letterValue (substLetter wcl ch) else 0) := by
  rw [scoreChars]
  simp only [substLetter, charLen, charOut]
  by_cases hw : ch = '?'
  · simp only [hw, if_pos rfl, if_true]
    by_cases hq : (wcl = 'Q' ∨ wcl = 'q') ∧ sr.qIsQu
    · rcases hq with ⟨hq1, hq2⟩
      by_cases h2 : sr.quLength = 2
      · simp [hq1, hq2, h2, Nat.add_assoc, ite_add_push]
      · simp [hq1, hq2, h2, Nat.add_assoc, ite_add_push]
    · by_cases hqq : sr.qIsQu
      · have hq1 : ¬ (wcl = 'Q' ∨ wcl = 'q') := fun hc => hq ⟨hc, hqq⟩
        simp [hq1, hqq, Nat.add_assoc, ite_add_push]
      · simp [hqq, Nat.add_assoc, ite_add_push]
  · simp only [hw, if_neg hw, if_false, not_false_eq_true, true_or, if_true]
    by_cases hq : (ch = 'Q' ∨ ch = 'q') ∧ sr.qIsQu
    · rcases hq with ⟨hq1, hq2⟩
      by_cases h2 : sr.quLength = 2
      · simp [hq1, hq2, h2, Nat.add_assoc, ite_add_push]
      · simp [hq1, hq2, h2, Nat.add_assoc, ite_add_push]
    · by_cases hqq : sr.qIsQu
      · have hq1 : ¬ (ch = 'Q' ∨ ch = 'q') := fun hc => hq ⟨hc, hqq⟩
        simp [hq1, hqq, Nat.add_assoc, ite_add_push]
      · simp [hqq, Nat.add_assoc, ite_add_push]

theorem scoreChars_len_word (sr : GameScoringRules) (wcl : Char) (chars : List Char) :
    ∀ (wl : Nat) (word : List Char) (tv : Nat),
    (scoreChars sr wcl chars wl word tv).1 =
      wl + ((chars.map (substLetter wcl)).map (charLen sr)).sum ∧
    (scoreChars sr wcl chars wl word tv).2.1 =
      word ++ (chars.map (substLetter wcl)).flatMap (charOut sr) := by
  induction chars with
  | nil =>
    intro wl word tv
    simp [scoreChars]
  | cons ch rest ih =>
    intro wl word tv
    rw [scoreChars_cons]
    obtain ⟨h1, h2⟩ := ih (wl + charLen sr (substLetter wcl ch))
      (word ++ charOut sr (substLetter wcl ch))
      (tv + if ¬ ch = '?' ∨ sr.wildCardPoints then sr.letterValue (substLetter wcl ch) else 0)
    refine ⟨?_, ?_⟩
    · rw [h1]
      simp [Nat.add_assoc]
    · rw [h2]
      simp

theorem scorePositions_len_word (b : Board) (sr : GameScoringRules) (wc : List Char)
    (ps : List Nat) : ∀ (wl : Nat) (word : List Char) (lp wm : Nat),
    (scorePositions b sr wc ps wl word lp wm).1 =
      wl + ((pathLetters b wc ps).map (charLen sr)).sum ∧
    (scorePositions b sr wc ps wl word lp wm).2.1 =
      word ++ (pathLetters b wc ps).flatMap (charOut sr) := by
  induction ps with
  | nil =>
    intro wl word lp wm
    simp [scorePositions, pathLetters]
  | cons p rest ih =>
    intro wl word lp wm
    rw [scorePositions]
    have hc := scoreChars_len_word sr (wc.getD p nulChar) (b.tileAt p) wl word 0
    obtain ⟨hr1, hr2⟩ := ih (scoreChars sr (wc.getD p nulChar) (b.tileAt p) wl word 0).1
      (scoreChars sr (wc.getD p nulChar) (b.tileAt p) wl word 0).2.1
      (lp + (scoreChars sr (wc.getD p nulChar) (b.tileAt p) wl word 0).2.2 * b.letterMultAt p)
      (wm * b.wordMultAt p)
    refine ⟨?_, ?_⟩
    · rw [hr1, hc.1]
      simp [pathLetters, tileLetters, wcAt, Nat.add_assoc]
    · rw [hr2, hc.2]
      simp [pathLetters, tileLetters, wcAt]

theorem scoreSolution_positions (b : Board) (sr : GameScoringRules) (wc : List Char)
    (ps : List Nat) : (scoreSolution b sr wc ps).positions = ps := by
  simp only [scoreSolution]
  split_ifs <;> rfl

theorem scoreSolution_wordLength (b : Board) (sr : GameScoringRules) (wc : List Char)
    (ps : List Nat) : (scoreSolution b sr wc ps).wordLength = lenOf b sr wc ps := by
  have h := (scorePositions_len_word b sr wc ps 0 [] 0 1).1
  simp only [scoreSolution]
  split_ifs <;> simpa [lenOf] using h

theorem scoreSolution_word (b : Board) (sr : GameScoringRules) (wc : List Char)
    (ps : List Nat) : (scoreSolution b sr wc ps).word = wordOf b sr wc ps := by
  have h := (scorePositions_len_word b sr wc ps 0 [] 0 1).2
  simp only [scoreSolution]
  split_ifs <;> simpa [wordOf] using h

theorem scoreSolution_wordLength_raw (b : Board) (sr : GameScoringRules)
    (wc : List Char) (ps : List Nat) :
    (scoreSolution b sr wc ps).wordLength = (scorePositions b sr wc ps 0 [] 0 1).1 := by
  simp only [scoreSolution]
  split_ifs <;> rfl

/-! ### Claim C3: the length-bonus branch of the scorer -/

/-- A concrete seven-tile board realising `letterPoints = 8`,
`wordMultiplier = 2`: letter values A=2 and B…G=1, a double-word tile at
position 0. -/
def exBonusBoard : Board :=
  { tiles := [['A'], ['B'], ['C'], ['D'], ['E'], ['F'], ['G']],
    letterMult := [1, 1, 1, 1, 1, 1, 1],
    wordMult := [2, 1, 1, 1, 1, 1, 1],
    adjMatrix := none }

def exBonusValues : List (Char × Nat) :=
  [('A', 2), ('B', 1), ('C', 1), ('D', 1), ('E', 1), ('F', 1), ('G', 1)]

/-- `lengthBonuses[7] = 10.5`, add mode, ceiling. -/
def exBonusRulesAdd : GameScoringRules :=
  { qIsQu := false, minWordLength := 0, shortWordLength := 0,
    multiplyLengthBonus := false, roundBonusUp := true,
    letterValues := exBonusValues, lengthBonuses := [(7, 10.5)] }

/-- `lengthBonuses[7] = 10.5`, multiply mode, truncation. -/
def exBonusRulesMul : GameScoringRules :=
  { qIsQu := false, minWordLength := 0, shortWordLength := 0,
    multiplyLengthBonus := true, roundBonusUp := false,
    letterValues := exBonusValues, lengthBonuses := [(7, 10.5)] }

/-- Claim C3: for every scored path whose word length is at least
`minWordLength` and strictly greater than `shortWordLength`, the recorded
length bonus is `lengthBonuses[wordLength]` (0 when absent) and the score
is `letterPoints × wordMultiplier × lengthBonus` when
`multiplyLengthBonus` is set and `letterPoints × wordMultiplier +
lengthBonus` otherwise, rounded with ceiling when `roundBonusUp` is set
and truncated toward zero otherwise; in particular `letterPoints = 8`,
`wordMultiplier = 2`, `lengthBonuses[7] = 10.5` yields score 27 under
add/ceiling and 168 under multiply/truncate. -/
theorem exBonus_scorePositions_add :
    scorePositions exBonusBoard exBonusRulesAdd [] [0, 1, 2, 3, 4, 5, 6] 0 [] 0 1 =
      (7, ['A', 'B', 'C', 'D', 'E', 'F', 'G'], 8, 2) := by
  decide

theorem exBonus_scorePositions_mul :
    scorePositions exBonusBoard exBonusRulesMul [] [0, 1, 2, 3, 4, 5, 6] 0 [] 0 1 =
      (7, ['A', 'B', 'C', 'D', 'E', 'F', 'G'], 8, 2) := by
  decide

theorem exBonus_add_score :
    (scoreSolution exBonusBoard exBonusRulesAdd [] [0, 1, 2, 3, 4, 5, 6]).score = 27 := by
  simp only [scoreSolution, exBonus_scorePositions_add]
  norm_num [exBonusRulesAdd, GameScoringRules.lengthBonus, List.lookup, Rat.ceil]
  decide

theorem exBonus_mul_score :
    (scoreSolution exBonusBoard exBonusRulesMul [] [0, 1, 2, 3, 4, 5, 6]).score = 168 := by
  simp only [scoreSolution, exBonus_scorePositions_mul]
  norm_num [exBonusRulesMul, GameScoringRules.lengthBonus, List.lookup, ratTrunc, Rat.floor]
  decide

theorem claim3_length_bonus_scoring :
    (∀ (b : Board) (sr : GameScoringRules) (wc : List Char) (ps : List Nat),
      sr.minWordLength ≤ ((scoreSolution b sr wc ps).wordLength : Int) →
      sr.shortWordLength < ((scoreSolution b sr wc ps).wordLength : Int) →
      (scoreSolution b sr wc ps).lengthBonus =
        sr.lengthBonus ((scoreSolution b sr wc ps).wordLength : Int) ∧
      (scoreSolution b sr wc ps).score =
        (if sr.multiplyLengthBonus then
          (if sr.roundBonusUp then
            (Rat.ceil ((((scoreSolution b sr wc ps).letterPoints *
              (scoreSolution b sr wc ps).wordMultiplier : Nat) : Rat) *
              (scoreSolution b sr wc ps).lengthBonus)).toNat
          else
            (ratTrunc ((((scoreSolution b sr wc ps).letterPoints *
              (scoreSolution b sr wc ps).wordMultiplier : Nat) : Rat) *
              (scoreSolution b sr wc ps).lengthBonus)).toNat)
        else
          (if sr.roundBonusUp then
            (Rat.ceil ((((scoreSolution b sr wc ps).letterPoints *
              (scoreSolution b sr wc ps).wordMultiplier : Nat) : Rat) +
              (scoreSolution b sr wc ps).lengthBonus)).toNat
          else
            (ratTrunc ((((scoreSolution b sr wc ps).letterPoints *
              (scoreSolution b sr wc ps).wordMultiplier : Nat) : Rat) +
              (scoreSolution b sr wc ps).lengthBonus)).toNat))) ∧
    (scoreSolution exBonusBoard exBonusRulesAdd [] [0, 1, 2, 3, 4, 5, 6]).letterPoints = 8 ∧
    (scoreSolution exBonusBoard exBonusRulesAdd [] [0, 1, 2, 3, 4, 5, 6]).wordMultiplier = 2 ∧
    (scoreSolution exBonusBoard exBonusRulesAdd [] [0, 1, 2, 3, 4, 5, 6]).score = 27 ∧
    (scoreSolution exBonusBoard exBonusRulesMul [] [0, 1, 2, 3, 4, 5, 6]).score = 168 := by
  refine ⟨?_, by decide, by decide, exBonus_add_score, exBonus_mul_score⟩
  intro b sr wc ps h1 h2
  have hwl := scoreSolution_wordLength_raw b sr wc ps
  rw [hwl] at h1 h2
  have h1' : ¬ (((scorePositions b sr wc ps 0 [] 0 1).1 : Int) < sr.minWordLength) := by
    omega
  have h2' : ¬ (((scorePositions b sr wc ps 0 [] 0 1).1 : Int) ≤ sr.shortWordLength) := by
    omega
  have hfix : scoreSolution b sr wc ps =
      ⟨(scorePositions b sr wc ps 0 [] 0 1).2.1, ps,
       (scorePositions b sr wc ps 0 [] 0 1).1,
       (if sr.roundBonusUp then
          (Rat.ceil (if sr.multiplyLengthBonus then
              (((scorePositions b sr wc ps 0 [] 0 1).2.2.1 *
                (scorePositions b sr wc ps 0 [] 0 1).2.2.2 : Nat) : Rat) *
                sr.lengthBonus ((scorePositions b sr wc ps 0 [] 0 1).1 : Int)
            else
              (((scorePositions b sr wc ps 0 [] 0 1).2.2.1 *
                (scorePositions b sr wc ps 0 [] 0 1).2.2.2 : Nat) : Rat) +
                sr.lengthBonus ((scorePositions b sr wc ps 0 [] 0 1).1 : Int))).toNat
        else
          (ratTrunc (if sr.multiplyLengthBonus then
              (((scorePositions b sr wc ps 0 [] 0 1).2.2.1 *
                (scorePositions b sr wc ps 0 [] 0 1).2.2.2 : Nat) : Rat) *
                sr.lengthBonus ((scorePositions b sr wc ps 0 [] 0 1).1 : Int)
            else
              (((scorePositions b sr wc ps 0 [] 0 1).2.2.1 *
                (scorePositions b sr wc ps 0 [] 0 1).2.2.2 : Nat) : Rat) +
                sr.lengthBonus ((scorePositions b sr wc ps 0 [] 0 1).1 : Int))).toNat),
       (scorePositions b sr wc ps 0 [] 0 1).2.2.1,
       (scorePositions b sr wc ps 0 [] 0 1).2.2.2,
       sr.lengthBonus ((scorePositions b sr wc ps 0 [] 0 1).1 : Int)⟩ := by
    simp only [scoreSolution]
    rw [if_neg h1', if_neg h2']
  rw [hfix]
  refine ⟨rfl, ?_⟩
  by_cases hm : sr.multiplyLengthBonus = true <;>
    by_cases hr : sr.roundBonusUp = true <;>
      simp [hm, hr]

/-! ### Claim C4: Qu expansion in the scorer -/

theorem sum_charLen_of_qIsQu (sr : GameScoringRules) (h : sr.qIsQu = true)
    (ls : List Char) :
    (ls.map (charLen sr)).sum =
      ls.length + (if sr.quLength = 2
        then ls.countP (fun l => l = 'Q' || l = 'q') else 0) := by
  induction ls with
  | nil => simp
  | cons l rest ih =>
    rw [List.map_cons, List.sum_cons, ih, List.countP_cons]
    unfold charLen
    by_cases hq : l = 'Q' ∨ l = 'q'
    · by_cases h2 : sr.quLength = 2
      · simp [hq, h, h2]
        omega
      · simp [hq, h, h2]
        omega
    · by_cases h2 : sr.quLength = 2
      · have : (decide (l = 'Q') || decide (l = 'q')) = false := by
          simp [not_or] at hq
          simp [hq.1, hq.2]
        simp [hq, h, h2, this]
        omega
      · simp [hq, h, h2]
        omega

/-- Claim C4: with `qIsQu = true`, every `Q` consumed from a tile —
including a wildcard resolved to `Q` — makes the scorer append a `'U'` to
the emitted word immediately after the `Q`, and the `word_len` used for
the length-bonus lookup gains one for that extra `'U'` exactly when
`quLength == 2`. -/
theorem claim4_qu_expansion (b : Board) (sr : GameScoringRules) (wc : List Char)
    (ps : List Nat) (h : sr.qIsQu = true) :
    (scoreSolution b sr wc ps).word =
      (pathLetters b wc ps).flatMap
        (fun l => l.toUpper :: (if l = 'Q' ∨ l = 'q' then ['U'] else [])) ∧
    (scoreSolution b sr wc ps).wordLength =
      (pathLetters b wc ps).length +
        (if sr.quLength = 2
          then (pathLetters b wc ps).countP (fun l => l = 'Q' || l = 'q') else 0) := by
  constructor
  · rw [scoreSolution_word]
    unfold wordOf
    apply List.flatMap_congr
    intro l _
    unfold charOut
    simp [h]
  · rw [scoreSolution_wordLength]
    unfold lenOf
    exact sum_charLen_of_qIsQu sr h (pathLetters b wc ps)

/-! ### Soundness of the solver (claim C1)

The depth-first search is analysed through a frame relation: a call to
`Solver::_solve` restores `used` and `path`, only ever writes wildcard
letters at positions that were unused at entry, and appends solutions that
are sound (simple adjacent walks spelling dictionary words). -/

/-- A sound solution for board `b` and dictionary `dict`: a simple walk
(no repeated tile), consecutive tiles adjacent, word in the trie. -/
def SoundSol (dict : Trie) (b : Board) (x : Solution) : Prop :=
  x.positions.Nodup ∧
  x.positions.Chain' (fun i j => b.isAdjacent i j = true) ∧
  dict.containsWord x.word = true

/-- What a `_solve` call leaves unchanged, and what it may do: `used` and
`path` are restored, wildcard letters of tiles on the current path are
untouched, and solutions are only appended — all of them sound. -/
def SFrame (dict : Trie) (b : Board) (st st' : SState) : Prop :=
  st'.used = st.used ∧ st'.path = st.path ∧
  st'.wildcard.length = st.wildcard.length ∧
  (∀ i, usedAt st i = true → wcAt st'.wildcard i = wcAt st.wildcard i) ∧
  ∃ new, st'.solutions = st.solutions ++ new ∧ ∀ x ∈ new, SoundSol dict b x

theorem SFrame.rfl (dict : Trie) (b : Board) (st : SState) : SFrame dict b st st :=
  ⟨Eq.refl _, Eq.refl _, Eq.refl _, fun _ _ => Eq.refl _,
   ⟨[], by simp, by simp⟩⟩

theorem SFrame.trans {dict : Trie} {b : Board} {st1 st2 st3 : SState}
    (h12 : SFrame dict b st1 st2) (h23 : SFrame dict b st2 st3) :
    SFrame dict b st1 st3 := by
  obtain ⟨hu12, hp12, hl12, hw12, n12, hs12, ha12⟩ := h12
  obtain ⟨hu23, hp23, hl23, hw23, n23, hs23, ha23⟩ := h23
  refine ⟨hu23.trans hu12, hp23.trans hp12, hl23.trans hl12, ?_, ?_⟩
  · intro i hi
    have hi2 : usedAt st2 i = true := by
      unfold usedAt at hi ⊢
      rw [hu12]
      exact hi
    exact (hw23 i hi2).trans (hw12 i hi)
  · refine ⟨n12 ++ n23, by rw [hs23, hs12, List.append_assoc], ?_⟩
    intro x hx
    rcases List.mem_append.mp hx with hx | hx
    · exact ha12 x hx
    · exact ha23 x hx

/-- The search-state invariant of `Solver::_solve`: the scratch arrays
have the board's size, `used` marks exactly the tiles on `path`, and
`path` is a simple walk of adjacent tiles. -/
def SInv (b : Board) (st : SState) : Prop :=
  st.used.length = b.size ∧ st.wildcard.length = b.size ∧
  (∀ i, usedAt st i = true ↔ i ∈ st.path) ∧
  st.path.Nodup ∧
  st.path.Chain' (fun i j => b.isAdjacent i j = true)

/-- The relation between the `tile` argument of a `_solve` call and the
board tile at `pos`: either the call received the board's tile string
verbatim, or it is a wildcard-expansion call whose tile has the chosen
letter in front of the remainder of the board's tile string.  (The trie
descent fact is carried where a later `.ok` consumption is possible: on a
verbatim tile, and on an expansion of a tile whose `'?'` is its head; an
expansion of a tile whose `'?'` sits deeper keeps a `'?'` forever and can
never complete, so no descent fact is needed there.) -/
def TRel (b : Board) (sr : GameScoringRules) (dict : Trie) (pos : Nat)
    (t : Trie) (tile : List Char) (st : SState) : Prop :=
  (tile = b.tileAt pos ∧
    dict.descend (wordOf b sr st.wildcard st.path) = some t) ∨
  (∃ c, c ∈ alphabet ∧ tile = c :: (b.tileAt pos).drop 1 ∧
    wcAt st.wildcard pos = c ∧ b.tileAt pos ≠ [] ∧
    (((b.tileAt pos).head? = some '?' ∧
        dict.descend (wordOf b sr st.wildcard st.path) = some t) ∨
      '?' ∈ (b.tileAt pos).drop 1))

/-- The full precondition of a `_solve` call. -/
def CallPre (b : Board) (sr : GameScoringRules) (dict : Trie) (pos : Nat)
    (t : Trie) (tile : List Char) (st : SState) : Prop :=
  SInv b st ∧ pos < b.size ∧ usedAt st pos = false ∧
  (∀ l ∈ st.path.getLast?, b.isAdjacent l pos = true) ∧
  TRel b sr dict pos t tile st

theorem alphabet_no_wild : '?' ∉ alphabet := by decide

theorem tileLoop_ok_no_wild (sr : GameScoringRules) :
    ∀ (chars : List Char) (t t1 : Trie),
      tileLoop sr t chars = .ok t1 → '?' ∉ chars := by
  intro chars
  induction chars with
  | nil => intro t t1 _; simp
  | cons ch rest ih =>
    intro t t1 h
    rw [tileLoop] at h
    by_cases hw : ch = '?'
    · rw [if_pos hw] at h
      exact absurd h (by simp)
    · rw [if_neg hw] at h
      simp only [List.mem_cons, not_or]
      refine ⟨fun hc => hw hc.symm, ?_⟩
      cases hc : t.child ch.toUpper with
      | none =>
        simp only [hc] at h
        exact TileStep.noConfusion h
      | some t' =>
        simp only [hc] at h
        by_cases hq : sr.qIsQu ∧ ch.toUpper = 'Q'
        · rw [if_pos hq] at h
          cases hu : t'.child 'U' with
          | none =>
            simp only [hu] at h
            exact TileStep.noConfusion h
          | some t'' =>
            simp only [hu] at h
            exact ih t'' t1 h
        · rw [if_neg hq] at h
          exact ih t' t1 h

theorem tileLoop_wild_mem (sr : GameScoringRules) :
    ∀ (chars : List Char) (t t1 : Trie),
      tileLoop sr t chars = .wild t1 → '?' ∈ chars := by
  intro chars
  induction chars with
  | nil => intro t t1 h; exact absurd h (by simp [tileLoop])
  | cons ch rest ih =>
    intro t t1 h
    rw [tileLoop] at h
    by_cases hw : ch = '?'
    · rw [hw]; simp
    · rw [if_neg hw] at h
      simp only [List.mem_cons]
      cases hc : t.child ch.toUpper with
      | none =>
        simp only [hc] at h
        exact TileStep.noConfusion h
      | some t' =>
        simp only [hc] at h
        by_cases hq : sr.qIsQu ∧ ch.toUpper = 'Q'
        · rw [if_pos hq] at h
          cases hu : t'.child 'U' with
          | none =>
            simp only [hu] at h
            exact TileStep.noConfusion h
          | some t'' =>
            simp only [hu] at h
            exact Or.inr (ih t'' t1 h)
        · rw [if_neg hq] at h
          exact Or.inr (ih t' t1 h)

theorem tileLoop_wild_head (sr : GameScoringRules) (t : Trie) (ch : Char)
    (rest : List Char) (h : ch = '?') :
    tileLoop sr t (ch :: rest) = .wild t := by
  rw [tileLoop, if_pos h]

theorem tileLoop_ok_descend (sr : GameScoringRules) :
    ∀ (chars : List Char) (t t1 : Trie),
      tileLoop sr t chars = .ok t1 →
      t.descend (chars.flatMap (charOut sr)) = some t1 := by
  intro chars
  induction chars with
  | nil =>
    intro t t1 h
    rw [tileLoop] at h
    cases h
    rfl
  | cons ch rest ih =>
    intro t t1 h
    rw [tileLoop] at h
    by_cases hw : ch = '?'
    · rw [if_pos hw] at h
      exact absurd h (by simp)
    · rw [if_neg hw] at h
      cases hc : t.child ch.toUpper with
      | none =>
        simp only [hc] at h
        exact TileStep.noConfusion h
      | some t' =>
        simp only [hc] at h
        by_cases hq : sr.qIsQu ∧ ch.toUpper = 'Q'
        · rw [if_pos hq] at h
          cases hu : t'.child 'U' with
          | none =>
            simp only [hu] at h
            exact TileStep.noConfusion h
          | some t'' =>
            simp only [hu] at h
            have hqq : (ch = 'Q' ∨ ch = 'q') ∧ sr.qIsQu :=
              ⟨(toUpper_eq_Q_iff ch).mp hq.2, hq.1⟩
            simp only [List.flatMap_cons, charOut, if_pos hqq]
            simp only [List.cons_append, Trie.descend, hc]
            simp only [List.singleton_append, Trie.descend, hu]
            exact ih t'' t1 h
        · rw [if_neg hq] at h
          have hqq : ¬ ((ch = 'Q' ∨ ch = 'q') ∧ sr.qIsQu) := by
            intro hcon
            exact hq ⟨hcon.2, (toUpper_eq_Q_iff ch).mpr hcon.1⟩
          simp only [List.flatMap_cons, charOut, if_neg hqq]
          simp only [List.cons_append, List.nil_append, Trie.descend, hc]
          exact ih t' t1 h

theorem descend_glue {dict t t1 : Trie} {w v : List Char}
    (h1 : dict.descend w = some t) (h2 : t.descend v = some t1) :
    dict.descend (w ++ v) = some t1 := by
  rw [Trie.descend_append, h1]
  exact h2

theorem wordOf_append_tile (b : Board) (sr : GameScoringRules) (wc : List Char)
    (ps : List Nat) (pos : Nat) :
    wordOf b sr wc (ps ++ [pos]) =
      wordOf b sr wc ps ++ (tileLetters b wc pos).flatMap (charOut sr) := by
  unfold wordOf pathLetters
  rw [List.flatMap_append, List.flatMap_append]
  simp

theorem wordOf_stable (b : Board) (sr : GameScoringRules) {wc wc' : List Char}
    (ps : List Nat) (h : ∀ i ∈ ps, wcAt wc' i = wcAt wc i) :
    wordOf b sr wc' ps = wordOf b sr wc ps := by
  unfold wordOf pathLetters
  congr 1
  apply List.flatMap_congr
  intro i hi
  unfold tileLetters
  rw [h i hi]

theorem map_substLetter_of_no_wild {chars : List Char} (x : Char)
    (h : '?' ∉ chars) : chars.map (substLetter x) = chars := by
  induction chars with
  | nil => rfl
  | cons c rest ih =>
    simp only [List.mem_cons, not_or] at h
    rw [List.map_cons, ih h.2]
    unfold substLetter
    rw [if_neg (fun hc => h.1 hc.symm)]

theorem getD_set_self {α : Type} (l : List α) (i : Nat) (v d : α)
    (h : i < l.length) : (l.set i v).getD i d = v := by
  rw [List.getD_eq_getElem?_getD, List.getElem?_set_self h]
  rfl

theorem getD_set_ne {α : Type} (l : List α) {i j : Nat} (v d : α)
    (h : i ≠ j) : (l.set i v).getD j d = l.getD j d := by
  rw [List.getD_eq_getElem?_getD, List.getElem?_set_ne h,
    ← List.getD_eq_getElem?_getD]

theorem set_false_of_getD_false (l : List Bool) (i : Nat)
    (h : l.getD i false = false) : l.set i false = l := by
  induction l generalizing i with
  | nil => rfl
  | cons x xs ih =>
    cases i with
    | zero =>
      simp only [List.getD_cons_zero] at h
      rw [h]
      rfl
    | succ n =>
      simp only [List.getD_cons_succ] at h
      rw [List.set_cons_succ, ih n h]

theorem solveAux_zero (b : Board) (sr : GameScoringRules) (pos : Nat) (t : Trie)
    (tile : List Char) (st : SState) : solveAux b sr 0 pos t tile st = st := rfl

theorem solveAux_nil (b : Board) (sr : GameScoringRules) (fuel pos : Nat) (t : Trie)
    (st : SState) : solveAux b sr (fuel + 1) pos t [] st = st := by
  rw [solveAux, if_pos rfl]

theorem solveAux_fail (b : Board) (sr : GameScoringRules) (fuel pos : Nat) (t : Trie)
    (tile : List Char) (st : SState) (htile : tile ≠ [])
    (htl : tileLoop sr t tile = .fail) :
    solveAux b sr (fuel + 1) pos t tile st = st := by
  rw [solveAux, if_neg htile, htl]

theorem solveAux_wild (b : Board) (sr : GameScoringRules) (fuel pos : Nat) (t : Trie)
    (tile : List Char) (st : SState) (t1 : Trie) (htile : tile ≠ [])
    (htl : tileLoop sr t tile = .wild t1) :
    solveAux b sr (fuel + 1) pos t tile st =
      alphabet.foldl (fun st c =>
        solveAux b sr fuel pos t1 (c :: tile.drop 1)
          { st with wildcard := st.wildcard.set pos c }) st := by
  rw [solveAux, if_neg htile, htl]

theorem solveAux_ok (b : Board) (sr : GameScoringRules) (fuel pos : Nat) (t : Trie)
    (tile : List Char) (st : SState) (t1 : Trie) (htile : tile ≠ [])
    (htl : tileLoop sr t tile = .ok t1) :
    solveAux b sr (fuel + 1) pos t tile st =
      (let st1 : SState :=
        { st with used := st.used.set pos true, path := st.path ++ [pos] }
      let st2 : SState :=
        if t1.isWordF then
          let sol := scoreSolution b sr st1.wildcard st1.path
          if (sol.wordLength : Int) ≥ sr.minWordLength then
            { st1 with solutions := st1.solutions ++ [sol] }
          else st1
        else st1
      let st3 := (List.range b.size).foldl (fun st i =>
        if usedAt st i = false ∧ b.isAdjacent pos i = true then
          solveAux b sr fuel i t1 (b.tileAt i) st
        else st) st2
      { st3 with used := st3.used.set pos false, path := st3.path.dropLast }) := by
  rw [solveAux, if_neg htile, htl]

theorem SInv_transport {dict : Trie} {b : Board} {s1 s2 : SState}
    (h : SInv b s1) (hf : SFrame dict b s1 s2) : SInv b s2 := by
  obtain ⟨hu, hp, hl, _, _⟩ := hf
  obtain ⟨h1, h2, h3, h4, h5⟩ := h
  refine ⟨by rw [hu]; exact h1, by rw [hl]; exact h2, ?_, by rw [hp]; exact h4,
    by rw [hp]; exact h5⟩
  intro i
  unfold usedAt
  rw [hu, hp]
  exact h3 i

theorem wordOf_transport {dict : Trie} {b : Board} (sr : GameScoringRules)
    {s1 s2 : SState} (hi : SInv b s1) (hf : SFrame dict b s1 s2) :
    wordOf b sr s2.wildcard s2.path = wordOf b sr s1.wildcard s1.path := by
  rw [hf.2.1]
  apply wordOf_stable
  intro i hmem
  exact hf.2.2.2.1 i ((hi.2.2.1 i).mpr hmem)

theorem foldl_sframe {α : Type} (dict : Trie) (b : Board) (R : SState → Prop)
    (f : SState → α → SState)
    (hR : ∀ st st', R st → SFrame dict b st st' → R st') :
    ∀ (l : List α), (∀ st x, x ∈ l → R st → SFrame dict b st (f st x)) →
      ∀ st, R st → SFrame dict b st (l.foldl f st) ∧ R (l.foldl f st) := by
  intro l
  induction l with
  | nil =>
    intro _ st h
    exact ⟨SFrame.rfl dict b st, h⟩
  | cons x xs ih =>
    intro hf st h
    rw [List.foldl_cons]
    have h1 : SFrame dict b st (f st x) := hf st x (List.mem_cons_self x xs) h
    have h2 : R (f st x) := hR st (f st x) h h1
    obtain ⟨h3, h4⟩ := ih (fun s y hy => hf s y (List.mem_cons_of_mem x hy)) (f st x) h2
    exact ⟨SFrame.trans h1 h3, h4⟩

/-- If the character loop consumed the whole tile, the trie node it
reached is the descent of the word extension the scorer will produce for
this tile. -/
theorem trel_ok_descend (b : Board) (sr : GameScoringRules) (dict : Trie)
    {pos : Nat} {t t1 : Trie} {tile : List Char} {st : SState}
    (htile : tile ≠ []) (htrel : TRel b sr dict pos t tile st)
    (htl : tileLoop sr t tile = .ok t1) :
    dict.descend (wordOf b sr st.wildcard (st.path ++ [pos])) = some t1 := by
  have hnw : '?' ∉ tile := tileLoop_ok_no_wild sr tile t t1 htl
  rw [wordOf_append_tile]
  cases htrel with
  | inl h =>
    obtain ⟨hteq, hdesc⟩ := h
    have hsub : tileLetters b st.wildcard pos = tile := by
      unfold tileLetters
      rw [← hteq]
      exact map_substLetter_of_no_wild _ hnw
    rw [hsub]
    exact descend_glue hdesc (tileLoop_ok_descend sr tile t t1 htl)
  | inr h =>
    obtain ⟨c, hca, hteq, hwc, hne, hinner⟩ := h
    cases hinner with
    | inr hdeep =>
      exfalso
      apply hnw
      rw [hteq]
      exact List.mem_cons_of_mem c hdeep
    | inl hh =>
      obtain ⟨hhead, hdesc⟩ := hh
      obtain ⟨o1, os, horig⟩ : ∃ o1 os, b.tileAt pos = o1 :: os := by
        cases hbt : b.tileAt pos with
        | nil => exact absurd hbt hne
        | cons o1 os => exact ⟨o1, os, rfl⟩
      have ho1 : o1 = '?' := by
        rw [horig] at hhead
        simpa using hhead
      have hos : (b.tileAt pos).drop 1 = os := by rw [horig]; rfl
      have htile_eq : tile = c :: os := by rw [hteq, hos]
      have hnos : '?' ∉ os := by
        intro hmm
        apply hnw
        rw [htile_eq]
        exact List.mem_cons_of_mem c hmm
      have hsub : tileLetters b st.wildcard pos = tile := by
        unfold tileLetters
        rw [horig, ho1, htile_eq, List.map_cons, map_substLetter_of_no_wild _ hnos]
        simp [substLetter, hwc]
      rw [hsub]
      exact descend_glue hdesc (tileLoop_ok_descend sr tile t t1 htl)

/-- The tile relation for a wildcard-expansion subcall. -/
theorem TRel_wild_sub (b : Board) (sr : GameScoringRules) (dict : Trie)
    {pos : Nat} {t t1 : Trie} {tile : List Char} {st s' : SState} {c : Char}
    (hc : c ∈ alphabet) (htile : tile ≠ [])
    (htl : tileLoop sr t tile = .wild t1)
    (htrel : TRel b sr dict pos t tile st)
    (hword : wordOf b sr s'.wildcard s'.path = wordOf b sr st.wildcard st.path)
    (hwc : wcAt s'.wildcard pos = c) :
    TRel b sr dict pos t1 (c :: tile.drop 1) s' := by
  cases htrel with
  | inl hd1 =>
    obtain ⟨hteq, hdesc⟩ := hd1
    obtain ⟨o1, os, horig⟩ : ∃ o1 os, tile = o1 :: os := by
      cases hbt : tile with
      | nil => exact absurd hbt htile
      | cons o1 os => exact ⟨o1, os, rfl⟩
    by_cases ho1 : o1 = '?'
    · have ht1 : t1 = t := by
        have hw := tileLoop_wild_head sr t o1 os ho1
        rw [← horig, htl] at hw
        injection hw with hinj
      refine Or.inr ⟨c, hc, by rw [← hteq], hwc, by rw [← hteq]; exact htile,
        Or.inl ⟨?_, ?_⟩⟩
      · rw [← hteq, horig, ho1]
        rfl
      · rw [hword, ht1]
        exact hdesc
    · have hmem : '?' ∈ tile := tileLoop_wild_mem sr tile t t1 htl
      have hos : '?' ∈ os := by
        rw [horig] at hmem
        rcases List.mem_cons.mp hmem with he | hm
        · exact absurd he.symm ho1
        · exact hm
      refine Or.inr ⟨c, hc, by rw [← hteq], hwc, by rw [← hteq]; exact htile,
        Or.inr ?_⟩
      rw [← hteq, horig]
      simpa using hos
  | inr hd2 =>
    obtain ⟨c', hc'a, hteq, hwc', hne, hinner⟩ := hd2
    have hmem : '?' ∈ tile := tileLoop_wild_mem sr tile t t1 htl
    have hc'ne : c' ≠ '?' := fun he => alphabet_no_wild (he ▸ hc'a)
    have hdeep : '?' ∈ (b.tileAt pos).drop 1 := by
      rw [hteq] at hmem
      rcases List.mem_cons.mp hmem with he | hm
      · exact absurd he.symm hc'ne
      · exact hm
    refine Or.inr ⟨c, hc, ?_, hwc, hne, Or.inr hdeep⟩
    rw [hteq]
    rfl

theorem nodup_snoc {l : List Nat} {a : Nat} (h1 : l.Nodup) (h2 : a ∉ l) :
    (l ++ [a]).Nodup := by
  simp [List.nodup_append, h1, h2]

theorem chain_snoc {R : Nat → Nat → Prop} {l : List Nat} {a : Nat}
    (h1 : List.Chain' R l) (h2 : ∀ x ∈ l.getLast?, R x a) :
    List.Chain' R (l ++ [a]) := by
  rw [List.chain'_append]
  refine ⟨h1, List.chain'_singleton a, ?_⟩
  intro x hx y hy
  simp only [List.head?_cons, Option.mem_def, Option.some.injEq] at hy
  subst hy
  exact h2 x hx

/-- The master frame lemma for `Solver::_solve`: under the call
precondition, a call restores `used` and `path`, keeps the wildcard
letters of tiles on the path, and appends only sound solutions. -/
theorem solveAux_sframe (b : Board) (sr : GameScoringRules) (dict : Trie) :
    ∀ (fuel pos : Nat) (t : Trie) (tile : List Char) (st : SState),
      CallPre b sr dict pos t tile st →
      SFrame dict b st (solveAux b sr fuel pos t tile st) := by
  intro fuel
  induction fuel with
  | zero =>
    intro pos t tile st _
    rw [solveAux_zero]
    exact SFrame.rfl dict b st
  | succ fuel ih =>
    intro pos t tile st hpre
    obtain ⟨hinv, hlt, hunused, hadj, htrel⟩ := hpre
    by_cases htile : tile = []
    · subst htile
      rw [solveAux_nil]
      exact SFrame.rfl dict b st
    cases htl : tileLoop sr t tile with
    | fail =>
      rw [solveAux_fail b sr fuel pos t tile st htile htl]
      exact SFrame.rfl dict b st
    | wild t1 =>
      rw [solveAux_wild b sr fuel pos t tile st t1 htile htl]
      have hR : ∀ s s', (SInv b s ∧ usedAt s pos = false ∧
            (∀ l ∈ s.path.getLast?, b.isAdjacent l pos = true) ∧
            wordOf b sr s.wildcard s.path = wordOf b sr st.wildcard st.path) →
          SFrame dict b s s' →
          (SInv b s' ∧ usedAt s' pos = false ∧
            (∀ l ∈ s'.path.getLast?, b.isAdjacent l pos = true) ∧
            wordOf b sr s'.wildcard s'.path = wordOf b sr st.wildcard st.path) := by
        intro s s' hr hfr
        refine ⟨SInv_transport hr.1 hfr, ?_, ?_, ?_⟩
        · show s'.used.getD pos false = false
          rw [hfr.1]
          exact hr.2.1
        · rw [hfr.2.1]
          exact hr.2.2.1
        · rw [wordOf_transport sr hr.1 hfr]
          exact hr.2.2.2
      have hf : ∀ s c, c ∈ alphabet →
          (SInv b s ∧ usedAt s pos = false ∧
            (∀ l ∈ s.path.getLast?, b.isAdjacent l pos = true) ∧
            wordOf b sr s.wildcard s.path = wordOf b sr st.wildcard st.path) →
          SFrame dict b s (solveAux b sr fuel pos t1 (c :: tile.drop 1)
            { s with wildcard := s.wildcard.set pos c }) := by
        intro s c hc hr
        obtain ⟨hsinv, hsu, hsadj, hsword⟩ := hr
        have hposlt : pos < s.wildcard.length := by
          rw [hsinv.2.1]
          exact hlt
        have hposnotin : pos ∉ s.path := by
          intro hmem
          have := (hsinv.2.2.1 pos).mpr hmem
          rw [hsu] at this
          exact Bool.false_ne_true this
        have hwcpath : ∀ i ∈ s.path,
            wcAt (s.wildcard.set pos c) i = wcAt s.wildcard i := by
          intro i hi
          have hne : pos ≠ i := fun he => hposnotin (he ▸ hi)
          unfold wcAt
          exact getD_set_ne s.wildcard c nulChar hne
        have hfr0 : SFrame dict b s { s with wildcard := s.wildcard.set pos c } := by
          refine ⟨rfl, rfl, by simp, ?_, ⟨[], by simp, by simp⟩⟩
          intro i hi
          apply hwcpath
          exact (hsinv.2.2.1 i).mp hi
        have hsub : SFrame dict b { s with wildcard := s.wildcard.set pos c }
            (solveAux b sr fuel pos t1 (c :: tile.drop 1)
              { s with wildcard := s.wildcard.set pos c }) := by
          apply ih
          refine ⟨SInv_transport hsinv hfr0, hlt, hsu, hsadj, ?_⟩
          apply TRel_wild_sub b sr dict hc htile htl htrel
          · show wordOf b sr (s.wildcard.set pos c) s.path = _
            rw [wordOf_stable b sr s.path hwcpath]
            exact hsword
          · show wcAt (s.wildcard.set pos c) pos = c
            unfold wcAt
            exact getD_set_self s.wildcard pos c nulChar hposlt
        exact SFrame.trans hfr0 hsub
      exact (foldl_sframe dict b _ _ hR alphabet hf st ⟨hinv, hunused, hadj, rfl⟩).1
    | ok t1 =>
      rw [solveAux_ok b sr fuel pos t tile st t1 htile htl]
      have hposltu : pos < st.used.length := by
        rw [hinv.1]
        exact hlt
      have hposnotin : pos ∉ st.path := by
        intro hmem
        have := (hinv.2.2.1 pos).mpr hmem
        rw [hunused] at this
        exact Bool.false_ne_true this
      have hnodup1 : (st.path ++ [pos]).Nodup :=
        nodup_snoc hinv.2.2.2.1 hposnotin
      have hchain1 : (st.path ++ [pos]).Chain' (fun i j => b.isAdjacent i j = true) :=
        chain_snoc hinv.2.2.2.2 hadj
      have hdesc1 : dict.descend (wordOf b sr st.wildcard (st.path ++ [pos])) =
          some t1 := trel_ok_descend b sr dict htile htrel htl
      set st1 : SState :=
        { st with used := st.used.set pos true, path := st.path ++ [pos] } with hst1
      have hinv1 : SInv b st1 := by
        refine ⟨by simp [hst1, hinv.1], by simp [hst1, hinv.2.1], ?_, hnodup1, hchain1⟩
        intro i
        by_cases hip : i = pos
        · subst hip
          constructor
          · intro _
            simp
          · intro _
            show (st.used.set i true).getD i false = true
            exact getD_set_self st.used i true false hposltu
        · have hne : pos ≠ i := fun he => hip he.symm
          show (st.used.set pos true).getD i false = true ↔ i ∈ st.path ++ [pos]
          rw [getD_set_ne st.used true false hne]
          rw [List.mem_append]
          constructor
          · intro h
            exact Or.inl ((hinv.2.2.1 i).mp h)
          · intro h
            rcases h with h | h
            · exact (hinv.2.2.1 i).mpr h
            · simp at h
              exact absurd h hip
      set sol := scoreSolution b sr st1.wildcard st1.path with hsol
      set st2 : SState :=
        (if t1.isWordF then
          if (sol.wordLength : Int) ≥ sr.minWordLength then
            { st1 with solutions := st1.solutions ++ [sol] }
          else st1
        else st1) with hst2
      have hst2facts : st2.used = st1.used ∧ st2.path = st1.path ∧
          st2.wildcard = st1.wildcard ∧
          ∃ e, st2.solutions = st1.solutions ++ e ∧ ∀ x ∈ e, SoundSol dict b x := by
        rw [hst2]
        by_cases hw : t1.isWordF = true
        · rw [if_pos hw]
          by_cases hmin : (sol.wordLength : Int) ≥ sr.minWordLength
          · rw [if_pos hmin]
            refine ⟨rfl, rfl, rfl, [sol], rfl, ?_⟩
            intro x hx
            have hxe : x = sol := by simpa using hx
            subst hxe
            refine ⟨?_, ?_, ?_⟩
            · rw [hsol, scoreSolution_positions]
              exact hnodup1
            · rw [hsol, scoreSolution_positions]
              exact hchain1
            · rw [hsol, scoreSolution_word]
              rw [Trie.containsWord_eq_descend]
              show (((dict.descend (wordOf b sr st.wildcard (st.path ++ [pos]))).map
                Trie.isWordF).getD false) = true
              rw [hdesc1]
              exact hw
          · rw [if_neg hmin]
            exact ⟨rfl, rfl, rfl, [], by simp, by simp⟩
        · rw [if_neg hw]
          exact ⟨rfl, rfl, rfl, [], by simp, by simp⟩
      obtain ⟨h2u, h2p, h2w, e2, h2s, h2sound⟩ := hst2facts
      have hfr12 : SFrame dict b st1 st2 :=
        ⟨h2u, h2p, by rw [h2w], fun i _ => by rw [h2w], e2, h2s, h2sound⟩
      have hinv2 : SInv b st2 := SInv_transport hinv1 hfr12
      have hR' : ∀ s s', (SInv b s ∧ s.path = st.path ++ [pos] ∧
            wordOf b sr s.wildcard s.path =
              wordOf b sr st.wildcard (st.path ++ [pos])) →
          SFrame dict b s s' →
          (SInv b s' ∧ s'.path = st.path ++ [pos] ∧
            wordOf b sr s'.wildcard s'.path =
              wordOf b sr st.wildcard (st.path ++ [pos])) := by
        intro s s' hr hfr
        refine ⟨SInv_transport hr.1 hfr, ?_, ?_⟩
        · rw [hfr.2.1]
          exact hr.2.1
        · rw [wordOf_transport sr hr.1 hfr]
          exact hr.2.2
      have hf' : ∀ s i, i ∈ List.range b.size →
          (SInv b s ∧ s.path = st.path ++ [pos] ∧
            wordOf b sr s.wildcard s.path =
              wordOf b sr st.wildcard (st.path ++ [pos])) →
          SFrame dict b s
            (if usedAt s i = false ∧ b.isAdjacent pos i = true then
              solveAux b sr fuel i t1 (b.tileAt i) s
            else s) := by
        intro s i hi hr
        by_cases hcnd : usedAt s i = false ∧ b.isAdjacent pos i = true
        · rw [if_pos hcnd]
          apply ih
          refine ⟨hr.1, List.mem_range.mp hi, hcnd.1, ?_, ?_⟩
          · intro l hl
            rw [hr.2.1, List.getLast?_concat] at hl
            simp only [Option.mem_def, Option.some.injEq] at hl
            subst hl
            exact hcnd.2
          · left
            refine ⟨rfl, ?_⟩
            rw [hr.2.2]
            exact hdesc1
        · rw [if_neg hcnd]
          exact SFrame.rfl dict b s
      have h0' : SInv b st2 ∧ st2.path = st.path ++ [pos] ∧
          wordOf b sr st2.wildcard st2.path =
            wordOf b sr st.wildcard (st.path ++ [pos]) := by
        refine ⟨hinv2, by rw [h2p], ?_⟩
        rw [h2w, h2p]
      obtain ⟨hfr23, hr3⟩ :=
        foldl_sframe dict b _ _ hR' (List.range b.size) hf' st2 h0'
      set st3 := (List.range b.size).foldl
        (fun s i => if usedAt s i = false ∧ b.isAdjacent pos i = true then
          solveAux b sr fuel i t1 (b.tileAt i) s else s) st2 with hst3
      obtain ⟨h3u, h3p, h3l, h3stab, e3, h3s, h3sound⟩ := hfr23
      refine ⟨?_, ?_, ?_, ?_, ?_⟩
      · show (st3.used.set pos false) = st.used
        rw [h3u, h2u]
        show ((st.used.set pos true).set pos false) = st.used
        rw [List.set_set]
        exact set_false_of_getD_false st.used pos hunused
      · show st3.path.dropLast = st.path
        rw [h3p, h2p]
        exact List.dropLast_concat
      · show st3.wildcard.length = st.wildcard.length
        rw [h3l, h2w]
      · intro i hi
        have hne : pos ≠ i := by
          intro he
          rw [← he, hunused] at hi
          exact Bool.false_ne_true hi
        have hi1 : usedAt st1 i = true := by
          show (st.used.set pos true).getD i false = true
          rw [getD_set_ne st.used true false hne]
          exact hi
        have hi2 : usedAt st2 i = true := by
          show st2.used.getD i false = true
          rw [h2u]
          exact hi1
        show wcAt st3.wildcard i = wcAt st.wildcard i
        rw [h3stab i hi2, h2w]
      · refine ⟨e2 ++ e3, ?_, ?_⟩
        · show st3.solutions = st.solutions ++ (e2 ++ e3)
          rw [h3s, h2s]
          simp [hst1]
        · intro x hx
          rcases List.mem_append.mp hx with hx | hx
          · exact h2sound x hx
          · exact h3sound x hx

theorem getD_replicate_false (n i : Nat) :
    (List.replicate n false).getD i false = false := by
  rw [List.getD_eq_getElem?_getD, List.getElem?_replicate]
  split <;> rfl

/-- Claim C1: every Solution emitted by `Solver::solve` is sound — its
path is a simple walk (no tile index repeats), every consecutive pair of
path tiles is adjacent under the board's `is_adjacent` relation, and the
emitted word (after Qu expansion and wildcard substitution) is stored in
the solver's dictionary trie. -/
theorem claim1_solver_soundness (s : Solver) (b : Board) (sr : GameScoringRules)
    (sol : Solution) (hmem : sol ∈ (s.solve (some b) sr).solutions) :
    sol.positions.Nodup ∧
    sol.positions.Chain' (fun i j => b.isAdjacent i j = true) ∧
    s.dict.containsWord sol.word = true := by
  set st0 : SState :=
    ⟨List.replicate b.size false, [], List.replicate b.size nulChar, []⟩ with hst0
  have hinv0 : SInv b st0 := by
    refine ⟨by simp [hst0], by simp [hst0], ?_, by simp [hst0], by simp [hst0]⟩
    intro i
    constructor
    · intro h
      rw [show usedAt st0 i = false from getD_replicate_false b.size i] at h
      exact absurd h Bool.false_ne_true
    · intro h
      exact absurd h (by simp [hst0])
  have hR : ∀ s1 s2, (SInv b s1 ∧ s1.path = ([] : List Nat) ∧
        s1.used = List.replicate b.size false) →
      SFrame s.dict b s1 s2 →
      (SInv b s2 ∧ s2.path = ([] : List Nat) ∧
        s2.used = List.replicate b.size false) := by
    intro s1 s2 hr hfr
    refine ⟨SInv_transport hr.1 hfr, ?_, ?_⟩
    · rw [hfr.2.1]
      exact hr.2.1
    · rw [hfr.1]
      exact hr.2.2
  have hf : ∀ s1 i, i ∈ List.range b.size →
      (SInv b s1 ∧ s1.path = ([] : List Nat) ∧
        s1.used = List.replicate b.size false) →
      SFrame s.dict b s1
        (solveAux b sr (2 * b.size + 2) i s.dict (b.tileAt i) s1) := by
    intro s1 i hi hr
    apply solveAux_sframe
    refine ⟨hr.1, List.mem_range.mp hi, ?_, ?_, ?_⟩
    · show s1.used.getD i false = false
      rw [hr.2.2]
      exact getD_replicate_false b.size i
    · intro l hl
      rw [hr.2.1] at hl
      simp at hl
    · left
      refine ⟨rfl, ?_⟩
      rw [hr.2.1]
      rfl
  obtain ⟨hfr, _⟩ := foldl_sframe s.dict b _ _ hR (List.range b.size) hf st0
    ⟨hinv0, rfl, rfl⟩
  obtain ⟨_, _, _, _, new, hsols, hsound⟩ := hfr
  have hsolve : (s.solve (some b) sr).solutions =
      ((List.range b.size).foldl
        (fun st i => solveAux b sr (2 * b.size + 2) i s.dict (b.tileAt i) st)
        st0).solutions := rfl
  rw [hsolve, hsols] at hmem
  have hmem2 : sol ∈ new := by simpa [hst0] using hmem
  exact hsound sol hmem2

/-! ### Concrete instances for witnesses -/

/-- Dictionary {CAT, CATS}. -/
def exCatDict : Trie := Trie.ofWords [['C', 'A', 'T'], ['C', 'A', 'T', 'S']]

/-- A 1×3 strip C–A–T with 4-neighbour adjacency. -/
def exCatBoard : Board :=
  { tiles := [['C'], ['A'], ['T']],
    letterMult := [1, 1, 1], wordMult := [1, 1, 1],
    adjMatrix := some [[false, true, false], [true, false, true], [false, true, false]] }

def exCatRules : GameScoringRules :=
  { qIsQu := false, minWordLength := 3, shortWordLength := 3, shortWordPoints := 5,
    letterValues := [('C', 3), ('A', 1), ('T', 1)] }

def exCatSolver : Solver := { dict := exCatDict }

def exCatSolution : Solution := ⟨['C', 'A', 'T'], [0, 1, 2], 3, 5, 5, 1, 0⟩

/-- Witness for claim C1 at a concrete input: the CAT solution is emitted
and the soundness theorem applies to it. -/
theorem claim1_witness :
    exCatSolution.positions.Nodup ∧
    exCatSolution.positions.Chain' (fun i j => exCatBoard.isAdjacent i j = true) ∧
    exCatSolver.dict.containsWord exCatSolution.word = true :=
  claim1_solver_soundness exCatSolver exCatBoard exCatRules exCatSolution (by decide)

/-- Witness for claim C3 at a concrete input. -/
theorem claim3_witness :
    exBonusRulesAdd.minWordLength ≤
      ((scoreSolution exBonusBoard exBonusRulesAdd [] [0, 1, 2, 3, 4, 5, 6]).wordLength : Int) ∧
    exBonusRulesAdd.shortWordLength <
      ((scoreSolution exBonusBoard exBonusRulesAdd [] [0, 1, 2, 3, 4, 5, 6]).wordLength : Int) ∧
    (scoreSolution exBonusBoard exBonusRulesAdd [] [0, 1, 2, 3, 4, 5, 6]).lengthBonus =
      exBonusRulesAdd.lengthBonus
        ((scoreSolution exBonusBoard exBonusRulesAdd [] [0, 1, 2, 3, 4, 5, 6]).wordLength : Int) :=
  ⟨by decide, by decide,
    (claim3_length_bonus_scoring.1 exBonusBoard exBonusRulesAdd [] [0, 1, 2, 3, 4, 5, 6]
      (by decide) (by decide)).1⟩

/-- Board Q–I–T for the Qu-expansion witness. -/
def exQuBoard : Board :=
  { tiles := [['Q'], ['I'], ['T']],
    letterMult := [1, 1, 1], wordMult := [1, 1, 1],
    adjMatrix := some [[false, true, false], [true, false, true], [false, true, false]] }

def exQuRules : GameScoringRules := { qIsQu := true, quLength := 2, minWordLength := 3 }

/-- Witness for claim C4 at a concrete input: a path over the Q tile. -/
theorem claim4_witness :
    exQuRules.qIsQu = true ∧
    ((scoreSolution exQuBoard exQuRules [] [0, 1, 2]).word =
      (pathLetters exQuBoard [] [0, 1, 2]).flatMap
        (fun l => l.toUpper :: (if l = 'Q' ∨ l = 'q' then ['U'] else [])) ∧
    (scoreSolution exQuBoard exQuRules [] [0, 1, 2]).wordLength =
      (pathLetters exQuBoard [] [0, 1, 2]).length +
        (if exQuRules.quLength = 2
          then (pathLetters exQuBoard [] [0, 1, 2]).countP (fun l => l = 'Q' || l = 'q')
          else 0)) :=
  ⟨rfl, claim4_qu_expansion exQuBoard exQuRules [] [0, 1, 2] rfl⟩

/-- Witness for claim C5 at a concrete input: a fresh solver and one with
stale mutable state produce the same solution list. -/
theorem claim5_witness :
    ((⟨exCatDict, [], [], [], []⟩ : Solver).solve (some exCatBoard) exCatRules).solutions =
    ((⟨exCatDict, [exCatSolution], [true], [2], ['Z']⟩ : Solver).solve
      (some exCatBoard) exCatRules).solutions :=
  claim5_deterministic ⟨exCatDict, [], [], [], []⟩
    ⟨exCatDict, [exCatSolution], [true], [2], ['Z']⟩ exCatBoard exCatRules rfl

/-- Witness for claim C8 at a concrete input. -/
theorem claim8_witness :
    (10 : Nat) < 2147483648 ∧ (11 : Nat) < 2147483648 ∧ (1 : Nat) ≤ 3 ∧
    ((acceptMove false 10 20 11 5 3 = true ↔
      (10 < 11 ∨ 20 < 5 ∨ ((10 : Nat) : Int) - ((11 : Nat) : Int) <
        ((250 / 3 : Nat) : Int))) ∧
    (acceptMove true 10 20 11 5 3 = true ↔
      (11 < 10 ∨ 5 < 20 ∨ ((11 : Nat) : Int) - ((10 : Nat) : Int) <
        ((250 / 3 : Nat) : Int)))) :=
  ⟨by decide, by decide, by decide,
    claim8_acceptance 10 20 11 5 3 (by decide) (by decide) (by decide)⟩

/-! ### Claim C6: the analyzer's aggregates

`operator<` on Solutions orders by word ascending (`std::string` is
lexicographic by character) and then by score descending. -/

/-- Strict lexicographic order on words, the order of `std::string`'s
`operator<`. -/
def lexLt : List Char → List Char → Bool
  | [], [] => false
  | [], _ :: _ => true
  | _ :: _, [] => false
  | a :: as, b :: bs => if a < b then true else if b < a then false else lexLt as bs

/-- `operator<(Solution, Solution)` as a non-strict sortedness relation:
word ascending, then score descending. -/
def solLE (x y : Solution) : Prop :=
  lexLt x.word y.word = true ∨ (x.word = y.word ∧ y.score ≤ x.score)

instance : DecidablePred (fun xy : Solution × Solution => solLE xy.1 xy.2) := by
  intro xy
  unfold solLE
  infer_instance

instance (x y : Solution) : Decidable (solLE x y) := by
  unfold solLE
  infer_instance

theorem lexLt_irrefl : ∀ w, lexLt w w = false := by
  intro w
  induction w with
  | nil => rfl
  | cons a as ih =>
    rw [lexLt, if_neg (by simp), if_neg (by simp)]
    exact ih

theorem lexLt_trans : ∀ a b c, lexLt a b = true → lexLt b c = true →
    lexLt a c = true := by
  intro a
  induction a with
  | nil =>
    intro b c hab hbc
    cases c with
    | nil =>
      cases b with
      | nil => rw [lexLt_irrefl] at hab; exact absurd hab (by simp)
      | cons y ys => exact absurd hbc (by rw [show lexLt (y :: ys) [] = false from rfl]; simp)
    | cons z zs => rfl
  | cons x xs ih =>
    intro b c hab hbc
    cases b with
    | nil => exact absurd hab (by rw [show lexLt (x :: xs) [] = false from rfl]; simp)
    | cons y ys =>
      cases c with
      | nil => exact absurd hbc (by rw [show lexLt (y :: ys) [] = false from rfl]; simp)
      | cons z zs =>
        rw [lexLt] at hab hbc ⊢
        rcases lt_trichotomy x y with hxy | hxy | hxy
        · rcases lt_trichotomy y z with hyz | hyz | hyz
          · rw [if_pos (lt_trans hxy hyz)]
          · subst hyz
            rw [if_pos hxy]
          · rw [if_neg (asymm hyz), if_pos hyz] at hbc
            exact absurd hbc (by simp)
        · subst hxy
          rw [if_neg (lt_irrefl x), if_neg (lt_irrefl x)] at hab
          rcases lt_trichotomy x z with hxz | hxz | hxz
          · rw [if_pos hxz]
          · subst hxz
            rw [if_neg (lt_irrefl x), if_neg (lt_irrefl x)] at hbc ⊢
            exact ih ys zs hab hbc
          · rw [if_neg (asymm hxz), if_pos hxz] at hbc
            exact absurd hbc (by simp)
        · rw [if_neg (asymm hxy), if_pos hxy] at hab
          exact absurd hab (by simp)

theorem lexLt_asymm {a b : List Char} (h : lexLt a b = true) : lexLt b a = false := by
  by_contra hcon
  have h2 : lexLt b a = true := by
    cases hba : lexLt b a with
    | false => exact absurd hba hcon
    | true => rfl
  have := lexLt_trans a b a h h2
  rw [lexLt_irrefl] at this
  exact absurd this (by simp)

theorem lexLt_ne {a b : List Char} (h : lexLt a b = true) : a ≠ b := by
  intro he
  subst he
  rw [lexLt_irrefl] at h
  exact absurd h (by simp)

/-- Combine a strict step with a non-strict step of the word order. -/
theorem lexLt_le_trans {a b c : List Char} (h1 : lexLt a b = true)
    (h2 : b = c ∨ lexLt b c = true) : lexLt a c = true := by
  cases h2 with
  | inl he => rw [← he]; exact h1
  | inr hlt => exact lexLt_trans a b c h1 hlt

/-- Removing all but the first occurrence of each word (the "seen" set
accumulates words already kept). -/
def dedupWordsGo (seen : List (List Char)) : List Solution → List Solution
  | [] => []
  | s :: rest =>
    if s.word ∈ seen then dedupWordsGo seen rest
    else s :: dedupWordsGo (s.word :: seen) rest

/-- The solution list with duplicate words removed, keeping the first
occurrence of each word. -/
def dedupWords (sols : List Solution) : List Solution := dedupWordsGo [] sols

/-- The distinct words of a solution list, in order of first appearance. -/
def uniqueWords (sols : List Solution) : List (List Char) :=
  (dedupWords sols).map (fun s => s.word)

/-- Does solution `s` touch 1-based position `p`? -/
def hitsPos (p : Nat) (s : Solution) : Bool := s.positions.any (fun q => q + 1 == p)

/-- Does some solution with word `w` touch 1-based position `p`? -/
def hasPosWord (p : Nat) (w : List Char) (sols : List Solution) : Bool :=
  sols.any (fun s => (s.word == w) && hitsPos p s)

/-- The score of the first solution with word `w` touching 1-based
position `p` (0 when there is none). -/
def firstPosScore (p : Nat) (w : List Char) (sols : List Solution) : Nat :=
  match sols.find? (fun s => (s.word == w) && hitsPos p s) with
  | some s => s.score
  | none => 0

theorem bump_at (f : Nat → Nat) (k d n : Nat) :
    bump f k d n = if n = k then f n + d else f n := rfl

theorem bump_self (f : Nat → Nat) (k d : Nat) : bump f k d k = f k + d := by
  rw [bump_at, if_pos rfl]

theorem bump_ne (f : Nat → Nat) {k n : Nat} (d : Nat) (h : n ≠ k) :
    bump f k d n = f n := by
  rw [bump_at, if_neg h]

theorem fold_bump_range (d : Nat) :
    ∀ (m : Nat) (f : Nat → Nat) (n : Nat),
    ((List.range m).foldl (fun g j => bump g j d) f) n =
      f n + (if n < m then d else 0) := by
  intro m
  induction m with
  | zero => intro f n; simp
  | succ m ih =>
    intro f n
    rw [List.range_succ, List.foldl_append, List.foldl_cons, List.foldl_nil, bump_at, ih]
    by_cases hn : n = m
    · subst hn
      rw [if_pos rfl, if_neg (lt_irrefl n), if_pos (Nat.lt_succ_self n)]
      omega
    · rw [if_neg hn]
      by_cases hlt : n < m
      · rw [if_pos hlt, if_pos (Nat.lt_succ_of_lt hlt)]
      · rw [if_neg hlt, if_neg (by omega)]

theorem any_cons_ne {pos p : Nat} (rest : List Nat) (hp : p ≠ pos + 1) :
    ((pos :: rest).any (fun q => q + 1 == p)) = (rest.any (fun q => q + 1 == p)) := by
  rw [List.any_cons, show (pos + 1 == p) = false from by simp only [beq_eq_false_iff_ne]; omega,
    Bool.false_or]

theorem mem_append_singleton_ne {p x : Nat} (l : List Nat) (hp : p ≠ x) :
    (p ∈ l ++ [x]) ↔ p ∈ l := by
  simp [hp]

/-- Effect of the position-credit loop on the two position aggregates,
membership of the credited set, and a frame for every other member. -/
theorem posCredit_fold (sc p : Nat) :
    ∀ (positions : List Nat) (acc2 : SolutionAnalysis × List Nat),
    (positions.foldl (posCredit sc) acc2).1.positionWords p =
      acc2.1.positionWords p +
        (if (positions.any (fun q => q + 1 == p)) = true ∧ p ∉ acc2.2 then 1 else 0) ∧
    (positions.foldl (posCredit sc) acc2).1.positionPoints p =
      acc2.1.positionPoints p +
        (if (positions.any (fun q => q + 1 == p)) = true ∧ p ∉ acc2.2 then sc else 0) ∧
    (∀ q, q ∈ (positions.foldl (posCredit sc) acc2).2 ↔
      q ∈ acc2.2 ∨ (positions.any (fun x => x + 1 == q)) = true) ∧
    (positions.foldl (posCredit sc) acc2).1.wordLengthCounts = acc2.1.wordLengthCounts ∧
    (positions.foldl (posCredit sc) acc2).1.pointLengthCounts = acc2.1.pointLengthCounts ∧
    (positions.foldl (posCredit sc) acc2).1.wordLengthpCounts = acc2.1.wordLengthpCounts ∧
    (positions.foldl (posCredit sc) acc2).1.pointLengthpCounts = acc2.1.pointLengthpCounts ∧
    (positions.foldl (posCredit sc) acc2).1.bestWords = acc2.1.bestWords ∧
    (positions.foldl (posCredit sc) acc2).1.bestWordPoints = acc2.1.bestWordPoints := by
  intro positions
  induction positions with
  | nil =>
    intro acc2
    refine ⟨by simp, by simp, by simp, rfl, rfl, rfl, rfl, rfl, rfl⟩
  | cons pos rest ih =>
    intro acc2
    rw [List.foldl_cons]
    by_cases hin : pos + 1 ∈ acc2.2
    · have hpc : posCredit sc acc2 pos = acc2 := by
        unfold posCredit
        rw [if_pos hin]
      rw [hpc]
      obtain ⟨i1, i2, i3, i4, i5, i6, i7, i8, i9⟩ := ih acc2
      refine ⟨?_, ?_, ?_, i4, i5, i6, i7, i8, i9⟩
      · rw [i1]
        congr 1
        by_cases hp : p = pos + 1
        · subst hp
          rw [if_neg (fun hcon => hcon.2 hin), if_neg (fun hcon => hcon.2 hin)]
        · rw [any_cons_ne rest hp]
      · rw [i2]
        congr 1
        by_cases hp : p = pos + 1
        · subst hp
          rw [if_neg (fun hcon => hcon.2 hin), if_neg (fun hcon => hcon.2 hin)]
        · rw [any_cons_ne rest hp]
      · intro q
        rw [i3 q]
        by_cases hq : q = pos + 1
        · subst hq
          simp [hin]
        · rw [any_cons_ne rest hq]
    · have hpc : posCredit sc acc2 pos =
          ({ acc2.1 with positionWords := bump acc2.1.positionWords (pos + 1) 1,
                         positionPoints := bump acc2.1.positionPoints (pos + 1) sc },
           acc2.2 ++ [pos + 1]) := by
        unfold posCredit
        rw [if_neg hin]
      rw [hpc]
      obtain ⟨i1, i2, i3, i4, i5, i6, i7, i8, i9⟩ := ih
        ({ acc2.1 with positionWords := bump acc2.1.positionWords (pos + 1) 1,
                       positionPoints := bump acc2.1.positionPoints (pos + 1) sc },
         acc2.2 ++ [pos + 1])
      refine ⟨?_, ?_, ?_, i4, i5, i6, i7, i8, i9⟩
      · rw [i1]
        by_cases hp : p = pos + 1
        · subst hp
          show bump acc2.1.positionWords (pos + 1) 1 (pos + 1) + _ = _
          rw [bump_self]
          rw [if_neg (fun hcon => hcon.2 (by simp)),
            if_pos ⟨by simp, hin⟩]
        · show bump acc2.1.positionWords (pos + 1) 1 p + _ = _
          rw [bump_ne _ 1 hp]
          congr 1
          have hiff : ((rest.any (fun q => q + 1 == p)) = true ∧
              p ∉ acc2.2 ++ [pos + 1]) ↔
              (((pos :: rest).any (fun q => q + 1 == p)) = true ∧ p ∉ acc2.2) := by
            rw [any_cons_ne rest hp, mem_append_singleton_ne acc2.2 hp]
          rw [if_congr hiff rfl rfl]
      · rw [i2]
        by_cases hp : p = pos + 1
        · subst hp
          show bump acc2.1.positionPoints (pos + 1) sc (pos + 1) + _ = _
          rw [bump_self]
          rw [if_neg (fun hcon => hcon.2 (by simp)),
            if_pos ⟨by simp, hin⟩]
          omega
        · show bump acc2.1.positionPoints (pos + 1) sc p + _ = _
          rw [bump_ne _ sc hp]
          congr 1
          have hiff : ((rest.any (fun q => q + 1 == p)) = true ∧
              p ∉ acc2.2 ++ [pos + 1]) ↔
              (((pos :: rest).any (fun q => q + 1 == p)) = true ∧ p ∉ acc2.2) := by
            rw [any_cons_ne rest hp, mem_append_singleton_ne acc2.2 hp]
          rw [if_congr hiff rfl rfl]
      · intro q
        rw [i3 q]
        by_cases hq : q = pos + 1
        · subst hq
          simp
        · rw [any_cons_ne rest hq, mem_append_singleton_ne acc2.2 hq]

/-- The words of a solution list in order of first appearance, skipping
words already `seen`. -/
def newWords (seen : List (List Char)) : List Solution → List (List Char)
  | [] => []
  | s :: rest =>
    if s.word ∈ seen then newWords seen rest
    else s.word :: newWords (s.word :: seen) rest

theorem newWords_not_mem : ∀ (sols : List Solution) (seen : List (List Char))
    (w : List Char), w ∈ newWords seen sols → w ∉ seen := by
  intro sols
  induction sols with
  | nil => intro seen w h; exact absurd h (by simp [newWords])
  | cons s rest ih =>
    intro seen w h
    rw [newWords] at h
    by_cases hs : s.word ∈ seen
    · rw [if_pos hs] at h
      exact ih seen w h
    · rw [if_neg hs] at h
      rcases List.mem_cons.mp h with h | h
      · subst h; exact hs
      · intro hw
        exact ih (s.word :: seen) w h (List.mem_cons_of_mem _ hw)

theorem newWords_congr : ∀ (sols : List Solution) (seen1 seen2 : List (List Char)),
    (∀ t ∈ sols, (t.word ∈ seen1 ↔ t.word ∈ seen2)) →
    newWords seen1 sols = newWords seen2 sols := by
  intro sols
  induction sols with
  | nil => intro seen1 seen2 _; rfl
  | cons s rest ih =>
    intro seen1 seen2 hiff
    rw [newWords, newWords]
    by_cases hs : s.word ∈ seen1
    · rw [if_pos hs, if_pos ((hiff s (List.mem_cons_self s rest)).mp hs)]
      exact ih seen1 seen2 (fun t ht => hiff t (List.mem_cons_of_mem s ht))
    · rw [if_neg hs, if_neg (fun hc => hs ((hiff s (List.mem_cons_self s rest)).mpr hc))]
      refine congrArg _ (ih (s.word :: seen1) (s.word :: seen2) ?_)
      intro t ht
      rw [List.mem_cons, List.mem_cons]
      exact or_congr Iff.rfl (hiff t (List.mem_cons_of_mem s ht))

/-- Seeding the seen-set with a word that does not occur is irrelevant. -/
theorem newWords_irrel {sols : List Solution} {seen : List (List Char)}
    {w : List Char} (h : ∀ t ∈ sols, t.word ≠ w) :
    newWords (w :: seen) sols = newWords seen sols := by
  refine newWords_congr sols (w :: seen) seen ?_
  intro t ht
  rw [List.mem_cons]
  constructor
  · rintro (hc | hc)
    · exact absurd hc (h t ht)
    · exact hc
  · exact Or.inr

/-- The words kept by the dedup pass are exactly the first-appearance words. -/
theorem map_dedupWordsGo : ∀ (sols : List Solution) (seen : List (List Char)),
    (dedupWordsGo seen sols).map (fun s => s.word) = newWords seen sols := by
  intro sols
  induction sols with
  | nil => intro seen; rfl
  | cons s rest ih =>
    intro seen
    rw [dedupWordsGo, newWords]
    by_cases hs : s.word ∈ seen
    · rw [if_pos hs, if_pos hs]
      exact ih seen
    · rw [if_neg hs, if_neg hs, List.map_cons, ih (s.word :: seen)]

theorem uniqueWords_eq_newWords (sols : List Solution) :
    uniqueWords sols = newWords [] sols :=
  map_dedupWordsGo sols []

theorem hasPosWord_cons (p : Nat) (w : List Char) (s : Solution)
    (l : List Solution) :
    hasPosWord p w (s :: l) = (((s.word == w) && hitsPos p s) || hasPosWord p w l) :=
  List.any_cons

theorem hasPosWord_eq_false (p : Nat) (w : List Char) :
    ∀ (l : List Solution), (∀ t ∈ l, t.word ≠ w) → hasPosWord p w l = false := by
  intro l
  induction l with
  | nil => intro _; rfl
  | cons s rest ih =>
    intro h
    rw [hasPosWord_cons, Bool.or_eq_false_iff]
    refine ⟨?_, ih (fun t ht => h t (List.mem_cons_of_mem s ht))⟩
    rw [Bool.and_eq_false_iff]
    left
    rw [beq_eq_false_iff_ne]
    exact h s (List.mem_cons_self s rest)

theorem firstPosScore_cons_hit {p : Nat} {w : List Char} {s : Solution}
    (l : List Solution) (h : ((s.word == w) && hitsPos p s) = true) :
    firstPosScore p w (s :: l) = s.score := by
  unfold firstPosScore
  rw [@List.find?_cons_of_pos _ (fun t => t.word == w && hitsPos p t) s l h]

theorem firstPosScore_cons_miss {p : Nat} {w : List Char} {s : Solution}
    (l : List Solution) (h : ((s.word == w) && hitsPos p s) = false) :
    firstPosScore p w (s :: l) = firstPosScore p w l := by
  unfold firstPosScore
  rw [@List.find?_cons_of_neg _ (fun t => t.word == w && hitsPos p t) s l
    (by show ¬ (s.word == w && hitsPos p s) = true; rw [h]; exact Bool.false_ne_true)]

theorem firstPosScore_eq_zero {p : Nat} {w : List Char} :
    ∀ {l : List Solution}, hasPosWord p w l = false → firstPosScore p w l = 0 := by
  intro l
  induction l with
  | nil => intro _; rfl
  | cons s rest ih =>
    intro h
    rw [hasPosWord_cons, Bool.or_eq_false_iff] at h
    rw [firstPosScore_cons_miss rest h.1]
    exact ih h.2

/-- The best-word updates touch no other field. -/
theorem bestUpdate_frame (w : List Char) (wl sc : Nat) (a : SolutionAnalysis) :
    (bestUpdate w wl sc a).wordLengthCounts = a.wordLengthCounts ∧
    (bestUpdate w wl sc a).pointLengthCounts = a.pointLengthCounts ∧
    (bestUpdate w wl sc a).wordLengthpCounts = a.wordLengthpCounts ∧
    (bestUpdate w wl sc a).pointLengthpCounts = a.pointLengthpCounts ∧
    (bestUpdate w wl sc a).positionWords = a.positionWords ∧
    (bestUpdate w wl sc a).positionPoints = a.positionPoints := by
  unfold bestUpdate
  dsimp only
  split_ifs <;> exact ⟨rfl, rfl, rfl, rfl, rfl, rfl⟩

/-- `analyzeStep` with its lets and accumulator projections expanded. -/
theorem analyzeStep_def (a : SolutionAnalysis) (lw : List Char) (lwp : List Nat)
    (s : Solution) :
    analyzeStep (a, lw, lwp) s =
      ((s.positions.foldl (posCredit s.score)
          (if s.word ≠ lw then
             firstUpdate s.word.length s.score (bestUpdate s.word s.word.length s.score a)
           else bestUpdate s.word s.word.length s.score a,
           if s.word ≠ lw then [] else lwp)).1,
       s.word,
       (s.positions.foldl (posCredit s.score)
          (if s.word ≠ lw then
             firstUpdate s.word.length s.score (bestUpdate s.word s.word.length s.score a)
           else bestUpdate s.word s.word.length s.score a,
           if s.word ≠ lw then [] else lwp)).2) := rfl

theorem firstUpdate_wLC (wl sc : Nat) (a : SolutionAnalysis) :
    (firstUpdate wl sc a).wordLengthCounts =
      bump (bump a.wordLengthCounts wl 1) 0 1 := rfl

theorem firstUpdate_pLC (wl sc : Nat) (a : SolutionAnalysis) :
    (firstUpdate wl sc a).pointLengthCounts =
      bump (bump a.pointLengthCounts wl sc) 0 sc := rfl

theorem firstUpdate_wLpC (wl sc : Nat) (a : SolutionAnalysis) :
    (firstUpdate wl sc a).wordLengthpCounts =
      (List.range (wl + 1)).foldl (fun f j => bump f j 1) a.wordLengthpCounts := rfl

theorem firstUpdate_pLpC (wl sc : Nat) (a : SolutionAnalysis) :
    (firstUpdate wl sc a).pointLengthpCounts =
      (List.range (wl + 1)).foldl (fun f j => bump f j sc) a.pointLengthpCounts := rfl

theorem firstUpdate_pW (wl sc : Nat) (a : SolutionAnalysis) :
    (firstUpdate wl sc a).positionWords = bump a.positionWords 0 1 := rfl

theorem firstUpdate_pP (wl sc : Nat) (a : SolutionAnalysis) :
    (firstUpdate wl sc a).positionPoints = bump a.positionPoints 0 sc := rfl

/-- All per-solution effects of one `analyzeStep`: the stored last word, the
four length aggregates, the two position aggregates away from slot 0, and
the credited-position set. -/
theorem analyzeStep_eqs (p : Nat) (hp : p ≠ 0) (a : SolutionAnalysis)
    (lw : List Char) (lwp : List Nat) (s : Solution) :
    (analyzeStep (a, lw, lwp) s).2.1 = s.word ∧
    (analyzeStep (a, lw, lwp) s).1.wordLengthCounts =
      (if s.word = lw then a.wordLengthCounts
       else bump (bump a.wordLengthCounts s.word.length 1) 0 1) ∧
    (analyzeStep (a, lw, lwp) s).1.pointLengthCounts =
      (if s.word = lw then a.pointLengthCounts
       else bump (bump a.pointLengthCounts s.word.length s.score) 0 s.score) ∧
    (analyzeStep (a, lw, lwp) s).1.wordLengthpCounts =
      (if s.word = lw then a.wordLengthpCounts
       else (List.range (s.word.length + 1)).foldl
         (fun f j => bump f j 1) a.wordLengthpCounts) ∧
    (analyzeStep (a, lw, lwp) s).1.pointLengthpCounts =
      (if s.word = lw then a.pointLengthpCounts
       else (List.range (s.word.length + 1)).foldl
         (fun f j => bump f j s.score) a.pointLengthpCounts) ∧
    (analyzeStep (a, lw, lwp) s).1.positionWords p =
      a.positionWords p +
        (if hitsPos p s = true ∧ p ∉ (if s.word = lw then lwp else ([] : List Nat))
         then 1 else 0) ∧
    (analyzeStep (a, lw, lwp) s).1.positionPoints p =
      a.positionPoints p +
        (if hitsPos p s = true ∧ p ∉ (if s.word = lw then lwp else ([] : List Nat))
         then s.score else 0) ∧
    (∀ q, q ∈ (analyzeStep (a, lw, lwp) s).2.2 ↔
      q ∈ (if s.word = lw then lwp else ([] : List Nat)) ∨ hitsPos q s = true) := by
  obtain ⟨b1, b2, b3, b4, b5, b6⟩ :=
    bestUpdate_frame s.word s.word.length s.score a
  rw [analyzeStep_def]
  by_cases hw : s.word = lw
  · simp only [if_neg (fun hc : s.word ≠ lw => hc hw), if_pos hw]
    obtain ⟨i1, i2, i3, i4, i5, i6, i7, i8, i9⟩ :=
      posCredit_fold s.score p s.positions
        (bestUpdate s.word s.word.length s.score a, lwp)
    refine ⟨by trivial, ?_, ?_, ?_, ?_, ?_, ?_, ?_⟩
    · simp only [i4, b1]
    · simp only [i5, b2]
    · simp only [i6, b3]
    · simp only [i7, b4]
    · simp only [i1, b5, hitsPos]
    · simp only [i2, b6, hitsPos]
    · intro q
      simp only [i3 q, hitsPos]
  · simp only [if_pos hw, if_neg hw]
    obtain ⟨i1, i2, i3, i4, i5, i6, i7, i8, i9⟩ :=
      posCredit_fold s.score p s.positions
        (firstUpdate s.word.length s.score
          (bestUpdate s.word s.word.length s.score a), [])
    refine ⟨by trivial, ?_, ?_, ?_, ?_, ?_, ?_, ?_⟩
    · simp only [i4, firstUpdate_wLC, b1]
    · simp only [i5, firstUpdate_pLC, b2]
    · simp only [i6, firstUpdate_wLpC, b3]
    · simp only [i7, firstUpdate_pLpC, b4]
    · simp only [i1, firstUpdate_pW, b5, hitsPos]
      rw [bump_ne _ 1 hp]
    · simp only [i2, firstUpdate_pP, b6, hitsPos]
      rw [bump_ne _ s.score hp]
    · intro q
      simp only [i3 q, hitsPos]

/-- Bisimulation between analyzing a sorted list and analyzing its
word-deduplicated form: the four length aggregates agree, for any seen-set
consistent with the current last word. -/
theorem analyze_len_master :
    ∀ (sols : List Solution) (seen : List (List Char)) (a a2 : SolutionAnalysis)
      (lw : List Char) (lwp lwp2 : List Nat),
    sols.Pairwise solLE →
    (∀ t ∈ sols, t.word ∈ seen → t.word = lw) →
    (∀ t ∈ sols, t.word = lw ∨ lexLt lw t.word = true) →
    a.wordLengthCounts = a2.wordLengthCounts →
    a.pointLengthCounts = a2.pointLengthCounts →
    a.wordLengthpCounts = a2.wordLengthpCounts →
    a.pointLengthpCounts = a2.pointLengthpCounts →
    ((sols.foldl analyzeStep (a, lw, lwp)).1.wordLengthCounts =
       (((dedupWordsGo seen sols).foldl analyzeStep (a2, lw, lwp2)).1.wordLengthCounts) ∧
     (sols.foldl analyzeStep (a, lw, lwp)).1.pointLengthCounts =
       (((dedupWordsGo seen sols).foldl analyzeStep (a2, lw, lwp2)).1.pointLengthCounts) ∧
     (sols.foldl analyzeStep (a, lw, lwp)).1.wordLengthpCounts =
       (((dedupWordsGo seen sols).foldl analyzeStep (a2, lw, lwp2)).1.wordLengthpCounts) ∧
     (sols.foldl analyzeStep (a, lw, lwp)).1.pointLengthpCounts =
       (((dedupWordsGo seen sols).foldl analyzeStep (a2, lw, lwp2)).1.pointLengthpCounts)) := by
  intro sols
  induction sols with
  | nil =>
    intro seen a a2 lw lwp lwp2 _ _ _ h1 h2 h3 h4
    exact ⟨h1, h2, h3, h4⟩
  | cons s rest ih =>
    intro seen a a2 lw lwp lwp2 hpw hm1 hlow h1 h2 h3 h4
    have hhead : ∀ t ∈ rest, solLE s t := (List.pairwise_cons.mp hpw).1
    have hpwt : rest.Pairwise solLE := (List.pairwise_cons.mp hpw).2
    have hlow2 : ∀ t ∈ rest, t.word = s.word ∨ lexLt s.word t.word = true := by
      intro t ht
      have hst := hhead t ht
      unfold solLE at hst
      rcases hst with h | ⟨h, _⟩
      · exact Or.inr h
      · exact Or.inl h.symm
    rw [List.foldl_cons]
    obtain ⟨e0, e1, e2, e3, e4, _, _, _⟩ := analyzeStep_eqs 1 one_ne_zero a lw lwp s
    rcases hstep : analyzeStep (a, lw, lwp) s with ⟨a1, w1, q1⟩
    rw [hstep] at e0 e1 e2 e3 e4
    dsimp only at e0 e1 e2 e3 e4
    subst e0
    by_cases hseen : s.word ∈ seen
    · have hw : s.word = lw := hm1 s (List.mem_cons_self s rest) hseen
      subst hw
      rw [if_pos rfl] at e1 e2 e3 e4
      rw [dedupWordsGo, if_pos hseen]
      exact ih seen a1 a2 s.word q1 lwp2 hpwt
        (fun t ht => hm1 t (List.mem_cons_of_mem s ht))
        hlow2 (e1.trans h1) (e2.trans h2) (e3.trans h3) (e4.trans h4)
    · rw [dedupWordsGo, if_neg hseen, List.foldl_cons]
      obtain ⟨f0, f1, f2, f3, f4, _, _, _⟩ := analyzeStep_eqs 1 one_ne_zero a2 lw lwp2 s
      rcases hstep2 : analyzeStep (a2, lw, lwp2) s with ⟨a2x, w2, q2⟩
      rw [hstep2] at f0 f1 f2 f3 f4
      dsimp only at f0 f1 f2 f3 f4
      subst f0
      by_cases hw : s.word = lw
      · subst hw
        rw [if_pos rfl] at e1 e2 e3 e4 f1 f2 f3 f4
        refine ih (s.word :: seen) a1 a2x s.word q1 q2 hpwt ?_ hlow2
          (by rw [e1, f1, h1]) (by rw [e2, f2, h2])
          (by rw [e3, f3, h3]) (by rw [e4, f4, h4])
        intro t ht hmem
        rcases List.mem_cons.mp hmem with hts | hts
        · exact hts
        · exact hm1 t (List.mem_cons_of_mem s ht) hts
      · rw [if_neg hw] at e1 e2 e3 e4 f1 f2 f3 f4
        refine ih (s.word :: seen) a1 a2x s.word q1 q2 hpwt ?_ hlow2
          (by rw [e1, f1, h1]) (by rw [e2, f2, h2])
          (by rw [e3, f3, h3]) (by rw [e4, f4, h4])
        intro t ht hmem
        rcases List.mem_cons.mp hmem with hts | hts
        · exact hts
        · have htlw : t.word = lw := hm1 t (List.mem_cons_of_mem s ht) hts
          have hls : lexLt lw s.word = true :=
            (hlow s (List.mem_cons_self s rest)).resolve_left hw
          have hst := hhead t ht
          unfold solLE at hst
          rcases hst with hlt | ⟨heq, _⟩
          · rw [htlw, lexLt_asymm hls] at hlt
            exact absurd hlt Bool.false_ne_true
          · rw [htlw] at heq
            exact absurd heq hw

theorem countP_congr_mem {α : Type} (l : List α) (f g : α → Bool)
    (h : ∀ x ∈ l, f x = g x) : l.countP f = l.countP g := by
  induction l with
  | nil => rfl
  | cons x xs ih =>
    rw [List.countP_cons, List.countP_cons, h x (List.mem_cons_self x xs),
      ih (fun y hy => h y (List.mem_cons_of_mem x hy))]

theorem map_congr_mem {α β : Type} (l : List α) (f g : α → β)
    (h : ∀ x ∈ l, f x = g x) : l.map f = l.map g := by
  induction l with
  | nil => rfl
  | cons x xs ih =>
    rw [List.map_cons, List.map_cons, h x (List.mem_cons_self x xs),
      ih (fun y hy => h y (List.mem_cons_of_mem x hy))]

/-- Combining the credit of the current solution with the credits of the
rest of its word group: each position is credited for a word at most once. -/
theorem credit_arith {inLwp inQ1 : Prop} [Decidable inLwp] [Decidable inQ1]
    (hits restHas : Bool) (hq : inQ1 ↔ inLwp ∨ hits = true)
    (vS vR vC : Nat) (hS : hits = true → vC = vS) (hR : hits = false → vC = vR) :
    (if hits = true ∧ ¬ inLwp then vS else 0) +
      (if ¬ inQ1 ∧ restHas = true then vR else 0) =
    (if ¬ inLwp ∧ (hits || restHas) = true then vC else 0) := by
  by_cases hL : inLwp
  · have hQ : inQ1 := hq.mpr (Or.inl hL)
    rw [if_neg (fun hc => hc.2 hL), if_neg (fun hc => hc.1 hQ),
      if_neg (fun hc => hc.1 hL)]
  · cases hhit : hits with
    | true =>
      have hQ : inQ1 := hq.mpr (Or.inr hhit)
      rw [if_pos ⟨rfl, hL⟩, if_neg (fun hc => hc.1 hQ),
        if_pos ⟨hL, by rw [Bool.true_or]⟩, hS hhit]
      omega
    | false =>
      have hQn : ¬ inQ1 :=
        fun hc => (hq.mp hc).elim hL
          (fun ht => Bool.false_ne_true (hhit.symm.trans ht))
      rw [hR hhit, Bool.false_or]
      by_cases hRest : restHas = true
      · rw [if_neg (fun hc => Bool.false_ne_true hc.1), if_pos ⟨hQn, hRest⟩,
          if_pos ⟨hL, hRest⟩]
        omega
      · rw [if_neg (fun hc => Bool.false_ne_true hc.1),
          if_neg (fun hc => hRest hc.2), if_neg (fun hc => hRest hc.2)]

/-- Closed form of the two per-position aggregates over a sorted solution
list: away from slot 0 each distinct word is credited at a position at most
once — exactly once when one of its instances touches the position, with
the score of its first touching instance. -/
theorem analyze_pos_master (p : Nat) (hp : p ≠ 0) :
    ∀ (sols : List Solution) (a : SolutionAnalysis) (lw : List Char)
      (lwp : List Nat),
    sols.Pairwise solLE →
    (∀ t ∈ sols, t.word = lw ∨ lexLt lw t.word = true) →
    ((sols.foldl analyzeStep (a, lw, lwp)).1.positionWords p =
      a.positionWords p +
        (if p ∉ lwp ∧ hasPosWord p lw sols = true then 1 else 0) +
        (newWords [lw] sols).countP (fun w => hasPosWord p w sols) ∧
     (sols.foldl analyzeStep (a, lw, lwp)).1.positionPoints p =
      a.positionPoints p +
        (if p ∉ lwp ∧ hasPosWord p lw sols = true then firstPosScore p lw sols
         else 0) +
        ((newWords [lw] sols).map (fun w => firstPosScore p w sols)).sum) := by
  intro sols
  induction sols with
  | nil =>
    intro a lw lwp _ _
    refine ⟨?_, ?_⟩ <;> simp [newWords, hasPosWord]
  | cons s rest ih =>
    intro a lw lwp hpw hlow
    have hhead : ∀ t ∈ rest, solLE s t := (List.pairwise_cons.mp hpw).1
    have hpwt : rest.Pairwise solLE := (List.pairwise_cons.mp hpw).2
    have hlow2 : ∀ t ∈ rest, t.word = s.word ∨ lexLt s.word t.word = true := by
      intro t ht
      have hst := hhead t ht
      unfold solLE at hst
      rcases hst with h | ⟨h, _⟩
      · exact Or.inr h
      · exact Or.inl h.symm
    rw [List.foldl_cons]
    obtain ⟨e0, _, _, _, _, e5, e6, e7⟩ := analyzeStep_eqs p hp a lw lwp s
    rcases hstep : analyzeStep (a, lw, lwp) s with ⟨a1, w1, q1⟩
    rw [hstep] at e0 e5 e6 e7
    dsimp only at e0 e5 e6 e7
    subst e0
    obtain ⟨ihW, ihP⟩ := ih a1 s.word q1 hpwt hlow2
    have hmem_ne : ∀ w ∈ newWords [s.word] rest, w ≠ s.word := by
      intro w hwm he
      exact newWords_not_mem rest [s.word] w hwm
        (he ▸ List.mem_cons_self s.word [])
    have hcntP : (newWords [s.word] rest).countP
          (fun w => hasPosWord p w (s :: rest)) =
        (newWords [s.word] rest).countP (fun w => hasPosWord p w rest) := by
      refine countP_congr_mem _ _ _ ?_
      intro w hwm
      rw [hasPosWord_cons, show (s.word == w) = false from
        beq_eq_false_iff_ne.mpr (fun he => hmem_ne w hwm he.symm),
        Bool.false_and, Bool.false_or]
    have hmap : (newWords [s.word] rest).map
          (fun w => firstPosScore p w (s :: rest)) =
        (newWords [s.word] rest).map (fun w => firstPosScore p w rest) := by
      refine map_congr_mem _ _ _ ?_
      intro w hwm
      exact firstPosScore_cons_miss rest (by
        rw [show (s.word == w) = false from
          beq_eq_false_iff_ne.mpr (fun he => hmem_ne w hwm he.symm),
          Bool.false_and])
    have hhw : hasPosWord p s.word (s :: rest) =
        (hitsPos p s || hasPosWord p s.word rest) := by
      rw [hasPosWord_cons, beq_self_eq_true, Bool.true_and]
    by_cases hw : s.word = lw
    · simp only [if_pos hw] at e5 e6 e7
      rw [← hw]
      have hnw : newWords [s.word] (s :: rest) = newWords [s.word] rest := by
        rw [newWords, if_pos (List.mem_cons_self s.word [])]
      refine ⟨?_, ?_⟩
      · rw [ihW, e5, hnw, hcntP, hhw]
        have hca := credit_arith (hitsPos p s) (hasPosWord p s.word rest)
          (e7 p) 1 1 1 (fun _ => rfl) (fun _ => rfl)
        omega
      · rw [ihP, e6, hnw, hmap, hhw]
        have hca := credit_arith (hitsPos p s) (hasPosWord p s.word rest)
          (e7 p) s.score (firstPosScore p s.word rest)
          (firstPosScore p s.word (s :: rest))
          (fun hh => firstPosScore_cons_hit rest
            (by rw [beq_self_eq_true, Bool.true_and]; exact hh))
          (fun hh => firstPosScore_cons_miss rest
            (by rw [beq_self_eq_true, Bool.true_and]; exact hh))
        omega
    · simp only [if_neg hw] at e5 e6 e7
      have hno : ∀ t ∈ rest, t.word ≠ lw := by
        intro t ht he
        have hls : lexLt lw s.word = true :=
          (hlow s (List.mem_cons_self s rest)).resolve_left hw
        have hst := hhead t ht
        unfold solLE at hst
        rcases hst with hlt | ⟨heq, _⟩
        · rw [he, lexLt_asymm hls] at hlt
          exact Bool.false_ne_true hlt
        · rw [he] at heq
          exact hw heq
      have hlwfalse : hasPosWord p lw (s :: rest) = false := by
        refine hasPosWord_eq_false p lw (s :: rest) ?_
        intro t ht
        rcases List.mem_cons.mp ht with h | h
        · rw [h]; exact hw
        · exact hno t h
      have hnw : newWords [lw] (s :: rest) = s.word :: newWords [s.word] rest := by
        rw [newWords, if_neg (fun hc => hw (List.mem_singleton.mp hc))]
        refine congrArg _ (newWords_congr rest (s.word :: [lw]) [s.word] ?_)
        intro t ht
        constructor
        · intro hm
          rcases List.mem_cons.mp hm with h | h
          · rw [h]; exact List.mem_cons_self _ _
          · exact absurd (List.mem_singleton.mp h) (hno t ht)
        · intro hm
          rw [List.mem_singleton.mp hm]
          exact List.mem_cons_self _ _
      refine ⟨?_, ?_⟩
      · rw [ihW, e5, hlwfalse, if_neg (show ¬ (p ∉ lwp ∧ false = true) from
          fun hc => Bool.false_ne_true hc.2)]
        simp only [hnw, List.countP_cons, hcntP, hhw]
        have hca := credit_arith (hitsPos p s) (hasPosWord p s.word rest)
          (e7 p) 1 1 1 (fun _ => rfl) (fun _ => rfl)
        rw [if_congr (and_iff_right (List.not_mem_nil p)) rfl rfl] at hca
        omega
      · rw [ihP, e6, hlwfalse, if_neg (show ¬ (p ∉ lwp ∧ false = true) from
          fun hc => Bool.false_ne_true hc.2)]
        simp only [hnw, List.map_cons, List.sum_cons, hmap]
        have hca := credit_arith (hitsPos p s) (hasPosWord p s.word rest)
          (e7 p) s.score (firstPosScore p s.word rest)
          (firstPosScore p s.word (s :: rest))
          (fun hh => firstPosScore_cons_hit rest
            (by rw [beq_self_eq_true, Bool.true_and]; exact hh))
          (fun hh => firstPosScore_cons_miss rest
            (by rw [beq_self_eq_true, Bool.true_and]; exact hh))
        rw [if_congr (and_iff_right (List.not_mem_nil p)) rfl rfl] at hca
        have hplain :
            (if (hitsPos p s || hasPosWord p s.word rest) = true
             then firstPosScore p s.word (s :: rest) else 0) =
            firstPosScore p s.word (s :: rest) := by
          by_cases hcond : (hitsPos p s || hasPosWord p s.word rest) = true
          · rw [if_pos hcond]
          · rw [if_neg hcond]
            have h0 : hasPosWord p s.word (s :: rest) = false := by
              rw [hhw]
              cases hb : (hitsPos p s || hasPosWord p s.word rest) with
              | false => rfl
              | true => exact absurd hb hcond
            rw [firstPosScore_eq_zero h0]
        rw [← hplain]
        omega

/-- Splitting off the possible empty-word head group: seeding the seen-set
with the empty word only removes the empty word's own credit. -/
theorem newWords_nil_split (p : Nat) :
    ∀ (sols : List Solution), sols.Pairwise solLE →
    ((newWords [] sols).countP (fun w => hasPosWord p w sols) =
      (if hasPosWord p [] sols = true then 1 else 0) +
      (newWords [[]] sols).countP (fun w => hasPosWord p w sols) ∧
     ((newWords [] sols).map (fun w => firstPosScore p w sols)).sum =
      (if hasPosWord p [] sols = true then firstPosScore p [] sols else 0) +
      ((newWords [[]] sols).map (fun w => firstPosScore p w sols)).sum) := by
  intro sols hpw
  cases sols with
  | nil => exact ⟨by simp [newWords, hasPosWord], by simp [newWords, hasPosWord]⟩
  | cons s rest =>
    have hhead : ∀ t ∈ rest, solLE s t := (List.pairwise_cons.mp hpw).1
    by_cases hnil : s.word = []
    · have h1 : newWords [] (s :: rest) = [] :: newWords [[]] rest := by
        rw [newWords, if_neg (List.not_mem_nil s.word), hnil]
      have h2 : newWords [[]] (s :: rest) = newWords [[]] rest := by
        rw [newWords, if_pos (by rw [hnil]; exact List.mem_cons_self _ _)]
      constructor
      · simp only [h1, h2, List.countP_cons]
        omega
      · simp only [h1, h2, List.map_cons, List.sum_cons]
        by_cases hcond : hasPosWord p [] (s :: rest) = true
        · rw [if_pos hcond]
        · rw [if_neg hcond]
          have h0 : hasPosWord p [] (s :: rest) = false := by
            cases hb : hasPosWord p [] (s :: rest) with
            | false => rfl
            | true => exact absurd hb hcond
          rw [firstPosScore_eq_zero h0]
    · have hnone : ∀ t ∈ s :: rest, t.word ≠ [] := by
        intro t ht
        rcases List.mem_cons.mp ht with h | h
        · rw [h]; exact hnil
        · intro he
          have hst := hhead t h
          unfold solLE at hst
          rcases hst with hlt | ⟨heq, _⟩
          · rw [he] at hlt
            cases hsw : s.word with
            | nil => exact hnil hsw
            | cons c cs =>
              rw [hsw, show lexLt (c :: cs) [] = false from rfl] at hlt
              exact Bool.false_ne_true hlt
          · rw [he] at heq
            exact hnil heq
      have h2 : newWords [[]] (s :: rest) = newWords [] (s :: rest) :=
        newWords_irrel hnone
      have h0 : hasPosWord p [] (s :: rest) = false :=
        hasPosWord_eq_false p [] (s :: rest) hnone
      constructor
      · rw [h2, h0, if_neg (show ¬ (false = true) from Bool.false_ne_true)]
        omega
      · rw [h2, h0, if_neg (show ¬ (false = true) from Bool.false_ne_true)]
        omega

/-- Claim C6: on a solution list sorted by word ascending then score
descending, the analyzer's four length aggregates equal those of the list
with duplicate words removed (keeping first occurrences), and the
per-position aggregates credit each (word, position) pair at most once:
each board position's word count is the number of distinct words with an
instance touching it, its point count the sum of their first touching
instances' scores. -/
theorem claim6_analyzer (sols : List Solution) (hs : sols.Pairwise solLE) :
    (∀ n,
      (analyze sols).wordLengthCounts n =
        (analyze (dedupWords sols)).wordLengthCounts n ∧
      (analyze sols).pointLengthCounts n =
        (analyze (dedupWords sols)).pointLengthCounts n ∧
      (analyze sols).wordLengthpCounts n =
        (analyze (dedupWords sols)).wordLengthpCounts n ∧
      (analyze sols).pointLengthpCounts n =
        (analyze (dedupWords sols)).pointLengthpCounts n) ∧
    (∀ k,
      (analyze sols).positionWords (k + 1) =
        (uniqueWords sols).countP (fun w => hasPosWord (k + 1) w sols) ∧
      (analyze sols).positionPoints (k + 1) =
        ((uniqueWords sols).map (fun w => firstPosScore (k + 1) w sols)).sum) := by
  have hlow0 : ∀ t ∈ sols, t.word = ([] : List Char) ∨ lexLt [] t.word = true := by
    intro t _
    cases hw : t.word with
    | nil => exact Or.inl rfl
    | cons c cs => exact Or.inr rfl
  constructor
  · have hlen := analyze_len_master sols [] emptyAnalysis emptyAnalysis [] [] []
      hs (fun t _ hm => absurd hm (List.not_mem_nil _)) hlow0 rfl rfl rfl rfl
    intro n
    exact ⟨congrFun hlen.1 n, congrFun hlen.2.1 n, congrFun hlen.2.2.1 n,
      congrFun hlen.2.2.2 n⟩
  · intro k
    have hpos := analyze_pos_master (k + 1) (Nat.succ_ne_zero k) sols
      emptyAnalysis [] [] hs hlow0
    have hbridge := newWords_nil_split (k + 1) sols hs
    have he1 : emptyAnalysis.positionWords (k + 1) = 0 := rfl
    have he2 : emptyAnalysis.positionPoints (k + 1) = 0 := rfl
    constructor
    · show (sols.foldl analyzeStep (emptyAnalysis, [], [])).1.positionWords (k + 1) = _
      rw [hpos.1, he1,
        if_congr (and_iff_right (List.not_mem_nil (k + 1))) (rfl : 1 = 1)
          (rfl : 0 = 0),
        uniqueWords_eq_newWords, hbridge.1]
      omega
    · show (sols.foldl analyzeStep (emptyAnalysis, [], [])).1.positionPoints (k + 1) = _
      rw [hpos.2, he2,
        if_congr (and_iff_right (List.not_mem_nil (k + 1)))
          (rfl : firstPosScore (k + 1) [] sols = firstPosScore (k + 1) [] sols)
          (rfl : 0 = 0),
        uniqueWords_eq_newWords, hbridge.2]
      omega

/-- A two-solution sorted list sharing one word, used to instantiate C6. -/
def exSols6 : List Solution :=
  [⟨['A'], [0], 1, 5, 5, 1, 0⟩, ⟨['A'], [1], 1, 3, 3, 1, 0⟩]

/-- Witness for C6 at a concrete sorted solution list. -/
theorem claim6_witness :
    exSols6.Pairwise solLE ∧
    (analyze exSols6).positionWords 1 =
      (uniqueWords exSols6).countP (fun w => hasPosWord 1 w exSols6) :=
  ⟨by decide, ((claim6_analyzer exSols6 (by decide)).2 0).1⟩

/-! ### Completeness of the solver (claim C2)

The solution multiset is characterised by a counting refinement of the C1
frame: a `_solve` call appends exactly one solution matching a fixed
target `(path, substitution)` pair when the call lies on that target, and
none otherwise. -/

theorem descend_prefix {dict : Trie} {w1 w2 : List Char} {t : Trie}
    (h : dict.descend (w1 ++ w2) = some t) :
    ∃ t1, dict.descend w1 = some t1 ∧ t1.descend w2 = some t := by
  rw [Trie.descend_append] at h
  cases hd : dict.descend w1 with
  | none => rw [hd] at h; exact Option.noConfusion h
  | some t1 =>
    rw [hd] at h
    exact ⟨t1, rfl, h⟩

/-- Converse of `tileLoop_ok_descend`: when the whole (wildcard-free) tile
descends in the trie, the character loop consumes it and reaches the same
node. -/
theorem tileLoop_complete (sr : GameScoringRules) :
    ∀ (chars : List Char) (t t2 : Trie), '?' ∉ chars →
      t.descend (chars.flatMap (charOut sr)) = some t2 →
      tileLoop sr t chars = .ok t2 := by
  intro chars
  induction chars with
  | nil =>
    intro t t2 _ h
    rw [show ([] : List Char).flatMap (charOut sr) = [] from rfl] at h
    rw [show t.descend [] = some t from rfl] at h
    injection h with h
    rw [tileLoop, h]
  | cons ch rest ih =>
    intro t t2 hnw h
    simp only [List.mem_cons, not_or] at hnw
    rw [tileLoop, if_neg (fun hc => hnw.1 hc.symm)]
    by_cases hqq : (ch = 'Q' ∨ ch = 'q') ∧ sr.qIsQu
    · simp only [List.flatMap_cons, charOut, if_pos hqq, List.cons_append,
        List.singleton_append, Trie.descend] at h
      cases hc : t.child ch.toUpper with
      | none => rw [hc] at h; exact Option.noConfusion h
      | some t' =>
        rw [hc] at h
        simp only [Trie.descend] at h
        have hq : sr.qIsQu ∧ ch.toUpper = 'Q' :=
          ⟨hqq.2, (toUpper_eq_Q_iff ch).mpr hqq.1⟩
        dsimp only
        rw [if_pos hq]
        cases hu : t'.child 'U' with
        | none => rw [hu] at h; exact Option.noConfusion h
        | some t'' =>
          rw [hu] at h
          exact ih t'' t2 hnw.2 h
    · simp only [List.flatMap_cons, charOut, if_neg hqq, List.cons_append,
        List.nil_append, Trie.descend] at h
      cases hc : t.child ch.toUpper with
      | none => rw [hc] at h; exact Option.noConfusion h
      | some t' =>
        rw [hc] at h
        have hq : ¬ (sr.qIsQu ∧ ch.toUpper = 'Q') := by
          intro hcon
          exact hqq ⟨(toUpper_eq_Q_iff ch).mp hcon.2, hcon.1⟩
        dsimp only
        rw [if_neg hq]
        exact ih t' t2 hnw.2 h

theorem alpha_toUpper : ∀ c ∈ alphabet, c.toUpper = c := by decide

theorem isLower_ne_wild {d : Char} (h : d.isLower = true) : d ≠ '?' := by
  intro he
  rw [he] at h
  exact absurd h (by decide)

theorem nodup_lt_length_le (l : List Nat) (n : Nat) (hnd : l.Nodup)
    (hlt : ∀ x ∈ l, x < n) : l.length ≤ n := by
  have h1 : l.toFinset.card = l.length := List.toFinset_card_of_nodup hnd
  have h2 : l.toFinset ⊆ Finset.range n := by
    intro x hx
    rw [Finset.mem_range]
    exact hlt x (List.mem_toFinset.mp hx)
  have := Finset.card_le_card h2
  rw [h1, Finset.card_range] at this
  exact this

theorem chain'_middle {R : Nat → Nat → Prop} :
    ∀ (A : List Nat) (x y : Nat) (B : List Nat),
      List.Chain' R (A ++ x :: y :: B) → R x y := by
  intro A
  induction A with
  | nil =>
    intro x y B h
    exact (List.chain'_cons.mp h).1
  | cons a A ih =>
    intro x y B h
    exact ih x y B (List.Chain'.tail h)

theorem sum_map_ite {α : Type} [DecidableEq α] (a : α) (k : Nat) :
    ∀ (l : List α), l.Nodup →
      ((l.map (fun x => if x = a then k else 0)).sum =
        if a ∈ l then k else 0) := by
  intro l
  induction l with
  | nil => intro _; simp
  | cons x xs ih =>
    intro hnd
    rw [List.map_cons, List.sum_cons, ih (List.nodup_cons.mp hnd).2]
    by_cases hx : x = a
    · subst hx
      rw [if_pos rfl, if_pos (List.mem_cons_self x xs),
        if_neg (List.nodup_cons.mp hnd).1]
      omega
    · rw [if_neg hx]
      by_cases hm : a ∈ xs
      · rw [if_pos hm, if_pos (List.mem_cons_of_mem x hm)]
        omega
      · rw [if_neg hm, if_neg (by
          intro hc
          rcases List.mem_cons.mp hc with hc | hc
          · exact hx hc.symm
          · exact hm hc)]

theorem getD_true_lt (l : List Bool) (i : Nat) (h : l.getD i false = true) :
    i < l.length := by
  by_contra hc
  rw [List.getD_eq_getElem?_getD, List.getElem?_eq_none (by omega)] at h
  exact Bool.false_ne_true h

/-- The per-letter output blocks decode uniquely: equal concatenations of
equally many blocks force equal uppercased letters. -/
theorem flatMap_charOut_inj (sr : GameScoringRules) :
    ∀ (l1 l2 : List Char), l1.length = l2.length →
      l1.flatMap (charOut sr) = l2.flatMap (charOut sr) →
      l1.map Char.toUpper = l2.map Char.toUpper := by
  intro l1
  induction l1 with
  | nil =>
    intro l2 hlen _
    cases l2 with
    | nil => rfl
    | cons y ys => exact absurd hlen (by simp)
  | cons x xs ih =>
    intro l2 hlen hflat
    cases l2 with
    | nil => exact absurd hlen (by simp)
    | cons y ys =>
      simp only [List.flatMap_cons] at hflat
      unfold charOut at hflat
      rw [List.cons_append, List.cons_append] at hflat
      have hxy : x.toUpper = y.toUpper := ((List.cons.injEq _ _ _ _).mp hflat).1
      have htail := ((List.cons.injEq _ _ _ _).mp hflat).2
      have hlen2 : xs.length = ys.length := by simpa using hlen
      by_cases hc1 : (x = 'Q' ∨ x = 'q') ∧ sr.qIsQu
      · have hc2 : (y = 'Q' ∨ y = 'q') ∧ sr.qIsQu :=
          ⟨(toUpper_eq_Q_iff y).mp
            (by rw [← hxy]; exact (toUpper_eq_Q_iff x).mpr hc1.1), hc1.2⟩
        rw [if_pos hc1, if_pos hc2, List.singleton_append,
          List.singleton_append] at htail
        have hrest := ((List.cons.injEq _ _ _ _).mp htail).2
        rw [List.map_cons, List.map_cons, hxy, ih ys hlen2 hrest]
      · have hc2 : ¬ ((y = 'Q' ∨ y = 'q') ∧ sr.qIsQu) := by
          intro hcon
          exact hc1 ⟨(toUpper_eq_Q_iff x).mp
            (by rw [hxy]; exact (toUpper_eq_Q_iff y).mpr hcon.1), hcon.2⟩
        rw [if_neg hc1, if_neg hc2, List.nil_append, List.nil_append] at htail
        rw [List.map_cons, List.map_cons, hxy, ih ys hlen2 htail]

theorem map_ne_wild : ∀ (chars : List Char) (f g : Char → Char),
    (∀ ch, ch ≠ '?' → f ch = g ch) → '?' ∈ chars → f '?' ≠ g '?' →
    chars.map f ≠ chars.map g := by
  intro chars
  induction chars with
  | nil => intro f g _ hm _; exact absurd hm (by simp)
  | cons c cs ih =>
    intro f g hfg hm hne heq
    rw [List.map_cons, List.map_cons] at heq
    have h1 := (List.cons.injEq _ _ _ _).mp heq
    by_cases hc : c = '?'
    · subst hc
      exact hne h1.1
    · rcases List.mem_cons.mp hm with he | hmm
      · exact hc he.symm
      · exact ih f g hfg hmm hne h1.2

theorem flatMap_ne_of_mem : ∀ (ps : List Nat) (f g : Nat → List Char),
    (∀ i, (f i).length = (g i).length) → ∀ j, j ∈ ps → f j ≠ g j →
    ps.flatMap f ≠ ps.flatMap g := by
  intro ps
  induction ps with
  | nil => intro f g _ j hj _; exact absurd hj (by simp)
  | cons a as ih =>
    intro f g hlen j hj hne heq
    rw [List.flatMap_cons, List.flatMap_cons] at heq
    have hsplit := List.append_inj heq (hlen a)
    rcases List.mem_cons.mp hj with he | hm
    · subst he
      exact hne hsplit.1
    · exact ih f g hlen j hm hne hsplit.2

theorem tileLetters_length (b : Board) (wc : List Char) (i : Nat) :
    (tileLetters b wc i).length = (b.tileAt i).length := by
  unfold tileLetters
  rw [List.length_map]

/-- Two wildcard assignments that disagree at a wildcard tile of the path
produce different words: each position's substitution is visible in the
emitted word. -/
theorem wordOf_ne_of_mismatch (b : Board) (sr : GameScoringRules)
    {wc1 wc2 : List Char} (ps : List Nat) (j : Nat) (hj : j ∈ ps)
    (hq : '?' ∈ b.tileAt j)
    (h1 : wcAt wc1 j ∈ alphabet) (h2 : wcAt wc2 j ∈ alphabet)
    (hne : wcAt wc1 j ≠ wcAt wc2 j) :
    wordOf b sr wc1 ps ≠ wordOf b sr wc2 ps := by
  intro heq
  unfold wordOf at heq
  have hlenP : (pathLetters b wc1 ps).length = (pathLetters b wc2 ps).length := by
    unfold pathLetters
    rw [List.length_flatMap, List.length_flatMap]
    refine congrArg List.sum (map_congr_mem ps _ _ ?_)
    intro i _
    show (tileLetters b wc1 i).length = (tileLetters b wc2 i).length
    rw [tileLetters_length, tileLetters_length]
  have hupper := flatMap_charOut_inj sr _ _ hlenP heq
  unfold pathLetters at hupper
  rw [List.map_flatMap, List.map_flatMap] at hupper
  refine flatMap_ne_of_mem ps _ _ ?_ j hj ?_ hupper
  · intro i
    rw [List.length_map, List.length_map, tileLetters_length, tileLetters_length]
  · unfold tileLetters
    rw [List.map_map, List.map_map]
    refine map_ne_wild (b.tileAt j) _ _ ?_ hq ?_
    · intro ch hch
      show (substLetter (wcAt wc1 j) ch).toUpper = (substLetter (wcAt wc2 j) ch).toUpper
      unfold substLetter
      rw [if_neg hch, if_neg hch]
    · show (substLetter (wcAt wc1 j) '?').toUpper ≠ (substLetter (wcAt wc2 j) '?').toUpper
      unfold substLetter
      rw [if_pos rfl, if_pos rfl, alpha_toUpper _ h1, alpha_toUpper _ h2]
      exact hne

theorem pathLetters_congr_sync (b : Board) {wc σl : List Char} :
    ∀ (ps : List Nat), (∀ i ∈ ps, '?' ∈ b.tileAt i → wcAt wc i = wcAt σl i) →
    pathLetters b wc ps = pathLetters b σl ps := by
  intro ps h
  unfold pathLetters
  apply List.flatMap_congr
  intro i hi
  unfold tileLetters
  by_cases hq : '?' ∈ b.tileAt i
  · rw [h i hi hq]
  · rw [map_substLetter_of_no_wild _ hq, map_substLetter_of_no_wild _ hq]

theorem wordOf_congr_sync (b : Board) (sr : GameScoringRules) {wc σl : List Char}
    (ps : List Nat) (h : ∀ i ∈ ps, '?' ∈ b.tileAt i → wcAt wc i = wcAt σl i) :
    wordOf b sr wc ps = wordOf b sr σl ps := by
  unfold wordOf
  rw [pathLetters_congr_sync b ps h]

theorem lenOf_congr_sync (b : Board) (sr : GameScoringRules) {wc σl : List Char}
    (ps : List Nat) (h : ∀ i ∈ ps, '?' ∈ b.tileAt i → wcAt wc i = wcAt σl i) :
    lenOf b sr wc ps = lenOf b sr σl ps := by
  unfold lenOf
  rw [pathLetters_congr_sync b ps h]

/-- The wildcard letters recorded along the current path agree with the
target substitution. -/
def WSync (b : Board) (σl : List Char) (st : SState) : Prop :=
  ∀ i ∈ st.path, '?' ∈ b.tileAt i → wcAt st.wildcard i = wcAt σl i

/-- The wildcard letters recorded along the current path are A–Z. -/
def WAlpha (b : Board) (st : SState) : Prop :=
  ∀ i ∈ st.path, '?' ∈ b.tileAt i → wcAt st.wildcard i ∈ alphabet

instance (b : Board) (σl : List Char) (st : SState) : Decidable (WSync b σl st) := by
  unfold WSync
  infer_instance

/-- A `_solve` call lies on the target `(path₀, σl)`: its extended path is
the next prefix of `path₀`, the substitutions recorded so far match `σl`,
and its tile argument is the board tile (or its `σl`-expansion). -/
def Contrib (b : Board) (σl : List Char) (path₀ : List Nat) (pos : Nat)
    (tile : List Char) (st : SState) : Prop :=
  path₀.take (st.path.length + 1) = st.path ++ [pos] ∧ WSync b σl st ∧
  (tile = b.tileAt pos ∨
    (tile = wcAt σl pos :: (b.tileAt pos).drop 1 ∧
      (b.tileAt pos).head? = some '?'))

instance (b : Board) (σl : List Char) (path₀ : List Nat) (pos : Nat)
    (tile : List Char) (st : SState) :
    Decidable (Contrib b σl path₀ pos tile st) := by
  unfold Contrib
  infer_instance

/-- `foldl_sframe` extended with solution counting. -/
theorem foldl_count {α : Type} (dict : Trie) (b : Board) (Pt : Solution → Bool)
    (R : SState → Prop) (f : SState → α → SState) (δ : α → Nat)
    (hR : ∀ st st', R st → SFrame dict b st st' → R st') :
    ∀ (l : List α),
      (∀ st x, x ∈ l → R st →
        SFrame dict b st (f st x) ∧
        (f st x).solutions.countP Pt = st.solutions.countP Pt + δ x) →
      ∀ st, R st →
        SFrame dict b st (l.foldl f st) ∧ R (l.foldl f st) ∧
        (l.foldl f st).solutions.countP Pt =
          st.solutions.countP Pt + (l.map δ).sum := by
  intro l
  induction l with
  | nil =>
    intro _ st h
    exact ⟨SFrame.rfl dict b st, h, by simp⟩
  | cons x xs ih =>
    intro hf st h
    rw [List.foldl_cons]
    obtain ⟨h1, hcnt⟩ := hf st x (List.mem_cons_self x xs) h
    have h2 : R (f st x) := hR st (f st x) h h1
    obtain ⟨h3, h4, h5⟩ :=
      ih (fun s y hy hr => hf s y (List.mem_cons_of_mem x hy) hr) (f st x) h2
    refine ⟨SFrame.trans h1 h3, h4, ?_⟩
    rw [h5, hcnt, List.map_cons, List.sum_cons]
    omega

/-- Unpacking `path₀.take (|A| + 1) = A ++ [pos]`. -/
theorem take_succ_eq_append {path₀ A : List Nat} {pos : Nat}
    (h : path₀.take (A.length + 1) = A ++ [pos]) :
    path₀.take A.length = A ∧ pos ∈ path₀ ∧ A.length < path₀.length := by
  refine ⟨?_, ?_, ?_⟩
  · have h1 : (path₀.take (A.length + 1)).take A.length = A := by
      rw [h]
      exact List.take_left A [pos]
    rw [List.take_take] at h1
    have hmin : min A.length (A.length + 1) = A.length := by omega
    rw [hmin] at h1
    exact h1
  · have h2 : pos ∈ path₀.take (A.length + 1) := by
      rw [h]
      simp
    exact List.mem_of_mem_take h2
  · have h3 : (path₀.take (A.length + 1)).length = A.length + 1 := by
      rw [h]
      simp
    rw [List.length_take] at h3
    omega

theorem getD_mem {α : Type} (l : List α) (i : Nat) (d : α) (h : i < l.length) :
    l.getD i d ∈ l := by
  rw [List.getD_eq_getElem l d h]
  exact List.getElem_mem h

theorem mem_path_lt {b : Board} {st : SState} (hinv : SInv b st) :
    ∀ i ∈ st.path, i < b.size := by
  intro i hi
  have hu := (hinv.2.2.1 i).mpr hi
  have := getD_true_lt st.used i hu
  rw [hinv.1] at this
  exact this

theorem tileAt_wf {b : Board} (hwf : b.WF) (pos : Nat) (h : pos < b.size) :
    tileWF (b.tileAt pos) :=
  hwf (b.tileAt pos) (getD_mem b.tiles pos [] h)

theorem wild_head_of_mem {tl : List Char} (hwf : tileWF tl) (hm : '?' ∈ tl) :
    ∃ rest, tl = '?' :: rest ∧ '?' ∉ rest := by
  rcases hwf with he | ⟨c, rest, heq, _, hlow⟩
  · rw [he] at hm
    exact absurd hm (by simp)
  · have hnr : '?' ∉ rest := fun hc => isLower_ne_wild (hlow '?' hc) rfl
    refine ⟨rest, ?_, hnr⟩
    rw [heq] at hm ⊢
    rcases List.mem_cons.mp hm with hc | hc
    · rw [← hc]
    · exact absurd hc hnr

theorem drop_no_wild {tl : List Char} (hwf : tileWF tl) : '?' ∉ tl.drop 1 := by
  rcases hwf with he | ⟨c, rest, heq, _, hlow⟩
  · rw [he]
    simp
  · rw [heq]
    intro hc
    exact isLower_ne_wild (hlow '?' hc) rfl

theorem wordOf_append (b : Board) (sr : GameScoringRules) (wc : List Char)
    (ps qs : List Nat) :
    wordOf b sr wc (ps ++ qs) = wordOf b sr wc ps ++ wordOf b sr wc qs := by
  unfold wordOf pathLetters
  rw [List.flatMap_append, List.flatMap_append]

theorem wordOf_single (b : Board) (sr : GameScoringRules) (wc : List Char)
    (i : Nat) :
    wordOf b sr wc [i] = (tileLetters b wc i).flatMap (charOut sr) := by
  unfold wordOf pathLetters
  simp

/-- A call lying on the target cannot fail its trie descent: the target
word's full descent supplies the descent of the current tile. -/
theorem contrib_tile_descend (b : Board) (sr : GameScoringRules) (dict : Trie)
    (σl : List Char) (path₀ : List Nat) (hwf : b.WF)
    (hσa : ∀ i ∈ path₀, '?' ∈ b.tileAt i → wcAt σl i ∈ alphabet)
    {tF : Trie} (hWdesc : dict.descend (wordOf b sr σl path₀) = some tF)
    {pos : Nat} {t : Trie} {tile : List Char} {st : SState}
    (hplt : pos < b.size)
    (hdesc : dict.descend (wordOf b sr st.wildcard st.path) = some t)
    (hcon : Contrib b σl path₀ pos tile st) (hnwt : '?' ∉ tile) :
    ∃ t2, tileLoop sr t tile = .ok t2 := by
  obtain ⟨hpre, hsync, hcompat⟩ := hcon
  obtain ⟨htake, hmem, hlen⟩ := take_succ_eq_append hpre
  -- path₀ = st.path ++ [pos] ++ rest
  have hsplit : path₀ = (st.path ++ [pos]) ++ path₀.drop (st.path.length + 1) := by
    calc path₀ = path₀.take (st.path.length + 1) ++ path₀.drop (st.path.length + 1) :=
        (List.take_append_drop _ _).symm
    _ = (st.path ++ [pos]) ++ path₀.drop (st.path.length + 1) := by rw [hpre]
  -- the target word decomposes over it
  have hWsplit : wordOf b sr σl path₀ =
      (wordOf b sr σl st.path ++ wordOf b sr σl [pos]) ++
        wordOf b sr σl (path₀.drop (st.path.length + 1)) := by
    calc wordOf b sr σl path₀
        = wordOf b sr σl ((st.path ++ [pos]) ++ path₀.drop (st.path.length + 1)) := by
          rw [← hsplit]
    _ = _ := by rw [wordOf_append, wordOf_append]
  rw [hWsplit] at hWdesc
  obtain ⟨tmid, hmid, _⟩ := descend_prefix hWdesc
  obtain ⟨thead, hhead, htail⟩ := descend_prefix hmid
  -- the descent so far reaches t
  have hheadt : thead = t := by
    have h1 : dict.descend (wordOf b sr σl st.path) =
        dict.descend (wordOf b sr st.wildcard st.path) := by
      rw [wordOf_congr_sync b sr st.path hsync]
    rw [h1, hdesc] at hhead
    injection hhead with h2
    exact h2.symm
  rw [hheadt] at htail
  -- the pos block equals the tile's letters
  have hblock : wordOf b sr σl [pos] = tile.flatMap (charOut sr) := by
    rw [wordOf_single]
    rcases hcompat with hv | ⟨hx, hh⟩
    · -- verbatim tile with no '?': substitution is the identity
      have hnw : '?' ∉ b.tileAt pos := hv ▸ hnwt
      unfold tileLetters
      rw [map_substLetter_of_no_wild _ hnw, hv]
    · -- σ-expansion of a wildcard-headed tile
      obtain ⟨rest, hre, hnr⟩ := wild_head_of_mem (tileAt_wf hwf pos hplt)
        (List.mem_of_mem_head? (by rw [hh]; exact rfl))
      unfold tileLetters
      rw [hre, List.map_cons, map_substLetter_of_no_wild _ hnr]
      rw [hx, hre]
      show (substLetter (wcAt σl pos) '?' :: rest).flatMap (charOut sr) = _
      unfold substLetter
      rw [if_pos rfl]
      rfl
  rw [hblock] at htail
  exact ⟨tmid, tileLoop_complete sr tile t tmid hnwt htail⟩

theorem alphabet_nodup : alphabet.Nodup := by decide

theorem nodup_snoc_not_mem {l : List Nat} {a : Nat}
    (h : (l ++ [a]).Nodup) : a ∉ l := by
  intro hc
  rw [List.nodup_append] at h
  exact h.2.2 hc (List.mem_singleton_self a)

set_option maxHeartbeats 1000000 in
/-- The counting master lemma for `Solver::_solve`: relative to a fixed
target path and substitution, a call appends exactly one matching solution
when it lies on the target (`Contrib`), and none otherwise. -/
theorem solveAux_count (b : Board) (sr : GameScoringRules) (dict : Trie)
    (σl : List Char) (path₀ : List Nat)
    (hwf : b.WF)
    (hnd : path₀.Nodup)
    (hch : path₀.Chain' (fun i j => b.isAdjacent i j = true))
    (hplt : ∀ i ∈ path₀, i < b.size)
    (hpne : ∀ i ∈ path₀, b.tileAt i ≠ [])
    (hσa : ∀ i ∈ path₀, '?' ∈ b.tileAt i → wcAt σl i ∈ alphabet)
    (tF : Trie)
    (hWdesc : dict.descend (wordOf b sr σl path₀) = some tF)
    (hWword : tF.isWordF = true)
    (hmin : (lenOf b sr σl path₀ : Int) ≥ sr.minWordLength) :
    ∀ (fuel pos : Nat) (t : Trie) (tile : List Char) (st : SState),
      SInv b st →
      pos < b.size →
      usedAt st pos = false →
      (∀ l ∈ st.path.getLast?, b.isAdjacent l pos = true) →
      WAlpha b st →
      dict.descend (wordOf b sr st.wildcard st.path) = some t →
      ((tile = b.tileAt pos ∧ 2 * (b.size - st.path.length) + 2 ≤ fuel) ∨
        (∃ c, c ∈ alphabet ∧ tile = c :: (b.tileAt pos).drop 1 ∧
          wcAt st.wildcard pos = c ∧ (b.tileAt pos).head? = some '?' ∧
          2 * (b.size - st.path.length) + 1 ≤ fuel)) →
      (solveAux b sr fuel pos t tile st).solutions.countP
          (fun x => x.positions == path₀ && x.word == wordOf b sr σl path₀) =
        st.solutions.countP
          (fun x => x.positions == path₀ && x.word == wordOf b sr σl path₀) +
        (if Contrib b σl path₀ pos tile st then 1 else 0) := by
  intro fuel
  induction fuel with
  | zero =>
    intro pos t tile st _ _ _ _ _ _ htrel
    rcases htrel with ⟨_, hf⟩ | ⟨c, _, _, _, _, hf⟩ <;> omega
  | succ fuel ih =>
    intro pos t tile st hinv hposlt hunused hadj halpha hdesc htrel
    have hC1trel : TRel b sr dict pos t tile st := by
      rcases htrel with ⟨hv, _⟩ | ⟨c, hc, hx, hwcc, hh, _⟩
      · exact Or.inl ⟨hv, hdesc⟩
      · refine Or.inr ⟨c, hc, hx, hwcc, ?_, Or.inl ⟨hh, hdesc⟩⟩
        intro he
        rw [he] at hh
        exact Option.noConfusion hh
    by_cases htile : tile = []
    · subst htile
      have hnc : ¬ Contrib b σl path₀ pos [] st := by
        rintro ⟨hpre, _, hcompat⟩
        obtain ⟨_, hmem, _⟩ := take_succ_eq_append hpre
        rcases hcompat with h | ⟨h, _⟩
        · exact hpne pos hmem h.symm
        · exact List.noConfusion h
      rw [solveAux_nil, if_neg hnc]
      omega
    · cases htl : tileLoop sr t tile with
      | fail =>
        have hnw : '?' ∉ tile := by
          intro hmemw
          have hverb : tile = b.tileAt pos := by
            rcases htrel with ⟨hv, _⟩ | ⟨c, hc, hx, _, _, _⟩
            · exact hv
            · exfalso
              rw [hx] at hmemw
              rcases List.mem_cons.mp hmemw with he | hd
              · exact alphabet_no_wild (he ▸ hc)
              · exact drop_no_wild (tileAt_wf hwf pos hposlt) hd
          obtain ⟨rest, hre, _⟩ := wild_head_of_mem (tileAt_wf hwf pos hposlt)
            (hverb ▸ hmemw)
          rw [hverb, hre, tileLoop_wild_head sr t '?' rest rfl] at htl
          exact TileStep.noConfusion htl
        have hnc : ¬ Contrib b σl path₀ pos tile st := by
          intro hcon
          obtain ⟨t2, ht2⟩ := contrib_tile_descend b sr dict σl path₀ hwf hσa
            hWdesc hposlt hdesc hcon hnw
          rw [ht2] at htl
          exact TileStep.noConfusion htl
        rw [solveAux_fail b sr fuel pos t tile st htile htl, if_neg hnc]
        omega
      | wild t1 =>
        have hver : tile = b.tileAt pos ∧
            2 * (b.size - st.path.length) + 2 ≤ fuel + 1 := by
          rcases htrel with h | ⟨c, hc, hx, _, _, _⟩
          · exact h
          · exfalso
            have hmemw : '?' ∈ tile := tileLoop_wild_mem sr tile t t1 htl
            rw [hx] at hmemw
            rcases List.mem_cons.mp hmemw with he | hd
            · exact alphabet_no_wild (he ▸ hc)
            · exact drop_no_wild (tileAt_wf hwf pos hposlt) hd
        obtain ⟨hverb, hfuel⟩ := hver
        obtain ⟨rest0, hre0, _⟩ := wild_head_of_mem (tileAt_wf hwf pos hposlt)
          (by rw [← hverb]; exact tileLoop_wild_mem sr tile t t1 htl)
        have hhead0 : (b.tileAt pos).head? = some '?' := by rw [hre0]; rfl
        have ht1t : t1 = t := by
          have hw := tileLoop_wild_head sr t '?' rest0 rfl
          rw [← hre0, ← hverb, htl] at hw
          injection hw with h
        rw [solveAux_wild b sr fuel pos t tile st t1 htile htl]
        have hRw : ∀ s s',
            (SInv b s ∧ usedAt s pos = false ∧
              (∀ l ∈ s.path.getLast?, b.isAdjacent l pos = true) ∧
              s.path = st.path ∧
              (∀ i ∈ s.path, wcAt s.wildcard i = wcAt st.wildcard i)) →
            SFrame dict b s s' →
            (SInv b s' ∧ usedAt s' pos = false ∧
              (∀ l ∈ s'.path.getLast?, b.isAdjacent l pos = true) ∧
              s'.path = st.path ∧
              (∀ i ∈ s'.path, wcAt s'.wildcard i = wcAt st.wildcard i)) := by
          intro s s' hr hfr
          obtain ⟨hi, hu, ha, hp, hwcs⟩ := hr
          refine ⟨SInv_transport hi hfr, ?_, ?_, hfr.2.1.trans hp, ?_⟩
          · show s'.used.getD pos false = false
            rw [hfr.1]
            exact hu
          · rw [hfr.2.1]
            exact ha
          · intro i hi2
            rw [hfr.2.1] at hi2
            exact (hfr.2.2.2.1 i ((hi.2.2.1 i).mpr hi2)).trans (hwcs i hi2)
        have hfw : ∀ s c, c ∈ alphabet →
            (SInv b s ∧ usedAt s pos = false ∧
              (∀ l ∈ s.path.getLast?, b.isAdjacent l pos = true) ∧
              s.path = st.path ∧
              (∀ i ∈ s.path, wcAt s.wildcard i = wcAt st.wildcard i)) →
            SFrame dict b s
              (solveAux b sr fuel pos t1 (c :: tile.drop 1)
                { s with wildcard := s.wildcard.set pos c }) ∧
            (solveAux b sr fuel pos t1 (c :: tile.drop 1)
              { s with wildcard := s.wildcard.set pos c }).solutions.countP
                (fun x => x.positions == path₀ &&
                  x.word == wordOf b sr σl path₀) =
              s.solutions.countP
                (fun x => x.positions == path₀ &&
                  x.word == wordOf b sr σl path₀) +
              (if Contrib b σl path₀ pos tile st ∧ c = wcAt σl pos
               then 1 else 0) := by
          intro s c hc hr
          obtain ⟨hsinv, hsu, hsadj, hspath, hswc⟩ := hr
          have hposltw : pos < s.wildcard.length := by
            rw [hsinv.2.1]
            exact hposlt
          have hposnotin : pos ∉ s.path := by
            intro hm
            have h1 := (hsinv.2.2.1 pos).mpr hm
            rw [hsu] at h1
            exact Bool.false_ne_true h1
          have hwcpath : ∀ i ∈ s.path,
              wcAt (s.wildcard.set pos c) i = wcAt s.wildcard i := by
            intro i hi
            have hne : pos ≠ i := fun he => hposnotin (he ▸ hi)
            unfold wcAt
            exact getD_set_ne s.wildcard c nulChar hne
          have hfr0 : SFrame dict b s { s with wildcard := s.wildcard.set pos c } := by
            refine ⟨rfl, rfl, by simp, ?_, ⟨[], by simp, by simp⟩⟩
            intro i hi
            exact hwcpath i ((hsinv.2.2.1 i).mp hi)
          have hsinv' : SInv b { s with wildcard := s.wildcard.set pos c } :=
            SInv_transport hsinv hfr0
          have hwords : wordOf b sr (s.wildcard.set pos c) s.path =
              wordOf b sr st.wildcard st.path := by
            rw [wordOf_stable b sr s.path hwcpath]
            calc wordOf b sr s.wildcard s.path
                = wordOf b sr st.wildcard s.path := wordOf_stable b sr s.path hswc
            _ = wordOf b sr st.wildcard st.path := by rw [hspath]
          have hdesc' : dict.descend
              (wordOf b sr (s.wildcard.set pos c) s.path) = some t1 := by
            rw [ht1t, hwords]
            exact hdesc
          have hwcself : wcAt (s.wildcard.set pos c) pos = c := by
            unfold wcAt
            exact getD_set_self s.wildcard pos c nulChar hposltw
          have hcnt := ih pos t1 (c :: tile.drop 1)
            { s with wildcard := s.wildcard.set pos c } hsinv' hposlt hsu hsadj
            (by
              intro i hi hq
              rw [hwcpath i hi, hswc i hi]
              exact halpha i (hspath ▸ hi) hq)
            hdesc'
            (Or.inr ⟨c, hc, by rw [hverb], hwcself, hhead0, by
              show 2 * (b.size - s.path.length) + 1 ≤ fuel
              rw [hspath]
              omega⟩)
          have hiffc : Contrib b σl path₀ pos (c :: tile.drop 1)
              { s with wildcard := s.wildcard.set pos c } ↔
              (Contrib b σl path₀ pos tile st ∧ c = wcAt σl pos) := by
            constructor
            · rintro ⟨hpre', hsync', hcompat'⟩
              have hceq : c = wcAt σl pos := by
                rcases hcompat' with hv' | ⟨hx', _⟩
                · exfalso
                  rw [hre0] at hv'
                  have h1 := (List.cons.injEq _ _ _ _).mp hv'
                  exact alphabet_no_wild (h1.1 ▸ hc)
                · exact ((List.cons.injEq _ _ _ _).mp hx').1
              refine ⟨⟨?_, ?_, Or.inl hverb⟩, hceq⟩
              · rw [show ({ s with wildcard := s.wildcard.set pos c } :
                    SState).path = st.path from hspath] at hpre'
                exact hpre'
              · intro i hi hq
                have hi2 : i ∈ s.path := hspath ▸ hi
                have := hsync' i hi2 hq
                rw [hwcpath i hi2, hswc i hi2] at this
                exact this
            · rintro ⟨⟨hpre, hsync, _⟩, hceq⟩
              refine ⟨?_, ?_, Or.inr ⟨?_, hhead0⟩⟩
              · rw [show ({ s with wildcard := s.wildcard.set pos c } :
                    SState).path = st.path from hspath]
                exact hpre
              · intro i hi hq
                have hi2 : i ∈ s.path := hspath ▸ hi
                rw [hwcpath i hi2, hswc i hi2]
                exact hsync i (hspath ▸ hi2) hq
              · rw [hverb, ← hceq]
            
          refine ⟨SFrame.trans hfr0 (solveAux_sframe b sr dict fuel pos t1
            (c :: tile.drop 1) { s with wildcard := s.wildcard.set pos c }
            ⟨hsinv', hposlt, hsu, hsadj, Or.inr ⟨c, hc, by rw [hverb], hwcself,
              (by
                intro he
                rw [he] at hhead0
                exact Option.noConfusion hhead0), Or.inl ⟨hhead0, hdesc'⟩⟩⟩), ?_⟩
          rw [hcnt]
          congr 1
          rw [if_congr hiffc rfl rfl]
        obtain ⟨_, _, hcount⟩ := foldl_count dict b
          (fun x => x.positions == path₀ && x.word == wordOf b sr σl path₀)
          (fun s => SInv b s ∧ usedAt s pos = false ∧
            (∀ l ∈ s.path.getLast?, b.isAdjacent l pos = true) ∧
            s.path = st.path ∧
            (∀ i ∈ s.path, wcAt s.wildcard i = wcAt st.wildcard i))
          (fun s c => solveAux b sr fuel pos t1 (c :: tile.drop 1)
            { s with wildcard := s.wildcard.set pos c })
          (fun c => if Contrib b σl path₀ pos tile st ∧ c = wcAt σl pos
            then 1 else 0)
          hRw alphabet hfw st ⟨hinv, hunused, hadj, rfl, fun i _ => rfl⟩
        show (alphabet.foldl (fun s c => solveAux b sr fuel pos t1
            (c :: tile.drop 1) { s with wildcard := s.wildcard.set pos c })
            st).solutions.countP
            (fun x => x.positions == path₀ && x.word == wordOf b sr σl path₀) =
          st.solutions.countP
            (fun x => x.positions == path₀ && x.word == wordOf b sr σl path₀) +
          (if Contrib b σl path₀ pos tile st then 1 else 0)
        have hsum : (alphabet.map
            (fun c => if Contrib b σl path₀ pos tile st ∧ c = wcAt σl pos
              then 1 else 0)).sum =
            (if Contrib b σl path₀ pos tile st then 1 else 0) := by
          by_cases hcp : Contrib b σl path₀ pos tile st
          · have hσmem : wcAt σl pos ∈ alphabet := by
              obtain ⟨_, hmem, _⟩ := take_succ_eq_append hcp.1
              exact hσa pos hmem (by rw [hre0]; exact List.mem_cons_self _ _)
            have hmap : alphabet.map
                (fun c => if Contrib b σl path₀ pos tile st ∧ c = wcAt σl pos
                  then 1 else 0) =
                alphabet.map (fun c => if c = wcAt σl pos then 1 else 0) := by
              refine map_congr_mem _ _ _ ?_
              intro c _
              rw [if_congr (and_iff_right hcp) rfl rfl]
            rw [hmap, sum_map_ite (wcAt σl pos) 1 alphabet alphabet_nodup,
              if_pos hσmem, if_pos hcp]
          · rw [if_neg hcp]
            apply List.sum_eq_zero
            intro x hx
            obtain ⟨c, _, hxi⟩ := List.mem_map.mp hx
            rw [← hxi, if_neg (fun hcc => hcp hcc.1)]
        omega
      | ok t1 =>
        rw [solveAux_ok b sr fuel pos t tile st t1 htile htl]
        have hnwt : '?' ∉ tile := tileLoop_ok_no_wild sr tile t t1 htl
        have hposltu : pos < st.used.length := by
          rw [hinv.1]
          exact hposlt
        have hposnotin : pos ∉ st.path := by
          intro hmem
          have h1 := (hinv.2.2.1 pos).mpr hmem
          rw [hunused] at h1
          exact Bool.false_ne_true h1
        have hnodup1 : (st.path ++ [pos]).Nodup :=
          nodup_snoc hinv.2.2.2.1 hposnotin
        have hchain1 : (st.path ++ [pos]).Chain'
            (fun i j => b.isAdjacent i j = true) :=
          chain_snoc hinv.2.2.2.2 hadj
        have hdesc1 : dict.descend
            (wordOf b sr st.wildcard (st.path ++ [pos])) = some t1 :=
          trel_ok_descend b sr dict htile hC1trel htl
        have hdepth : st.path.length + 1 ≤ b.size := by
          have h1 := nodup_lt_length_le (st.path ++ [pos]) b.size hnodup1 (by
            intro x hx
            rcases List.mem_append.mp hx with h | h
            · exact mem_path_lt hinv x h
            · rw [List.mem_singleton.mp h]
              exact hposlt)
          simpa using h1
        have hfuel2 : 2 * (b.size - (st.path.length + 1)) + 2 ≤ fuel := by
          rcases htrel with ⟨_, hf⟩ | ⟨_, _, _, _, _, hf⟩ <;> omega
        have halpha1 : ∀ i ∈ st.path ++ [pos], '?' ∈ b.tileAt i →
            wcAt st.wildcard i ∈ alphabet := by
          intro i hi hq
          rcases List.mem_append.mp hi with h | h
          · exact halpha i h hq
          · have he := List.mem_singleton.mp h
            subst he
            rcases htrel with ⟨hv, _⟩ | ⟨c, hc, _, hwcc, _, _⟩
            · rw [← hv] at hq
              exact absurd hq hnwt
            · rw [hwcc]
              exact hc
        have hcontrib_iff : Contrib b σl path₀ pos tile st ↔
            (path₀.take (st.path.length + 1) = st.path ++ [pos] ∧
              WSync b σl st ∧
              ('?' ∈ b.tileAt pos → wcAt st.wildcard pos = wcAt σl pos)) := by
          constructor
          · rintro ⟨hpre, hsync, hcompat⟩
            refine ⟨hpre, hsync, ?_⟩
            intro hq
            rcases htrel with ⟨hv, _⟩ | ⟨c, hc, hx, hwcc, hh, _⟩
            · rw [← hv] at hq
              exact absurd hq hnwt
            · rcases hcompat with hv2 | ⟨hx2, _⟩
              · exfalso
                have hhc : (b.tileAt pos).head? = some c := by
                  rw [← hv2, hx]
                  rfl
                rw [hh] at hhc
                injection hhc with h1
                exact alphabet_no_wild (h1 ▸ hc)
              · have h1 := (List.cons.injEq _ _ _ _).mp (hx.symm.trans hx2)
                rw [hwcc, h1.1]
          · rintro ⟨hpre, hsync, hp3⟩
            refine ⟨hpre, hsync, ?_⟩
            rcases htrel with ⟨hv, _⟩ | ⟨c, hc, hx, hwcc, hh, _⟩
            · exact Or.inl hv
            · refine Or.inr ⟨?_, hh⟩
              have hq : '?' ∈ b.tileAt pos := List.mem_of_mem_head? hh
              rw [hx, hwcc.symm.trans (hp3 hq)]
        set st1 : SState :=
          { st with used := st.used.set pos true, path := st.path ++ [pos] }
          with hst1
        have hinv1 : SInv b st1 := by
          refine ⟨by simp [hst1, hinv.1], by simp [hst1, hinv.2.1], ?_,
            hnodup1, hchain1⟩
          intro i
          by_cases hip : i = pos
          · subst hip
            constructor
            · intro _
              simp
            · intro _
              show (st.used.set i true).getD i false = true
              exact getD_set_self st.used i true false hposltu
          · have hne : pos ≠ i := fun he => hip he.symm
            show (st.used.set pos true).getD i false = true ↔ i ∈ st.path ++ [pos]
            rw [getD_set_ne st.used true false hne, List.mem_append]
            constructor
            · intro h
              exact Or.inl ((hinv.2.2.1 i).mp h)
            · intro h
              rcases h with h | h
              · exact (hinv.2.2.1 i).mpr h
              · simp at h
                exact absurd h hip
        set sol := scoreSolution b sr st1.wildcard st1.path with hsol
        set st2 : SState :=
          (if t1.isWordF then
            if (sol.wordLength : Int) ≥ sr.minWordLength then
              { st1 with solutions := st1.solutions ++ [sol] }
            else st1
          else st1) with hst2
        have h2facts : st2.used = st1.used ∧ st2.path = st1.path ∧
            st2.wildcard = st1.wildcard ∧
            st2.solutions.countP
                (fun x => x.positions == path₀ &&
                  x.word == wordOf b sr σl path₀) =
              st1.solutions.countP
                (fun x => x.positions == path₀ &&
                  x.word == wordOf b sr σl path₀) +
              (if (st.path ++ [pos] = path₀ ∧ WSync b σl st ∧
                  ('?' ∈ b.tileAt pos → wcAt st.wildcard pos = wcAt σl pos))
               then 1 else 0) := by
          by_cases hcase : st.path ++ [pos] = path₀ ∧ WSync b σl st ∧
              ('?' ∈ b.tileAt pos → wcAt st.wildcard pos = wcAt σl pos)
          · obtain ⟨hfull, p2, p3⟩ := hcase
            have hsyncP : ∀ i ∈ st.path ++ [pos], '?' ∈ b.tileAt i →
                wcAt st.wildcard i = wcAt σl i := by
              intro i hi hq
              rcases List.mem_append.mp hi with h | h
              · exact p2 i h hq
              · have he := List.mem_singleton.mp h
                subst he
                exact p3 hq
            have hwEq : wordOf b sr st.wildcard (st.path ++ [pos]) =
                wordOf b sr σl path₀ := by
              rw [wordOf_congr_sync b sr _ hsyncP, hfull]
            have ht1F : t1 = tF := by
              have h2 := hdesc1
              rw [hwEq, hWdesc] at h2
              injection h2 with h3
              exact h3.symm
            have hword1 : t1.isWordF = true := by
              rw [ht1F]
              exact hWword
            have hminlen : (sol.wordLength : Int) ≥ sr.minWordLength := by
              rw [hsol, scoreSolution_wordLength]
              have hlen : lenOf b sr st1.wildcard st1.path =
                  lenOf b sr σl path₀ := by
                show lenOf b sr st.wildcard (st.path ++ [pos]) = _
                rw [lenOf_congr_sync b sr _ hsyncP, hfull]
              rw [hlen]
              exact hmin
            have hPtsol : ((sol.positions == path₀ &&
                sol.word == wordOf b sr σl path₀) = true) := by
              rw [hsol, scoreSolution_positions, scoreSolution_word]
              show (((st.path ++ [pos] : List Nat) == path₀) &&
                (wordOf b sr st.wildcard (st.path ++ [pos]) ==
                  wordOf b sr σl path₀)) = true
              rw [hwEq, hfull]
              simp
            rw [hst2, if_pos hword1, if_pos hminlen,
              if_pos (⟨hfull, p2, p3⟩ : st.path ++ [pos] = path₀ ∧ _ ∧ _)]
            refine ⟨rfl, rfl, rfl, ?_⟩
            show (st1.solutions ++ [sol]).countP _ = _
            rw [List.countP_append]
            congr 1
            simp [List.countP_cons, hPtsol]
          · rw [hst2, if_neg hcase]
            by_cases hw1 : t1.isWordF = true
            · rw [if_pos hw1]
              by_cases hm1 : (sol.wordLength : Int) ≥ sr.minWordLength
              · rw [if_pos hm1]
                refine ⟨rfl, rfl, rfl, ?_⟩
                show (st1.solutions ++ [sol]).countP _ = _
                rw [List.countP_append]
                have hPtsol : ((sol.positions == path₀ &&
                    sol.word == wordOf b sr σl path₀) = false) := by
                  by_cases hfull : st.path ++ [pos] = path₀
                  · have hnsy : ¬ (WSync b σl st ∧ ('?' ∈ b.tileAt pos →
                        wcAt st.wildcard pos = wcAt σl pos)) :=
                      fun hc => hcase ⟨hfull, hc⟩
                    have hex : ∃ j, j ∈ st.path ++ [pos] ∧ '?' ∈ b.tileAt j ∧
                        wcAt st.wildcard j ≠ wcAt σl j := by
                      by_cases p2 : WSync b σl st
                      · have p3n : ¬ ('?' ∈ b.tileAt pos →
                            wcAt st.wildcard pos = wcAt σl pos) :=
                          fun hc => hnsy ⟨p2, hc⟩
                        push_neg at p3n
                        exact ⟨pos, by simp, p3n.1, p3n.2⟩
                      · unfold WSync at p2
                        push_neg at p2
                        obtain ⟨j, hj, hq, hne⟩ := p2
                        exact ⟨j, List.mem_append_left _ hj, hq, hne⟩
                    obtain ⟨j, hj, hq, hne⟩ := hex
                    have hwne : wordOf b sr st.wildcard (st.path ++ [pos]) ≠
                        wordOf b sr σl path₀ := by
                      rw [← hfull]
                      exact wordOf_ne_of_mismatch b sr _ j hj hq
                        (halpha1 j hj hq) (hσa j (hfull ▸ hj) hq) hne
                    rw [hsol, scoreSolution_positions, scoreSolution_word]
                    have hB : ((wordOf b sr st1.wildcard st1.path ==
                        wordOf b sr σl path₀) : Bool) = false := by
                      rw [beq_eq_false_iff_ne]
                      exact hwne
                    rw [hB, Bool.and_false]
                  · rw [hsol, scoreSolution_positions]
                    have hA : (((st1.path : List Nat) == path₀) : Bool) = false := by
                      rw [beq_eq_false_iff_ne]
                      exact hfull
                    rw [hA, Bool.false_and]
                simp [List.countP_cons, hPtsol]
              · rw [if_neg hm1]
                exact ⟨rfl, rfl, rfl, by omega⟩
            · rw [if_neg hw1]
              exact ⟨rfl, rfl, rfl, by omega⟩
        obtain ⟨h2u, h2p, h2w, h2cnt⟩ := h2facts
        have hinv2 : SInv b st2 :=
          ⟨by rw [h2u]; exact hinv1.1, by rw [h2w]; exact hinv1.2.1,
           (fun i => by unfold usedAt; rw [h2u, h2p]; exact hinv1.2.2.1 i),
           by rw [h2p]; exact hinv1.2.2.2.1,
           by rw [h2p]; exact hinv1.2.2.2.2⟩
        have hRc : ∀ s s',
            (SInv b s ∧ s.path = st.path ++ [pos] ∧
              (∀ i ∈ s.path, wcAt s.wildcard i = wcAt st.wildcard i)) →
            SFrame dict b s s' →
            (SInv b s' ∧ s'.path = st.path ++ [pos] ∧
              (∀ i ∈ s'.path, wcAt s'.wildcard i = wcAt st.wildcard i)) := by
          intro s s' hr hfr
          obtain ⟨hi, hp, hwcs⟩ := hr
          refine ⟨SInv_transport hi hfr, hfr.2.1.trans hp, ?_⟩
          intro i hi2
          rw [hfr.2.1] at hi2
          exact (hfr.2.2.2.1 i ((hi.2.2.1 i).mpr hi2)).trans (hwcs i hi2)
        have hfc : ∀ s i, i ∈ List.range b.size →
            (SInv b s ∧ s.path = st.path ++ [pos] ∧
              (∀ i ∈ s.path, wcAt s.wildcard i = wcAt st.wildcard i)) →
            SFrame dict b s
              (if usedAt s i = false ∧ b.isAdjacent pos i = true then
                solveAux b sr fuel i t1 (b.tileAt i) s
              else s) ∧
            (if usedAt s i = false ∧ b.isAdjacent pos i = true then
                solveAux b sr fuel i t1 (b.tileAt i) s
              else s).solutions.countP
                (fun x => x.positions == path₀ &&
                  x.word == wordOf b sr σl path₀) =
              s.solutions.countP
                (fun x => x.positions == path₀ &&
                  x.word == wordOf b sr σl path₀) +
              (if (path₀.take (st.path.length + 1 + 1) =
                  (st.path ++ [pos]) ++ [i] ∧ WSync b σl st ∧
                  ('?' ∈ b.tileAt pos → wcAt st.wildcard pos = wcAt σl pos))
               then 1 else 0) := by
          intro s i hi hr
          obtain ⟨hsinv, hsp, hswc⟩ := hr
          by_cases hcnd : usedAt s i = false ∧ b.isAdjacent pos i = true
          · have hwords : wordOf b sr s.wildcard s.path =
                wordOf b sr st.wildcard (st.path ++ [pos]) := by
              calc wordOf b sr s.wildcard s.path
                  = wordOf b sr st.wildcard s.path :=
                    wordOf_stable b sr s.path hswc
              _ = wordOf b sr st.wildcard (st.path ++ [pos]) := by rw [hsp]
            have hdescc : dict.descend (wordOf b sr s.wildcard s.path) =
                some t1 := by
              rw [hwords]
              exact hdesc1
            have hlastc : ∀ l ∈ s.path.getLast?, b.isAdjacent l i = true := by
              intro l hl
              rw [hsp, List.getLast?_concat] at hl
              simp only [Option.mem_def, Option.some.injEq] at hl
              subst hl
              exact hcnd.2
            have hframe : SFrame dict b s
                (solveAux b sr fuel i t1 (b.tileAt i) s) :=
              solveAux_sframe b sr dict fuel i t1 (b.tileAt i) s
                ⟨hsinv, List.mem_range.mp hi, hcnd.1, hlastc,
                  Or.inl ⟨rfl, hdescc⟩⟩
            have hcnt := ih i t1 (b.tileAt i) s hsinv (List.mem_range.mp hi)
              hcnd.1 hlastc
              (by
                intro j hj hq
                rw [hswc j hj]
                exact halpha1 j (hsp ▸ hj) hq)
              hdescc
              (Or.inl ⟨rfl, by
                rw [hsp]
                simp only [List.length_append, List.length_singleton]
                omega⟩)
            have hiffc : Contrib b σl path₀ i (b.tileAt i) s ↔
                (path₀.take (st.path.length + 1 + 1) =
                  (st.path ++ [pos]) ++ [i] ∧ WSync b σl st ∧
                  ('?' ∈ b.tileAt pos → wcAt st.wildcard pos = wcAt σl pos)) := by
              constructor
              · rintro ⟨hpre', hsync', _⟩
                refine ⟨?_, ?_, ?_⟩
                · rw [hsp, List.length_append, List.length_singleton] at hpre'
                  exact hpre'
                · intro j hj hq
                  have hj' : j ∈ s.path := by
                    rw [hsp]
                    exact List.mem_append_left _ hj
                  have hx := hsync' j hj' hq
                  rw [hswc j hj'] at hx
                  exact hx
                · intro hq
                  have hj' : pos ∈ s.path := by
                    rw [hsp]
                    simp
                  have hx := hsync' pos hj' hq
                  rw [hswc pos hj'] at hx
                  exact hx
              · rintro ⟨hpre, hsy, hp3⟩
                refine ⟨?_, ?_, Or.inl rfl⟩
                · rw [hsp, List.length_append, List.length_singleton]
                  exact hpre
                · intro j hj hq
                  rw [hswc j hj]
                  rw [hsp] at hj
                  rcases List.mem_append.mp hj with h | h
                  · exact hsy j h hq
                  · have he := List.mem_singleton.mp h
                    subst he
                    exact hp3 hq
            refine ⟨by rw [if_pos hcnd]; exact hframe, ?_⟩
            rw [if_pos hcnd]
            have hiteeq : (if Contrib b σl path₀ i (b.tileAt i) s then 1 else 0) =
                (if (path₀.take (st.path.length + 1 + 1) =
                    (st.path ++ [pos]) ++ [i] ∧ WSync b σl st ∧
                    ('?' ∈ b.tileAt pos → wcAt st.wildcard pos = wcAt σl pos))
                 then 1 else 0) := if_congr hiffc rfl rfl
            omega
          · refine ⟨by rw [if_neg hcnd]; exact SFrame.rfl dict b s, ?_⟩
            rw [if_neg hcnd]
            have hzero : ¬ (path₀.take (st.path.length + 1 + 1) =
                (st.path ++ [pos]) ++ [i] ∧ WSync b σl st ∧
                ('?' ∈ b.tileAt pos → wcAt st.wildcard pos = wcAt σl pos)) := by
              rintro ⟨hpre, _, _⟩
              apply hcnd
              have hnd2 : ((st.path ++ [pos]) ++ [i]).Nodup := by
                rw [← hpre]
                exact List.Nodup.sublist (List.take_sublist _ _) hnd
              have hinotmem : i ∉ st.path ++ [pos] := nodup_snoc_not_mem hnd2
              have hiused : usedAt s i = false := by
                cases hu : usedAt s i with
                | false => rfl
                | true =>
                  exfalso
                  apply hinotmem
                  rw [← hsp]
                  exact (hsinv.2.2.1 i).mp hu
              have hadji : b.isAdjacent pos i = true := by
                have hrec : path₀ = st.path ++ pos :: i ::
                    path₀.drop (st.path.length + 1 + 1) := by
                  calc path₀ = path₀.take (st.path.length + 1 + 1) ++
                      path₀.drop (st.path.length + 1 + 1) :=
                        (List.take_append_drop _ _).symm
                  _ = ((st.path ++ [pos]) ++ [i]) ++
                      path₀.drop (st.path.length + 1 + 1) := by rw [hpre]
                  _ = st.path ++ pos :: i ::
                      path₀.drop (st.path.length + 1 + 1) := by simp
                have hc2 := hch
                rw [hrec] at hc2
                exact chain'_middle st.path pos i _ hc2
              exact ⟨hiused, hadji⟩
            rw [if_neg hzero]
            omega
        obtain ⟨_, _, hcount3⟩ := foldl_count dict b
          (fun x => x.positions == path₀ && x.word == wordOf b sr σl path₀)
          (fun s => SInv b s ∧ s.path = st.path ++ [pos] ∧
            (∀ i ∈ s.path, wcAt s.wildcard i = wcAt st.wildcard i))
          (fun s i => if usedAt s i = false ∧ b.isAdjacent pos i = true then
            solveAux b sr fuel i t1 (b.tileAt i) s else s)
          (fun i => if (path₀.take (st.path.length + 1 + 1) =
              (st.path ++ [pos]) ++ [i] ∧ WSync b σl st ∧
              ('?' ∈ b.tileAt pos → wcAt st.wildcard pos = wcAt σl pos))
            then 1 else 0)
          hRc (List.range b.size) hfc st2
          ⟨hinv2, by rw [h2p], by
            intro i hi
            rw [h2w]⟩
        have hfinal :
            (if (st.path ++ [pos] = path₀ ∧ WSync b σl st ∧
                ('?' ∈ b.tileAt pos → wcAt st.wildcard pos = wcAt σl pos))
             then 1 else 0) +
            ((List.range b.size).map (fun i =>
              if (path₀.take (st.path.length + 1 + 1) =
                  (st.path ++ [pos]) ++ [i] ∧ WSync b σl st ∧
                  ('?' ∈ b.tileAt pos → wcAt st.wildcard pos = wcAt σl pos))
               then 1 else 0)).sum =
            (if Contrib b σl path₀ pos tile st then 1 else 0) := by
          by_cases hsy : WSync b σl st ∧
              ('?' ∈ b.tileAt pos → wcAt st.wildcard pos = wcAt σl pos)
          · obtain ⟨p2, p3⟩ := hsy
            by_cases hp1 : path₀.take (st.path.length + 1) = st.path ++ [pos]
            · rw [if_pos (hcontrib_iff.mpr ⟨hp1, p2, p3⟩)]
              by_cases hfull : st.path ++ [pos] = path₀
              · rw [if_pos ⟨hfull, p2, p3⟩]
                have hzero : ∀ x ∈ (List.range b.size).map (fun i =>
                    if (path₀.take (st.path.length + 1 + 1) =
                        (st.path ++ [pos]) ++ [i] ∧ WSync b σl st ∧
                        ('?' ∈ b.tileAt pos →
                          wcAt st.wildcard pos = wcAt σl pos))
                     then 1 else 0), x = 0 := by
                  intro x hx
                  obtain ⟨i, _, hxi⟩ := List.mem_map.mp hx
                  rw [← hxi, if_neg ?_]
                  rintro ⟨hpre, _, _⟩
                  have hl1 : path₀.length = st.path.length + 1 := by
                    rw [← hfull]
                    simp
                  have hl2 : (path₀.take (st.path.length + 1 + 1)).length =
                      st.path.length + 2 := by
                    rw [hpre]
                    simp
                  rw [List.length_take] at hl2
                  omega
                rw [List.sum_eq_zero hzero]
                omega
              · rw [if_neg (fun hc => hfull hc.1)]
                have hlen2 : st.path.length + 1 < path₀.length := by
                  rcases Nat.lt_or_ge (st.path.length + 1) path₀.length with h | h
                  · exact h
                  · exact absurd (hp1.symm.trans (List.take_of_length_le h)) hfull
                have hA : path₀.take (st.path.length + 1 + 1) =
                    (st.path ++ [pos]) ++ [path₀.getD (st.path.length + 1) 0] := by
                  rw [List.take_succ, hp1]
                  congr 1
                  rw [List.getElem?_eq_getElem hlen2,
                    List.getD_eq_getElem path₀ 0 hlen2]
                  rfl
                have hi0mem : path₀.getD (st.path.length + 1) 0 ∈ path₀ :=
                  getD_mem path₀ _ 0 hlen2
                have hi0lt : path₀.getD (st.path.length + 1) 0 < b.size :=
                  hplt _ hi0mem
                have hmapc : (List.range b.size).map (fun i =>
                    if (path₀.take (st.path.length + 1 + 1) =
                        (st.path ++ [pos]) ++ [i] ∧ WSync b σl st ∧
                        ('?' ∈ b.tileAt pos →
                          wcAt st.wildcard pos = wcAt σl pos))
                     then 1 else 0) =
                    (List.range b.size).map (fun i =>
                      if i = path₀.getD (st.path.length + 1) 0 then 1 else 0) := by
                  refine map_congr_mem _ _ _ ?_
                  intro i _
                  by_cases he : i = path₀.getD (st.path.length + 1) 0
                  · subst he
                    rw [if_pos ⟨hA, p2, p3⟩, if_pos rfl]
                  · rw [if_neg ?_, if_neg he]
                    rintro ⟨hpre, _, _⟩
                    apply he
                    have h1 := hA.symm.trans hpre
                    have h2 := List.append_cancel_left h1
                    exact (((List.cons.injEq _ _ _ _).mp h2).1).symm
                rw [hmapc, sum_map_ite (path₀.getD (st.path.length + 1) 0) 1
                  (List.range b.size) (List.nodup_range b.size),
                  if_pos (List.mem_range.mpr hi0lt)]
            · rw [if_neg (fun hc => hp1 (hcontrib_iff.mp hc).1)]
              have hne1 : ¬ (st.path ++ [pos] = path₀ ∧ WSync b σl st ∧
                  ('?' ∈ b.tileAt pos → wcAt st.wildcard pos = wcAt σl pos)) := by
                rintro ⟨hfull, _, _⟩
                apply hp1
                rw [← hfull]
                exact List.take_of_length_le (by simp)
              rw [if_neg hne1]
              have hzero : ∀ x ∈ (List.range b.size).map (fun i =>
                  if (path₀.take (st.path.length + 1 + 1) =
                      (st.path ++ [pos]) ++ [i] ∧ WSync b σl st ∧
                      ('?' ∈ b.tileAt pos →
                        wcAt st.wildcard pos = wcAt σl pos))
                   then 1 else 0), x = 0 := by
                intro x hx
                obtain ⟨i, _, hxi⟩ := List.mem_map.mp hx
                rw [← hxi, if_neg ?_]
                rintro ⟨hpre, _, _⟩
                apply hp1
                have h1 : (path₀.take (st.path.length + 1 + 1)).take
                    (st.path.length + 1) = st.path ++ [pos] := by
                  rw [hpre]
                  exact List.take_left' (by simp)
                rw [List.take_take] at h1
                have hmin2 : min (st.path.length + 1) (st.path.length + 1 + 1) =
                    st.path.length + 1 := by omega
                rw [hmin2] at h1
                exact h1
              rw [List.sum_eq_zero hzero]
              omega
          · rw [if_neg (fun hc => hsy ⟨(hcontrib_iff.mp hc).2.1,
              (hcontrib_iff.mp hc).2.2⟩)]
            rw [if_neg (fun hc => hsy ⟨hc.2.1, hc.2.2⟩)]
            have hzero : ∀ x ∈ (List.range b.size).map (fun i =>
                if (path₀.take (st.path.length + 1 + 1) =
                    (st.path ++ [pos]) ++ [i] ∧ WSync b σl st ∧
                    ('?' ∈ b.tileAt pos → wcAt st.wildcard pos = wcAt σl pos))
                 then 1 else 0), x = 0 := by
              intro x hx
              obtain ⟨i, _, hxi⟩ := List.mem_map.mp hx
              rw [← hxi, if_neg (fun hc => hsy ⟨hc.2.1, hc.2.2⟩)]
            rw [List.sum_eq_zero hzero]
            omega
        show ((List.range b.size).foldl (fun s i =>
            if usedAt s i = false ∧ b.isAdjacent pos i = true then
              solveAux b sr fuel i t1 (b.tileAt i) s else s) st2).solutions.countP
            (fun x => x.positions == path₀ && x.word == wordOf b sr σl path₀) =
          st.solutions.countP
            (fun x => x.positions == path₀ && x.word == wordOf b sr σl path₀) +
          (if Contrib b σl path₀ pos tile st then 1 else 0)
        have hs1s : st1.solutions = st.solutions := rfl
        rw [hs1s] at h2cnt
        omega

/-- The example board satisfies the parse invariant: every tile is an
uppercase head with lowercase tail. -/
theorem exCatBoard_wf : exCatBoard.WF := by
  intro tl htl
  simp only [exCatBoard, List.mem_cons, List.not_mem_nil, or_false] at htl
  rcases htl with h | h | h <;> subst h <;>
    exact Or.inr ⟨_, _, rfl, Or.inl (by decide), by intro d hd; simp at hd⟩

/-- Claim C2: the solver is complete and free of duplicates — for every
simple path of pairwise-adjacent, non-empty tiles on the board, and every
wildcard substitution (an A–Z letter at each path tile headed by `'?'`)
such that the substituted word is in the dictionary and meets the minimum
word length, `Solver::solve` emits exactly one Solution with that path and
that substituted word. -/
theorem claim2_solver_completeness (s : Solver) (b : Board)
    (sr : GameScoringRules) (σl : List Char) (path₀ : List Nat)
    (hwf : b.WF)
    (hne : path₀ ≠ [])
    (hnd : path₀.Nodup)
    (hch : path₀.Chain' (fun i j => b.isAdjacent i j = true))
    (hplt : ∀ i ∈ path₀, i < b.size)
    (hpne : ∀ i ∈ path₀, b.tileAt i ≠ [])
    (hσa : ∀ i ∈ path₀, '?' ∈ b.tileAt i → wcAt σl i ∈ alphabet)
    (hdict : s.dict.containsWord (wordOf b sr σl path₀) = true)
    (hmin : (lenOf b sr σl path₀ : Int) ≥ sr.minWordLength) :
    (s.solve (some b) sr).solutions.countP
      (fun x => x.positions == path₀ && x.word == wordOf b sr σl path₀) = 1 := by
  obtain ⟨tF, hWdesc, hWword⟩ : ∃ tF,
      s.dict.descend (wordOf b sr σl path₀) = some tF ∧ tF.isWordF = true := by
    rw [Trie.containsWord_eq_descend] at hdict
    cases hd : s.dict.descend (wordOf b sr σl path₀) with
    | none =>
      rw [hd] at hdict
      exact absurd hdict (by simp)
    | some tF =>
      rw [hd] at hdict
      exact ⟨tF, rfl, by simpa using hdict⟩
  obtain ⟨h0, rest, hpath⟩ := List.exists_cons_of_ne_nil hne
  set st0 : SState :=
    ⟨List.replicate b.size false, [], List.replicate b.size nulChar, []⟩ with hst0
  have hinv0 : SInv b st0 := by
    refine ⟨by simp [hst0], by simp [hst0], ?_, by simp [hst0], by simp [hst0]⟩
    intro i
    constructor
    · intro h
      rw [show usedAt st0 i = false from getD_replicate_false b.size i] at h
      exact absurd h Bool.false_ne_true
    · intro h
      exact absurd h (by simp [hst0])
  have hR : ∀ s1 s2, (SInv b s1 ∧ s1.path = ([] : List Nat) ∧
        s1.used = List.replicate b.size false) →
      SFrame s.dict b s1 s2 →
      (SInv b s2 ∧ s2.path = ([] : List Nat) ∧
        s2.used = List.replicate b.size false) := by
    intro s1 s2 hr hfr
    refine ⟨SInv_transport hr.1 hfr, ?_, ?_⟩
    · rw [hfr.2.1]
      exact hr.2.1
    · rw [hfr.1]
      exact hr.2.2
  have hfc : ∀ s1 i, i ∈ List.range b.size →
      (SInv b s1 ∧ s1.path = ([] : List Nat) ∧
        s1.used = List.replicate b.size false) →
      SFrame s.dict b s1
        (solveAux b sr (2 * b.size + 2) i s.dict (b.tileAt i) s1) ∧
      (solveAux b sr (2 * b.size + 2) i s.dict (b.tileAt i) s1).solutions.countP
          (fun x => x.positions == path₀ && x.word == wordOf b sr σl path₀) =
        s1.solutions.countP
          (fun x => x.positions == path₀ && x.word == wordOf b sr σl path₀) +
        (if i = h0 then 1 else 0) := by
    intro s1 i hi hr
    have hu1 : usedAt s1 i = false := by
      show s1.used.getD i false = false
      rw [hr.2.2]
      exact getD_replicate_false b.size i
    have hlast : ∀ l ∈ s1.path.getLast?, b.isAdjacent l i = true := by
      intro l hl
      rw [hr.2.1] at hl
      simp at hl
    have halpha : WAlpha b s1 := by
      intro j hj _
      rw [hr.2.1] at hj
      simp at hj
    have hdesc0 : s.dict.descend (wordOf b sr s1.wildcard s1.path) = some s.dict := by
      rw [hr.2.1]
      rfl
    refine ⟨solveAux_sframe b sr s.dict (2 * b.size + 2) i s.dict (b.tileAt i) s1
      ⟨hr.1, List.mem_range.mp hi, hu1, hlast, Or.inl ⟨rfl, hdesc0⟩⟩, ?_⟩
    have hcnt := solveAux_count b sr s.dict σl path₀ hwf hnd hch hplt hpne hσa
      tF hWdesc hWword hmin (2 * b.size + 2) i s.dict (b.tileAt i) s1
      hr.1 (List.mem_range.mp hi) hu1 hlast halpha hdesc0
      (Or.inl ⟨rfl, by rw [hr.2.1]; show 2 * (b.size - 0) + 2 ≤ 2 * b.size + 2; omega⟩)
    have hiff : Contrib b σl path₀ i (b.tileAt i) s1 ↔ i = h0 := by
      constructor
      · rintro ⟨hpre, _, _⟩
        rw [hr.2.1] at hpre
        rw [hpath] at hpre
        simp at hpre
        exact hpre.symm
      · intro he
        subst he
        refine ⟨?_, ?_, Or.inl rfl⟩
        · rw [hr.2.1, hpath]
          rfl
        · intro j hj _
          rw [hr.2.1] at hj
          simp at hj
    have hie : (if Contrib b σl path₀ i (b.tileAt i) s1 then 1 else 0) =
        (if i = h0 then 1 else 0) := if_congr hiff rfl rfl
    omega
  obtain ⟨_, _, hcount⟩ := foldl_count s.dict b
    (fun x => x.positions == path₀ && x.word == wordOf b sr σl path₀)
    (fun s1 => SInv b s1 ∧ s1.path = ([] : List Nat) ∧
      s1.used = List.replicate b.size false)
    (fun st i => solveAux b sr (2 * b.size + 2) i s.dict (b.tileAt i) st)
    (fun i => if i = h0 then 1 else 0)
    hR (List.range b.size) hfc st0 ⟨hinv0, rfl, rfl⟩
  have hsolve : (s.solve (some b) sr).solutions =
      ((List.range b.size).foldl
        (fun st i => solveAux b sr (2 * b.size + 2) i s.dict (b.tileAt i) st)
        st0).solutions := rfl
  rw [hsolve, hcount]
  have hsum : ((List.range b.size).map (fun i => if i = h0 then 1 else 0)).sum = 1 := by
    rw [sum_map_ite h0 1 (List.range b.size) (List.nodup_range b.size)]
    rw [if_pos (List.mem_range.mpr (hplt h0 (hpath ▸ List.mem_cons_self h0 rest)))]
  rw [hsum]
  rfl

/-- Witness for claim C2 at a concrete input: on the C–A–T strip with
dictionary {CAT, CATS}, exactly one CAT solution along [0, 1, 2] is
emitted. -/
theorem claim2_witness :
    (exCatSolver.solve (some exCatBoard) exCatRules).solutions.countP
      (fun x => x.positions == [0, 1, 2] &&
        x.word == wordOf exCatBoard exCatRules [] [0, 1, 2]) = 1 :=
  claim2_solver_completeness exCatSolver exCatBoard exCatRules [] [0, 1, 2]
    exCatBoard_wf (by decide) (by decide)
    (List.chain'_cons.mpr ⟨by decide, List.chain'_cons.mpr
      ⟨by decide, List.chain'_singleton 2⟩⟩)
    (by decide) (by decide) (by decide) (by decide) (by decide)

end WGS
